import Mathlib

/-!
# practice-c-compiler: the recursive-descent expression parser (`src/parser.c`)

A shallow embedding of `parser.c`.  The token list that the C code walks
through the global pointer `g_token` is a `List Token` (the empty list is the
`NULL` pointer, `tok :: next` is a token whose `next` field points at `next`);
every parsing function is a function from the cursor to a result that carries
the new cursor.  `error_at` does not return, so a call to it ends the run with
`Res.error`.  The mutual recursion of the C functions is cut by a depth
counter; `run` supplies a counter that is large enough for the given input.
-/

namespace Parser9cc

variable {α β : Type}

/-- Modelled from the spec: the token kinds of `9cc.h` (reserved operator,
numeric literal, end of input), which `parser.c` uses as `TK_RESERVED`,
`TK_NUM` and `TK_EOF`. -/
inductive TokenKind where
  | TK_RESERVED
  | TK_NUM
  | TK_EOF
  deriving DecidableEq, Repr

/-- Modelled from the spec: the `Token` record of `9cc.h`, with the fields
`parser.c` reads.  `str` is what the pointer `str` points at: the source text
from the first character of the token up to the end of the text; it is also the
position handed to `error_at`.  The field `next` is the tail of the list. -/
structure Token where
  kind : TokenKind
  val : Int
  str : List Char
  len : Nat
  deriving DecidableEq, Repr

/-- Modelled from the spec: the nine node kinds of `9cc.h`. -/
inductive NodeKind where
  | ND_ADD
  | ND_SUB
  | ND_MUL
  | ND_DIV
  | ND_EQ
  | ND_NE
  | ND_LT
  | ND_LTE
  | ND_NUM
  deriving DecidableEq, Repr

/-- Modelled from the spec: a value of type `Node *` for the `Node` record of
`9cc.h`: either the null pointer or a record with the fields `kind`, `lhs`,
`rhs` and `val`. -/
inductive Node where
  | NULL : Node
  | mk (kind : NodeKind) (lhs : Node) (rhs : Node) (val : Int) : Node
  deriving DecidableEq, Repr

/-- The message of a call to `error_at` in `parser.c`: the format of `expect`
together with its argument `op`, or the format of `expect_number`. -/
inductive Message where
  | not_op (op : String)
  | not_number
  deriving DecidableEq, Repr

/-- The outcome of running a parsing function from a cursor.
* `ok v cur`: the function returned `v` and `g_token` is now `cur`;
* `error loc msg cur`: `error_at loc msg` was called while `g_token` was `cur`
  (modelled from the spec: `error_at` reports and never returns);
* `null_deref`: `g_token` was dereferenced while it was `NULL`;
* `out_of_depth`: the depth counter of the embedding ran out. -/
inductive Res (α : Type) where
  | ok (v : α) (cur : List Token)
  | error (loc : List Char) (msg : Message) (cur : List Token)
  | null_deref
  | out_of_depth
  deriving DecidableEq, Repr

/-- A parsing function: it reads and moves the cursor `g_token`. -/
def Parser (α : Type) : Type := List Token → Res α

/-- Sequencing of two parsing steps: the second one runs from the cursor the
first one left, and only when the first one returned. -/
def Parser.bind {α β : Type} (p : Parser α) (f : α → Parser β) : Parser β :=
  fun cur =>
    match p cur with
    | Res.ok v cur1 => f v cur1
    | Res.error loc msg cur1 => Res.error loc msg cur1
    | Res.null_deref => Res.null_deref
    | Res.out_of_depth => Res.out_of_depth

/-- Returning a value leaves the cursor where it is. -/
def Parser.pure {α : Type} (v : α) : Parser α := fun cur => Res.ok v cur

instance : Monad Parser where
  pure := Parser.pure
  bind := Parser.bind

/-- The C library function `strlen` on a string constant. -/
def strlen (op : String) : Nat := op.data.length

/-- The C library function `memcmp`, as far as `parser.c` uses it: `true` when
the result is non-zero, that is when the first `n` bytes at `s1` and at `s2`
differ.  A text that ends before `n` bytes differs from one that does not. -/
def memcmp (s1 s2 : List Char) (n : Nat) : Bool :=
  decide (s1.take n ≠ s2.take n)

/-- The function `expect` (parser.c, lines 8-17). -/
def expect (op : String) : Parser Unit := fun g_token =>
  match g_token with
  | [] => Res.null_deref
  | tok :: next =>
    if tok.kind ≠ TokenKind.TK_RESERVED ∨
       tok.len ≠ strlen op ∨
       memcmp tok.str op.data tok.len = true
    then Res.error tok.str (Message.not_op op) g_token
    else Res.ok () next

/-- The function `at_eof` (parser.c, lines 19-21). -/
def at_eof : Parser Bool := fun g_token =>
  match g_token with
  | [] => Res.null_deref
  | tok :: _ => Res.ok (decide (tok.kind = TokenKind.TK_EOF)) g_token

/-- The function `consume` (parser.c, lines 25-35). -/
def consume (op : String) : Parser Bool := fun g_token =>
  match g_token with
  | [] => Res.null_deref
  | tok :: next =>
    if tok.kind ≠ TokenKind.TK_RESERVED ∨
       tok.len ≠ strlen op ∨
       memcmp tok.str op.data tok.len = true
    then Res.ok false g_token
    else Res.ok true next

/-- The function `expect_number` (parser.c, lines 39-46). -/
def expect_number : Parser Int := fun g_token =>
  match g_token with
  | [] => Res.null_deref
  | tok :: next =>
    if tok.kind ≠ TokenKind.TK_NUM
    then Res.error tok.str Message.not_number g_token
    else Res.ok tok.val next

/-- The function `new_node` (parser.c, lines 48-54); `calloc` leaves `val` zero. -/
def new_node (kind : NodeKind) (lhs rhs : Node) : Node :=
  Node.mk kind lhs rhs 0

/-- The function `new_node_num` (parser.c, lines 56-61); `calloc` leaves both
children null. -/
def new_node_num (val : Int) : Node :=
  Node.mk NodeKind.ND_NUM Node.NULL Node.NULL val

mutual

/-- The function `primary` (parser.c, lines 67-76). -/
def primary : Nat → Parser Node
  | 0 => fun _ => Res.out_of_depth
  | d + 1 => do
    if (← consume "(") then
      let node ← expr d
      expect ")"
      return node
    else
      return new_node_num (← expect_number)

/-- The function `unary` (parser.c, lines 78-86). -/
def unary : Nat → Parser Node
  | 0 => fun _ => Res.out_of_depth
  | d + 1 => do
    if (← consume "+") then
      primary d
    else if (← consume "-") then
      return new_node NodeKind.ND_SUB (new_node_num 0) (← primary d)
    else
      primary d

/-- The `for (;;)` loop of `mul` (parser.c, lines 91-99), entered with the
local variable `node`. -/
def mul_loop : Nat → Node → Parser Node
  | 0, _ => fun _ => Res.out_of_depth
  | d + 1, node => do
    if (← consume "*") then
      mul_loop d (new_node NodeKind.ND_MUL node (← unary d))
    else if (← consume "/") then
      mul_loop d (new_node NodeKind.ND_DIV node (← unary d))
    else
      return node

/-- The function `mul` (parser.c, lines 88-100). -/
def mul : Nat → Parser Node
  | 0 => fun _ => Res.out_of_depth
  | d + 1 => do
    let node ← unary d
    mul_loop d node

/-- The `for (;;)` loop of `add` (parser.c, lines 105-113). -/
def add_loop : Nat → Node → Parser Node
  | 0, _ => fun _ => Res.out_of_depth
  | d + 1, node => do
    if (← consume "+") then
      add_loop d (new_node NodeKind.ND_ADD node (← mul d))
    else if (← consume "-") then
      add_loop d (new_node NodeKind.ND_SUB node (← mul d))
    else
      return node

/-- The function `add` (parser.c, lines 102-114). -/
def add : Nat → Parser Node
  | 0 => fun _ => Res.out_of_depth
  | d + 1 => do
    let node ← mul d
    add_loop d node

/-- The `for (;;)` loop of `relational` (parser.c, lines 119-131). -/
def relational_loop : Nat → Node → Parser Node
  | 0, _ => fun _ => Res.out_of_depth
  | d + 1, node => do
    if (← consume "<=") then
      relational_loop d (new_node NodeKind.ND_LTE node (← add d))
    else if (← consume ">=") then
      relational_loop d (new_node NodeKind.ND_LTE (← add d) node)
    else if (← consume "<") then
      relational_loop d (new_node NodeKind.ND_LT node (← add d))
    else if (← consume ">") then
      relational_loop d (new_node NodeKind.ND_LT (← add d) node)
    else
      return node

/-- The function `relational` (parser.c, lines 116-132). -/
def relational : Nat → Parser Node
  | 0 => fun _ => Res.out_of_depth
  | d + 1 => do
    let node ← add d
    relational_loop d node

/-- The `for (;;)` loop of `equality` (parser.c, lines 137-145). -/
def equality_loop : Nat → Node → Parser Node
  | 0, _ => fun _ => Res.out_of_depth
  | d + 1, node => do
    if (← consume "==") then
      equality_loop d (new_node NodeKind.ND_EQ node (← relational d))
    else if (← consume "!=") then
      equality_loop d (new_node NodeKind.ND_NE node (← relational d))
    else
      return node

/-- The function `equality` (parser.c, lines 134-146). -/
def equality : Nat → Parser Node
  | 0 => fun _ => Res.out_of_depth
  | d + 1 => do
    let node ← relational d
    equality_loop d node

/-- The function `expr` (parser.c, lines 148-150). -/
def expr : Nat → Parser Node
  | 0 => fun _ => Res.out_of_depth
  | d + 1 => equality d

end

/-- Runs a parsing function from the cursor `g_token` with a depth counter
that no token list of this length exhausts (see `run_expr_ne_out_of_depth`). -/
def run {α : Type} (p : Nat → Parser α) (g_token : List Token) : Res α :=
  p (7 * g_token.length + 7) g_token

/-! ## Tokens as terminals of the grammar -/

/-- The token `tok` is the reserved operator `op`: its kind is
reserved-operator, its length is that of `op` and its text, the first `len`
characters at `str`, is `op`. -/
def is_op (op : String) (tok : Token) : Prop :=
  tok.kind = TokenKind.TK_RESERVED ∧ tok.len = strlen op ∧ tok.str.take tok.len = op.data

instance (op : String) (tok : Token) : Decidable (is_op op tok) :=
  inferInstanceAs (Decidable (_ ∧ _ ∧ _))

/-- The token `tok` is a numeric literal. -/
def is_num (tok : Token) : Prop := tok.kind = TokenKind.TK_NUM

instance (tok : Token) : Decidable (is_num tok) :=
  inferInstanceAs (Decidable (_ = _))

/-- The token `tok` is the end-of-input token. -/
def is_eof (tok : Token) : Prop := tok.kind = TokenKind.TK_EOF

instance (tok : Token) : Decidable (is_eof tok) :=
  inferInstanceAs (Decidable (_ = _))

/-- The nonterminals of the expression grammar. -/
inductive NT where
  | expr
  | equality
  | relational
  | add
  | mul
  | unary
  | primary
  deriving DecidableEq, Repr

/-- The expression grammar; `Derives X ts` says that the token sequence `ts`
is derivable from the nonterminal `X`.  A rule `X = Y (op Y)*` is read as
`X = Y | X op Y`.
```
expr       = equality
equality   = relational (("==" | "!=") relational)*
relational = add (("<" | "<=" | ">" | ">=") add)*
add        = mul (("+" | "-") mul)*
mul        = unary (("*" | "/") unary)*
unary      = ("+" | "-")? primary
primary    = NUM | "(" expr ")"
``` -/
inductive Derives : NT → List Token → Prop where
  | expr {ts : List Token} :
      Derives NT.equality ts → Derives NT.expr ts
  | equality_one {ts : List Token} :
      Derives NT.relational ts → Derives NT.equality ts
  | equality_more {ts us : List Token} {o : Token} :
      Derives NT.equality ts → (is_op "==" o ∨ is_op "!=" o) →
      Derives NT.relational us → Derives NT.equality (ts ++ o :: us)
  | relational_one {ts : List Token} :
      Derives NT.add ts → Derives NT.relational ts
  | relational_more {ts us : List Token} {o : Token} :
      Derives NT.relational ts →
      (is_op "<" o ∨ is_op "<=" o ∨ is_op ">" o ∨ is_op ">=" o) →
      Derives NT.add us → Derives NT.relational (ts ++ o :: us)
  | add_one {ts : List Token} :
      Derives NT.mul ts → Derives NT.add ts
  | add_more {ts us : List Token} {o : Token} :
      Derives NT.add ts → (is_op "+" o ∨ is_op "-" o) →
      Derives NT.mul us → Derives NT.add (ts ++ o :: us)
  | mul_one {ts : List Token} :
      Derives NT.unary ts → Derives NT.mul ts
  | mul_more {ts us : List Token} {o : Token} :
      Derives NT.mul ts → (is_op "*" o ∨ is_op "/" o) →
      Derives NT.unary us → Derives NT.mul (ts ++ o :: us)
  | unary_sign {ts : List Token} {o : Token} :
      (is_op "+" o ∨ is_op "-" o) → Derives NT.primary ts → Derives NT.unary (o :: ts)
  | unary_plain {ts : List Token} :
      Derives NT.primary ts → Derives NT.unary ts
  | primary_num {n : Token} :
      is_num n → Derives NT.primary [n]
  | primary_paren {ts : List Token} {l r : Token} :
      is_op "(" l → Derives NT.expr ts → is_op ")" r → Derives NT.primary (l :: ts ++ [r])

/-! ## Sample tokens -/

/-- A numeric-literal token with value `val`, written `text` and followed in the
source by `rest`. -/
def num_tok (val : Int) (text rest : String) : Token :=
  { kind := TokenKind.TK_NUM, val := val, str := text.data ++ rest.data,
    len := text.data.length }

/-- The reserved-operator token `op`, followed in the source by `rest`. -/
def op_tok (op rest : String) : Token :=
  { kind := TokenKind.TK_RESERVED, val := 0, str := op.data ++ rest.data,
    len := op.data.length }

/-- The end-of-input token; it points at the end of the source text. -/
def eof_tok : Token :=
  { kind := TokenKind.TK_EOF, val := 0, str := [], len := 0 }

/-! ## The eleven parsing routines as one family -/

/-- The parsing routines of `parser.c`: the seven functions and the four loops. -/
inductive Fn where
  | primary
  | unary
  | mul_loop
  | mul
  | add_loop
  | add
  | relational_loop
  | relational
  | equality_loop
  | equality
  | expr
  deriving DecidableEq, Repr

/-- The routine `fn` at depth `d`; `node` is the local variable a loop starts
with, the functions ignore it. -/
def call : Fn → Nat → Node → Parser Node
  | Fn.primary, d, _ => primary d
  | Fn.unary, d, _ => unary d
  | Fn.mul_loop, d, node => mul_loop d node
  | Fn.mul, d, _ => mul d
  | Fn.add_loop, d, node => add_loop d node
  | Fn.add, d, _ => add d
  | Fn.relational_loop, d, node => relational_loop d node
  | Fn.relational, d, _ => relational d
  | Fn.equality_loop, d, node => equality_loop d node
  | Fn.equality, d, _ => equality d
  | Fn.expr, d, _ => expr d

/-- The result `r` is `out_of_depth` or it is `r1`. -/
def Res.le (r r1 : Res α) : Prop := r = Res.out_of_depth ∨ r = r1

/-- Wherever `p` does not run out of depth, `q` gives the result of `p`. -/
def Parser.le (p q : Parser α) : Prop := ∀ cur, Res.le (p cur) (q cur)

/-! ## Predicates on runs: forward movement -/

/-- The cursor a run ended with, by a return or by an error, is a suffix of `cur`. -/
def Res.fwd (cur : List Token) : Res α → Prop
  | Res.ok _ c => c <:+ cur
  | Res.error _ _ c => c <:+ cur
  | Res.null_deref => True
  | Res.out_of_depth => True

/-- Every run of `p` ends with a cursor that is a suffix of the one it started from. -/
def Parser.fwd (p : Parser α) : Prop := ∀ cur, Res.fwd cur (p cur)

/-! ## Predicates on runs: the depth that is enough -/

/-- On cursors of at most `L` tokens, `p` does not run out of depth. -/
def Parser.within (p : Parser α) (L : Nat) : Prop :=
  ∀ cur : List Token, cur.length ≤ L → p cur ≠ Res.out_of_depth

/-- The depth that is enough for the routine `fn` on a cursor of `L` tokens. -/
def need : Fn → Nat → Nat
  | Fn.primary, L => 7 * L + 1
  | Fn.unary, L => 7 * L + 2
  | Fn.mul_loop, L => 7 * L + 2
  | Fn.mul, L => 7 * L + 3
  | Fn.add_loop, L => 7 * L + 3
  | Fn.add, L => 7 * L + 4
  | Fn.relational_loop, L => 7 * L + 4
  | Fn.relational, L => 7 * L + 5
  | Fn.equality_loop, L => 7 * L + 5
  | Fn.equality, L => 7 * L + 6
  | Fn.expr, L => 7 * L + 7

/-! ## The grammar with trees, and what completeness says -/

/-- The routine that parses the nonterminal `X`. -/
def fn_of : NT → Fn
  | NT.expr => Fn.expr
  | NT.equality => Fn.equality
  | NT.relational => Fn.relational
  | NT.add => Fn.add
  | NT.mul => Fn.mul
  | NT.unary => Fn.unary
  | NT.primary => Fn.primary

/-- The operators after which the routine for `X` goes on reading: those of
its own loop and of the loops it calls before returning. -/
def continuing : NT → List String
  | NT.primary => []
  | NT.unary => []
  | NT.mul => ["*", "/"]
  | NT.add => ["+", "-", "*", "/"]
  | NT.relational => ["<=", ">=", "<", ">", "+", "-", "*", "/"]
  | NT.equality => ["==", "!=", "<=", ">=", "<", ">", "+", "-", "*", "/"]
  | NT.expr => ["==", "!=", "<=", ">=", "<", ">", "+", "-", "*", "/"]

/-- The cursor `rest` has a current token and that token is none of `ops`. -/
def stops (ops : List String) : List Token → Prop
  | [] => False
  | tok :: _ => ∀ op ∈ ops, ¬ is_op op tok

/-- The cursor `rest` ends a phrase of `X`: the routine for `X` returns when it
reaches `rest`.  `primary` and `unary` return without looking at `rest`. -/
def ends : NT → List Token → Prop
  | NT.primary, _ => True
  | NT.unary, _ => True
  | NT.mul, rest => stops (continuing NT.mul) rest
  | NT.add, rest => stops (continuing NT.add) rest
  | NT.relational, rest => stops (continuing NT.relational) rest
  | NT.equality, rest => stops (continuing NT.equality) rest
  | NT.expr, rest => stops (continuing NT.expr) rest

/-- The grammar together with the tree that the routines of `parser.c` build
for each rule: `Builds X ts t` says that `ts` is a phrase of `X` and `t` the
tree built along its derivation. -/
inductive Builds : NT → List Token → Node → Prop where
  | expr {ts : List Token} {t : Node} :
      Builds NT.equality ts t → Builds NT.expr ts t
  | equality_one {ts : List Token} {t : Node} :
      Builds NT.relational ts t → Builds NT.equality ts t
  | equality_eq {ts us : List Token} {o : Token} {t u : Node} :
      Builds NT.equality ts t → is_op "==" o → Builds NT.relational us u →
      Builds NT.equality (ts ++ o :: us) (new_node NodeKind.ND_EQ t u)
  | equality_ne {ts us : List Token} {o : Token} {t u : Node} :
      Builds NT.equality ts t → is_op "!=" o → Builds NT.relational us u →
      Builds NT.equality (ts ++ o :: us) (new_node NodeKind.ND_NE t u)
  | relational_one {ts : List Token} {t : Node} :
      Builds NT.add ts t → Builds NT.relational ts t
  | relational_lt {ts us : List Token} {o : Token} {t u : Node} :
      Builds NT.relational ts t → is_op "<" o → Builds NT.add us u →
      Builds NT.relational (ts ++ o :: us) (new_node NodeKind.ND_LT t u)
  | relational_le {ts us : List Token} {o : Token} {t u : Node} :
      Builds NT.relational ts t → is_op "<=" o → Builds NT.add us u →
      Builds NT.relational (ts ++ o :: us) (new_node NodeKind.ND_LTE t u)
  | relational_gt {ts us : List Token} {o : Token} {t u : Node} :
      Builds NT.relational ts t → is_op ">" o → Builds NT.add us u →
      Builds NT.relational (ts ++ o :: us) (new_node NodeKind.ND_LT u t)
  | relational_ge {ts us : List Token} {o : Token} {t u : Node} :
      Builds NT.relational ts t → is_op ">=" o → Builds NT.add us u →
      Builds NT.relational (ts ++ o :: us) (new_node NodeKind.ND_LTE u t)
  | add_one {ts : List Token} {t : Node} :
      Builds NT.mul ts t → Builds NT.add ts t
  | add_plus {ts us : List Token} {o : Token} {t u : Node} :
      Builds NT.add ts t → is_op "+" o → Builds NT.mul us u →
      Builds NT.add (ts ++ o :: us) (new_node NodeKind.ND_ADD t u)
  | add_minus {ts us : List Token} {o : Token} {t u : Node} :
      Builds NT.add ts t → is_op "-" o → Builds NT.mul us u →
      Builds NT.add (ts ++ o :: us) (new_node NodeKind.ND_SUB t u)
  | mul_one {ts : List Token} {t : Node} :
      Builds NT.unary ts t → Builds NT.mul ts t
  | mul_star {ts us : List Token} {o : Token} {t u : Node} :
      Builds NT.mul ts t → is_op "*" o → Builds NT.unary us u →
      Builds NT.mul (ts ++ o :: us) (new_node NodeKind.ND_MUL t u)
  | mul_slash {ts us : List Token} {o : Token} {t u : Node} :
      Builds NT.mul ts t → is_op "/" o → Builds NT.unary us u →
      Builds NT.mul (ts ++ o :: us) (new_node NodeKind.ND_DIV t u)
  | unary_plus {ts : List Token} {o : Token} {t : Node} :
      is_op "+" o → Builds NT.primary ts t → Builds NT.unary (o :: ts) t
  | unary_minus {ts : List Token} {o : Token} {t : Node} :
      is_op "-" o → Builds NT.primary ts t →
      Builds NT.unary (o :: ts) (new_node NodeKind.ND_SUB (new_node_num 0) t)
  | unary_plain {ts : List Token} {t : Node} :
      Builds NT.primary ts t → Builds NT.unary ts t
  | primary_num {n : Token} :
      is_num n → Builds NT.primary [n] (new_node_num n.val)
  | primary_paren {ts : List Token} {l r : Token} {t : Node} :
      is_op "(" l → Builds NT.expr ts t → is_op ")" r → Builds NT.primary (l :: ts ++ [r]) t

/-- The phrase `ts` of `X` is parsed by the routine for `X` into the tree `t`,
whatever follows it, as long as what follows ends the phrase. -/
def Parsed (X : NT) (ts : List Token) (t : Node) : Prop :=
  ∀ rest : List Token, ends X rest →
    ∃ d : Nat, call (fn_of X) d Node.NULL (ts ++ rest) = Res.ok t rest

/-- The phrase `ts` is read by the function `fn` up to the point where its
loop `loop` takes over with the tree `t` of `ts` in `node`: whatever the loop
does from `rest` is what `fn` does from `ts ++ rest`.  `Y` is the nonterminal of
the operands. -/
def Chained (fn loop : Fn) (Y : NT) (ts : List Token) (t : Node) : Prop :=
  ∀ rest : List Token, ends Y rest →
    ∀ (d0 : Nat) (r : Res Node), call loop d0 t rest = r → r ≠ Res.out_of_depth →
      ∃ d : Nat, call fn d Node.NULL (ts ++ rest) = r

/-- What is shown of a phrase `ts` of `X` with tree `t` by induction on its
derivation. -/
def Complete : NT → List Token → Node → Prop
  | NT.expr, ts, t => Parsed NT.expr ts t
  | NT.equality, ts, t => Chained Fn.equality Fn.equality_loop NT.relational ts t
  | NT.relational, ts, t => Chained Fn.relational Fn.relational_loop NT.add ts t
  | NT.add, ts, t => Chained Fn.add Fn.add_loop NT.mul ts t
  | NT.mul, ts, t => Chained Fn.mul Fn.mul_loop NT.unary ts t
  | NT.unary, ts, t => Parsed NT.unary ts t
  | NT.primary, ts, t => Parsed NT.primary ts t

/-! ## What soundness says -/

/-- The tokens `ts` may follow any phrase of `X` and give a phrase of `X` again. -/
def Extends (X : NT) (ts : List Token) : Prop :=
  ∀ pre : List Token, Derives X pre → Derives X (pre ++ ts)

/-- What the tokens consumed by a routine are: a phrase of its nonterminal for
a function, the rest of a chain for a loop. -/
def Consumed : Fn → List Token → Prop
  | Fn.primary, ts => Derives NT.primary ts
  | Fn.unary, ts => Derives NT.unary ts
  | Fn.mul_loop, ts => Extends NT.mul ts
  | Fn.mul, ts => Derives NT.mul ts
  | Fn.add_loop, ts => Extends NT.add ts
  | Fn.add, ts => Derives NT.add ts
  | Fn.relational_loop, ts => Extends NT.relational ts
  | Fn.relational, ts => Derives NT.relational ts
  | Fn.equality_loop, ts => Extends NT.equality ts
  | Fn.equality, ts => Derives NT.equality ts
  | Fn.expr, ts => Derives NT.expr ts

/-- The statement of soundness at depth `d` for the routine `fn`. -/
def SoundAt (d : Nat) (fn : Fn) : Prop :=
  ∀ (node : Node) (cur : List Token) (t : Node) (rest : List Token),
    call fn d node cur = Res.ok t rest → ∃ ts, cur = ts ++ rest ∧ Consumed fn ts

/-! ## Chains of numeric literals and the left fold of the specification -/

/-- The tokens of the pairs `op_1 n_1, ..., op_k n_k` in order. -/
def pair_toks : List (Token × Token) → List Token
  | [] => []
  | p :: ps => p.1 :: p.2 :: pair_toks ps

/-- The node kind `Bin_op` of the specification for an operator token of the
additive, multiplicative or equality layer. -/
def spec_bin_kind (o : Token) : NodeKind :=
  if is_op "+" o then NodeKind.ND_ADD
  else if is_op "-" o then NodeKind.ND_SUB
  else if is_op "*" o then NodeKind.ND_MUL
  else if is_op "/" o then NodeKind.ND_DIV
  else if is_op "==" o then NodeKind.ND_EQ
  else NodeKind.ND_NE

/-- One step of the left fold of the specification: the accumulated tree
becomes the left child of a node of kind `Bin_op`, a leaf of kind `ND_NUM` with
the value of the literal becomes the right child. -/
def spec_fold_step (acc : Node) (p : Token × Token) : Node :=
  Node.mk (spec_bin_kind p.1) acc (Node.mk NodeKind.ND_NUM Node.NULL Node.NULL p.2.val) 0

/-- The left fold of the specification over the chain `n0 op_1 n_1 ... op_k n_k`,
starting from the leaf `Num n0`. -/
def spec_left_fold (n0 : Token) (pairs : List (Token × Token)) : Node :=
  pairs.foldl spec_fold_step (Node.mk NodeKind.ND_NUM Node.NULL Node.NULL n0.val)

/-! ## Sample inputs -/

/-- The tokens of the text `1+2*3`, without the end-of-input token. -/
def toks_1_plus_2_times_3 : List Token :=
  [num_tok 1 "1" "+2*3", op_tok "+" "2*3", num_tok 2 "2" "*3", op_tok "*" "3",
    num_tok 3 "3" ""]

/-- The tokens of the text `8-3-2`: the first literal and the pairs of an
operator and a literal that follow it. -/
def pairs_8_minus_3_minus_2 : List (Token × Token) :=
  [(op_tok "-" "3-2", num_tok 3 "3" "-2"), (op_tok "-" "2", num_tok 2 "2" "")]

/-! ## Well-formed trees -/

/-- A well-formed tree: a node of kind `ND_NUM` has no left and no right child;
a node of any other kind has a left and a right child, both well-formed.  The
null pointer is no tree. -/
def well_formed : Node → Bool
  | Node.NULL => false
  | Node.mk kind lhs rhs _ =>
    if kind = NodeKind.ND_NUM then decide (lhs = Node.NULL ∧ rhs = Node.NULL)
    else well_formed lhs && well_formed rhs

/-- The routine `fn` is one of the four loops, which start with a tree in `node`. -/
def is_loop : Fn → Bool
  | Fn.mul_loop => true
  | Fn.add_loop => true
  | Fn.relational_loop => true
  | Fn.equality_loop => true
  | _ => false

/-- The statement of well-formedness at depth `d` for the routine `fn`: the
tree it returns is well-formed, for a loop when the tree it starts with is. -/
def WfAt (d : Nat) (fn : Fn) : Prop :=
  ∀ (node : Node) (cur : List Token) (t : Node) (rest : List Token),
    (is_loop fn = true → well_formed node = true) →
    call fn d node cur = Res.ok t rest → well_formed t = true

/-! ## Balanced parentheses -/

/-- Scans `ts` with `n` parentheses open: `(` opens one, `)` closes one, every
other token is passed over.  The result is the number of parentheses left open,
or `none` when a `)` had nothing to close. -/
def paren_scan : Nat → List Token → Option Nat
  | n, [] => some n
  | n, tok :: rest =>
    if is_op "(" tok then paren_scan (n + 1) rest
    else if is_op ")" tok then
      match n with
      | 0 => none
      | m + 1 => paren_scan m rest
    else paren_scan n rest

/-- The parentheses of `ts` are balanced: every `)` closes an earlier `(` and
none is left open. -/
def balanced (ts : List Token) : Prop := paren_scan 0 ts = some 0

instance (ts : List Token) : Decidable (balanced ts) :=
  inferInstanceAs (Decidable (_ = _))

/-! ## Left-leaning trees -/

/-- The node is a leaf of kind `ND_NUM`. -/
def is_num_leaf : Node → Bool
  | Node.NULL => false
  | Node.mk kind lhs rhs _ => decide (kind = NodeKind.ND_NUM ∧ lhs = Node.NULL ∧ rhs = Node.NULL)

/-- The eight binary node kinds of the specification. -/
inductive BinOp where
  | add
  | sub
  | mul
  | div
  | lt
  | le
  | eq
  | ne
  deriving DecidableEq, Repr

/-- The node kind of a binary operator. -/
def BinOp.kind : BinOp → NodeKind
  | BinOp.add => NodeKind.ND_ADD
  | BinOp.sub => NodeKind.ND_SUB
  | BinOp.mul => NodeKind.ND_MUL
  | BinOp.div => NodeKind.ND_DIV
  | BinOp.lt => NodeKind.ND_LT
  | BinOp.le => NodeKind.ND_LTE
  | BinOp.eq => NodeKind.ND_EQ
  | BinOp.ne => NodeKind.ND_NE

/-- The operator text `op_k` with which the specification prints a binary node. -/
def BinOp.text : BinOp → String
  | BinOp.add => "+"
  | BinOp.sub => "-"
  | BinOp.mul => "*"
  | BinOp.div => "/"
  | BinOp.lt => "<"
  | BinOp.le => "<="
  | BinOp.eq => "=="
  | BinOp.ne => "!="

/-- The well-formed trees of the specification: a `Num` leaf with its value, or
a binary node of one of the eight binary kinds with two children. -/
inductive Ast where
  | num (n : Int) : Ast
  | bin (k : BinOp) (l r : Ast) : Ast
  deriving DecidableEq, Repr

/-- The tree of `parser.c` for an abstract tree: a leaf `Num n` is the record of
kind `ND_NUM` with the value `n` and no children; a node `Bin k l r` is the
record of the kind of `k` with the trees of `l` and `r` as left and right child
and the zero of `calloc` in `val`. -/
def Ast.node : Ast → Node
  | Ast.num n => Node.mk NodeKind.ND_NUM Node.NULL Node.NULL n
  | Ast.bin k l r => Node.mk k.kind l.node r.node 0

/-- The fully parenthesised printing of the specification:
`print (Num n) = [NUM n]` and
`print (Bin k l r) = ( print l ) op_k ( print r )`.  The tokens are made by
`mk_num` and `mk_op`. -/
def Ast.print (mk_num : Int → Token) (mk_op : String → Token) : Ast → List Token
  | Ast.num n => [mk_num n]
  | Ast.bin k l r =>
    (mk_op "(" :: Ast.print mk_num mk_op l ++ [mk_op ")"]) ++
      mk_op k.text :: (mk_op "(" :: Ast.print mk_num mk_op r ++ [mk_op ")"])

/-! ## The same routines with the history of the cursor

The routines of `parser.c` once more, word for word, over a state that keeps,
next to the cursor `g_token`, the list `past` of all values the cursor had
before, the latest first.  Each of the three assignments
`g_token = g_token->next` puts the old value on `past`. -/

namespace Traced

/-- The outcome of a run with the history of the cursor: as `Parser9cc.Res`,
with the former values `past` of the cursor.  At `null_deref` the cursor is
`NULL`. -/
inductive Res (α : Type) where
  | ok (v : α) (cur : List Token) (past : List (List Token))
  | error (loc : List Char) (msg : Message) (cur : List Token) (past : List (List Token))
  | null_deref (past : List (List Token))
  | out_of_depth
  deriving DecidableEq, Repr

/-- A parsing function on the cursor and its history. -/
def Parser (α : Type) : Type := List Token → List (List Token) → Res α

/-- Sequencing, as `Parser9cc.Parser.bind`. -/
def Parser.bind {α β : Type} (p : Parser α) (f : α → Parser β) : Parser β :=
  fun cur past =>
    match p cur past with
    | Res.ok v cur1 past1 => f v cur1 past1
    | Res.error loc msg cur1 past1 => Res.error loc msg cur1 past1
    | Res.null_deref past1 => Res.null_deref past1
    | Res.out_of_depth => Res.out_of_depth

/-- Returning a value changes neither the cursor nor its history. -/
def Parser.pure {α : Type} (v : α) : Parser α := fun cur past => Res.ok v cur past

instance : Monad Parser where
  pure := Parser.pure
  bind := Parser.bind

/-- The function `expect` (parser.c, lines 8-17), with the history. -/
def expect (op : String) : Parser Unit := fun g_token past =>
  match g_token with
  | [] => Res.null_deref past
  | tok :: next =>
    if tok.kind ≠ TokenKind.TK_RESERVED ∨
       tok.len ≠ strlen op ∨
       memcmp tok.str op.data tok.len = true
    then Res.error tok.str (Message.not_op op) g_token past
    else Res.ok () next (g_token :: past)

/-- The function `consume` (parser.c, lines 25-35), with the history. -/
def consume (op : String) : Parser Bool := fun g_token past =>
  match g_token with
  | [] => Res.null_deref past
  | tok :: next =>
    if tok.kind ≠ TokenKind.TK_RESERVED ∨
       tok.len ≠ strlen op ∨
       memcmp tok.str op.data tok.len = true
    then Res.ok false g_token past
    else Res.ok true next (g_token :: past)

/-- The function `expect_number` (parser.c, lines 39-46), with the history. -/
def expect_number : Parser Int := fun g_token past =>
  match g_token with
  | [] => Res.null_deref past
  | tok :: next =>
    if tok.kind ≠ TokenKind.TK_NUM
    then Res.error tok.str Message.not_number g_token past
    else Res.ok tok.val next (g_token :: past)

mutual

/-- The function `primary` (parser.c, lines 67-76). -/
def primary : Nat → Parser Node
  | 0 => fun _ _ => Res.out_of_depth
  | d + 1 => do
    if (← consume "(") then
      let node ← expr d
      expect ")"
      return node
    else
      return new_node_num (← expect_number)

/-- The function `unary` (parser.c, lines 78-86). -/
def unary : Nat → Parser Node
  | 0 => fun _ _ => Res.out_of_depth
  | d + 1 => do
    if (← consume "+") then
      primary d
    else if (← consume "-") then
      return new_node NodeKind.ND_SUB (new_node_num 0) (← primary d)
    else
      primary d

/-- The `for (;;)` loop of `mul` (parser.c, lines 91-99), entered with the
local variable `node`. -/
def mul_loop : Nat → Node → Parser Node
  | 0, _ => fun _ _ => Res.out_of_depth
  | d + 1, node => do
    if (← consume "*") then
      mul_loop d (new_node NodeKind.ND_MUL node (← unary d))
    else if (← consume "/") then
      mul_loop d (new_node NodeKind.ND_DIV node (← unary d))
    else
      return node

/-- The function `mul` (parser.c, lines 88-100). -/
def mul : Nat → Parser Node
  | 0 => fun _ _ => Res.out_of_depth
  | d + 1 => do
    let node ← unary d
    mul_loop d node

/-- The `for (;;)` loop of `add` (parser.c, lines 105-113). -/
def add_loop : Nat → Node → Parser Node
  | 0, _ => fun _ _ => Res.out_of_depth
  | d + 1, node => do
    if (← consume "+") then
      add_loop d (new_node NodeKind.ND_ADD node (← mul d))
    else if (← consume "-") then
      add_loop d (new_node NodeKind.ND_SUB node (← mul d))
    else
      return node

/-- The function `add` (parser.c, lines 102-114). -/
def add : Nat → Parser Node
  | 0 => fun _ _ => Res.out_of_depth
  | d + 1 => do
    let node ← mul d
    add_loop d node

/-- The `for (;;)` loop of `relational` (parser.c, lines 119-131). -/
def relational_loop : Nat → Node → Parser Node
  | 0, _ => fun _ _ => Res.out_of_depth
  | d + 1, node => do
    if (← consume "<=") then
      relational_loop d (new_node NodeKind.ND_LTE node (← add d))
    else if (← consume ">=") then
      relational_loop d (new_node NodeKind.ND_LTE (← add d) node)
    else if (← consume "<") then
      relational_loop d (new_node NodeKind.ND_LT node (← add d))
    else if (← consume ">") then
      relational_loop d (new_node NodeKind.ND_LT (← add d) node)
    else
      return node

/-- The function `relational` (parser.c, lines 116-132). -/
def relational : Nat → Parser Node
  | 0 => fun _ _ => Res.out_of_depth
  | d + 1 => do
    let node ← add d
    relational_loop d node

/-- The `for (;;)` loop of `equality` (parser.c, lines 137-145). -/
def equality_loop : Nat → Node → Parser Node
  | 0, _ => fun _ _ => Res.out_of_depth
  | d + 1, node => do
    if (← consume "==") then
      equality_loop d (new_node NodeKind.ND_EQ node (← relational d))
    else if (← consume "!=") then
      equality_loop d (new_node NodeKind.ND_NE node (← relational d))
    else
      return node

/-- The function `equality` (parser.c, lines 134-146). -/
def equality : Nat → Parser Node
  | 0 => fun _ _ => Res.out_of_depth
  | d + 1 => do
    let node ← relational d
    equality_loop d node

/-- The function `expr` (parser.c, lines 148-150). -/
def expr : Nat → Parser Node
  | 0 => fun _ _ => Res.out_of_depth
  | d + 1 => equality d

end

/-- The routine `fn` at depth `d`, as `Parser9cc.call`. -/
def call : Fn → Nat → Node → Parser Node
  | Fn.primary, d, _ => primary d
  | Fn.unary, d, _ => unary d
  | Fn.mul_loop, d, node => mul_loop d node
  | Fn.mul, d, _ => mul d
  | Fn.add_loop, d, node => add_loop d node
  | Fn.add, d, _ => add d
  | Fn.relational_loop, d, node => relational_loop d node
  | Fn.relational, d, _ => relational d
  | Fn.equality_loop, d, node => equality_loop d node
  | Fn.equality, d, _ => equality d
  | Fn.expr, d, _ => expr d

/-- Runs a parsing function from the cursor `g_token`, which had no value
before, with the depth that `Parser9cc.run` supplies. -/
def run {α : Type} (p : Nat → Parser α) (g_token : List Token) : Res α :=
  p (7 * g_token.length + 7) g_token []

/-- All values the cursor had in a run, the latest first: the cursor at the end
of the run, by a return or by an error, and the values before it.  At
`null_deref` the latest value is `NULL`. -/
def hist {α : Type} : Res α → List (List Token)
  | Res.ok _ cur past => cur :: past
  | Res.error _ _ cur past => cur :: past
  | Res.null_deref past => [] :: past
  | Res.out_of_depth => []

/-- The outcome without the history. -/
def erase {α : Type} : Res α → Parser9cc.Res α
  | Res.ok v cur _ => Parser9cc.Res.ok v cur
  | Res.error loc msg cur _ => Parser9cc.Res.error loc msg cur
  | Res.null_deref _ => Parser9cc.Res.null_deref
  | Res.out_of_depth => Parser9cc.Res.out_of_depth

/-- The routine `pT` with the history does what `p` does without it. -/
def Sim {α : Type} (pT : Parser α) (p : Parser9cc.Parser α) : Prop :=
  ∀ cur past, erase (pT cur past) = p cur

end Traced

/-- The token list ends with an end-of-input token. -/
def eof_terminated (toks : List Token) : Prop :=
  ∃ body eof, toks = body ++ [eof] ∧ is_eof eof

/-- The cursor `newer` is the cursor `older` moved forward by one token. -/
def step_back (newer older : List Token) : Prop := ∃ tok, older = tok :: newer

/-- A history of cursors over the token list `toks`: every value is a
non-empty suffix of `toks`, and every value is the one before it moved forward
by one token. -/
def good_hist (toks : List Token) (h : List (List Token)) : Prop :=
  (∀ c ∈ h, c ≠ [] ∧ c <:+ toks) ∧ List.Chain' step_back h

/-- The routine `pT` keeps a history over `toks` good: started with a good
history, it only adds to it, and all it adds is good. -/
def Keeps {α : Type} (toks : List Token) (pT : Traced.Parser α) : Prop :=
  ∀ cur past, good_hist toks (cur :: past) →
    pT cur past = Traced.Res.out_of_depth ∨
      (good_hist toks (Traced.hist (pT cur past)) ∧
        (cur :: past) <:+ Traced.hist (pT cur past))

/-- The tokens of the text `(1+2`, with the end-of-input token. -/
def toks_paren_1_plus_2 : List Token :=
  [op_tok "(" "1+2", num_tok 1 "1" "+2", op_tok "+" "2", num_tok 2 "2" "", eof_tok]

/-- The field `val` of every binary node of the tree is the zero that `calloc`
left in it. -/
def calloc_val : Node → Bool
  | Node.NULL => true
  | Node.mk kind lhs rhs val =>
    if kind = NodeKind.ND_NUM then true
    else decide (val = 0) && calloc_val lhs && calloc_val rhs

/-! ## Basic facts about the primitives -/

theorem bind_apply (p : Parser α) (f : α → Parser β) (cur : List Token) :
    (p >>= f) cur =
      match p cur with
      | Res.ok v cur1 => f v cur1
      | Res.error loc msg cur1 => Res.error loc msg cur1
      | Res.null_deref => Res.null_deref
      | Res.out_of_depth => Res.out_of_depth := rfl

theorem bind_ok {p : Parser α} {f : α → Parser β} {cur cur1 : List Token} {v : α}
    (h : p cur = Res.ok v cur1) : (p >>= f) cur = f v cur1 := by
  rw [bind_apply, h]

theorem bind_error {p : Parser α} {f : α → Parser β} {cur cur1 : List Token}
    {loc : List Char} {msg : Message}
    (h : p cur = Res.error loc msg cur1) : (p >>= f) cur = Res.error loc msg cur1 := by
  rw [bind_apply, h]

theorem bind_null {p : Parser α} {f : α → Parser β} {cur : List Token}
    (h : p cur = Res.null_deref) : (p >>= f) cur = Res.null_deref := by
  rw [bind_apply, h]

theorem bind_out {p : Parser α} {f : α → Parser β} {cur : List Token}
    (h : p cur = Res.out_of_depth) : (p >>= f) cur = Res.out_of_depth := by
  rw [bind_apply, h]

@[simp] theorem pure_apply (v : α) (cur : List Token) :
    (pure v : Parser α) cur = Res.ok v cur := rfl

theorem memcmp_op (op : String) (tok : Token) (h : tok.len = strlen op) :
    memcmp tok.str op.data tok.len = true ↔ tok.str.take tok.len ≠ op.data := by
  unfold strlen at h
  unfold memcmp
  rw [h, List.take_length]
  simp

theorem is_op_iff (op : String) (tok : Token) :
    is_op op tok ↔
      ¬ (tok.kind ≠ TokenKind.TK_RESERVED ∨ tok.len ≠ strlen op ∨
          memcmp tok.str op.data tok.len = true) := by
  unfold is_op
  by_cases h : tok.len = strlen op
  · rw [memcmp_op op tok h]; tauto
  · tauto

theorem consume_cons (op : String) (tok : Token) (next : List Token) :
    consume op (tok :: next) =
      if is_op op tok then Res.ok true next else Res.ok false (tok :: next) := by
  by_cases h : is_op op tok
  · rw [if_pos h]
    rw [is_op_iff] at h
    simp only [consume, if_neg h]
  · rw [if_neg h]
    rw [is_op_iff, not_not] at h
    simp only [consume, if_pos h]

theorem expect_cons (op : String) (tok : Token) (next : List Token) :
    expect op (tok :: next) =
      if is_op op tok then Res.ok () next
      else Res.error tok.str (Message.not_op op) (tok :: next) := by
  by_cases h : is_op op tok
  · rw [if_pos h]
    rw [is_op_iff] at h
    simp only [expect, if_neg h]
  · rw [if_neg h]
    rw [is_op_iff, not_not] at h
    simp only [expect, if_pos h]

theorem expect_number_cons (tok : Token) (next : List Token) :
    expect_number (tok :: next) =
      if is_num tok then Res.ok tok.val next
      else Res.error tok.str Message.not_number (tok :: next) := by
  unfold expect_number is_num
  by_cases h : tok.kind = TokenKind.TK_NUM <;> simp [h]

theorem is_op_unique {op1 op2 : String} {tok : Token}
    (h1 : is_op op1 tok) (h2 : is_op op2 tok) : op1 = op2 := by
  have : op1.data = op2.data := by rw [← h1.2.2, ← h2.2.2]
  exact String.ext this

theorem consume_is_op {op : String} {tok : Token} (h : is_op op tok) (next : List Token) :
    consume op (tok :: next) = Res.ok true next := by
  rw [consume_cons, if_pos h]

theorem consume_not_op {op : String} {tok : Token} (h : ¬ is_op op tok) (next : List Token) :
    consume op (tok :: next) = Res.ok false (tok :: next) := by
  rw [consume_cons, if_neg h]

theorem consume_other {op1 op2 : String} {tok : Token} (h : is_op op1 tok)
    (hne : op1 ≠ op2) (next : List Token) :
    consume op2 (tok :: next) = Res.ok false (tok :: next) :=
  consume_not_op (fun h2 => hne (is_op_unique h h2)) next

theorem not_is_op_of_num {tok : Token} (h : is_num tok) (op : String) : ¬ is_op op tok := by
  intro h1
  have := h1.1
  unfold is_num at h
  rw [h] at this
  cases this

theorem not_is_op_of_eof {tok : Token} (h : is_eof tok) (op : String) : ¬ is_op op tok := by
  intro h1
  have := h1.1
  unfold is_eof at h
  rw [h] at this
  cases this

/-! ## More depth does not change a result -/

theorem Parser.le_refl (p : Parser α) : Parser.le p p := fun _ => Or.inr rfl

theorem Parser.le_out (q : Parser α) : Parser.le (fun _ => Res.out_of_depth) q :=
  fun _ => Or.inl rfl

theorem Parser.bind_le {p p1 : Parser α} {f f1 : α → Parser β}
    (hp : Parser.le p p1) (hf : ∀ v, Parser.le (f v) (f1 v)) :
    Parser.le (p >>= f) (p1 >>= f1) := by
  intro cur
  rw [bind_apply, bind_apply]
  rcases hp cur with h | h
  · left; rw [h]
  · rw [← h]
    cases p cur with
    | ok v c => exact hf v c
    | error loc msg c => right; rfl
    | null_deref => right; rfl
    | out_of_depth => right; rfl

theorem Parser.ite_le {c : Prop} [Decidable c] {p p1 q q1 : Parser α}
    (hp : Parser.le p p1) (hq : Parser.le q q1) :
    Parser.le (if c then p else q) (if c then p1 else q1) := by
  split
  · exact hp
  · exact hq

/-- One more unit of depth does not change a result that was reached. -/
theorem call_le_succ (d : Nat) :
    ∀ (fn : Fn) (node : Node), Parser.le (call fn d node) (call fn (d + 1) node) := by
  induction d with
  | zero =>
    intro fn node
    cases fn <;> exact Parser.le_out _
  | succ d ih =>
    have h_primary := ih Fn.primary Node.NULL
    have h_unary := ih Fn.unary Node.NULL
    have h_mul_loop := ih Fn.mul_loop
    have h_mul := ih Fn.mul Node.NULL
    have h_add_loop := ih Fn.add_loop
    have h_add := ih Fn.add Node.NULL
    have h_relational_loop := ih Fn.relational_loop
    have h_relational := ih Fn.relational Node.NULL
    have h_equality_loop := ih Fn.equality_loop
    have h_equality := ih Fn.equality Node.NULL
    have h_expr := ih Fn.expr Node.NULL
    simp only [call] at h_primary h_unary h_mul_loop h_mul h_add_loop h_add
    simp only [call] at h_relational_loop h_relational h_equality_loop h_equality h_expr
    intro fn node
    cases fn <;> simp only [call]
    case primary =>
      rw [primary, primary]
      repeat first
        | assumption
        | exact Parser.le_refl _
        | apply Parser.bind_le
        | apply Parser.ite_le
        | intro _
    case unary =>
      rw [unary, unary]
      repeat first
        | assumption
        | exact Parser.le_refl _
        | apply Parser.bind_le
        | apply Parser.ite_le
        | intro _
    case mul_loop =>
      rw [mul_loop, mul_loop]
      repeat first
        | assumption
        | exact Parser.le_refl _
        | apply h_mul_loop
        | apply Parser.bind_le
        | apply Parser.ite_le
        | intro _
    case mul =>
      rw [mul, mul]
      repeat first
        | assumption
        | exact Parser.le_refl _
        | apply h_mul_loop
        | apply Parser.bind_le
        | apply Parser.ite_le
        | intro _
    case add_loop =>
      rw [add_loop, add_loop]
      repeat first
        | assumption
        | exact Parser.le_refl _
        | apply h_add_loop
        | apply Parser.bind_le
        | apply Parser.ite_le
        | intro _
    case add =>
      rw [add, add]
      repeat first
        | assumption
        | exact Parser.le_refl _
        | apply h_add_loop
        | apply Parser.bind_le
        | apply Parser.ite_le
        | intro _
    case relational_loop =>
      rw [relational_loop, relational_loop]
      repeat first
        | assumption
        | exact Parser.le_refl _
        | apply h_relational_loop
        | apply Parser.bind_le
        | apply Parser.ite_le
        | intro _
    case relational =>
      rw [relational, relational]
      repeat first
        | assumption
        | exact Parser.le_refl _
        | apply h_relational_loop
        | apply Parser.bind_le
        | apply Parser.ite_le
        | intro _
    case equality_loop =>
      rw [equality_loop, equality_loop]
      repeat first
        | assumption
        | exact Parser.le_refl _
        | apply h_equality_loop
        | apply Parser.bind_le
        | apply Parser.ite_le
        | intro _
    case equality =>
      rw [equality, equality]
      repeat first
        | assumption
        | exact Parser.le_refl _
        | apply h_equality_loop
        | apply Parser.bind_le
        | apply Parser.ite_le
        | intro _
    case expr =>
      rw [expr, expr]
      exact h_equality

/-- A result reached at depth `d` is the result at every larger depth. -/
theorem call_le_add (fn : Fn) (node : Node) (d k : Nat) :
    Parser.le (call fn d node) (call fn (d + k) node) := by
  induction k with
  | zero => exact Parser.le_refl _
  | succ k ih =>
    intro cur
    rcases ih cur with h | h
    · exact Or.inl h
    · rcases call_le_succ (d + k) fn node cur with h1 | h1
      · left; rw [h, h1]
      · right; rw [h]; exact h1

theorem call_stable (fn : Fn) (node : Node) {d e : Nat} {cur : List Token} {r : Res Node}
    (h : call fn d node cur = r) (hr : r ≠ Res.out_of_depth) (hde : d ≤ e) :
    call fn e node cur = r := by
  obtain ⟨k, rfl⟩ := Nat.exists_eq_add_of_le hde
  rcases call_le_add fn node d k cur with h1 | h1
  · rw [h] at h1; exact absurd h1 hr
  · rw [← h1, h]

/-! ## The cursor only moves forward -/

theorem fwd_out : Parser.fwd (fun _ => Res.out_of_depth : Parser α) := fun _ => trivial

theorem fwd_pure (v : α) : Parser.fwd (pure v : Parser α) := fun cur => List.suffix_refl cur

theorem fwd_bind {p : Parser α} {f : α → Parser β}
    (hp : Parser.fwd p) (hf : ∀ v, Parser.fwd (f v)) : Parser.fwd (p >>= f) := by
  intro cur
  have h := hp cur
  cases hpc : p cur with
  | ok v c =>
    rw [hpc] at h
    have h2 := hf v c
    rw [bind_ok hpc]
    cases hfc : f v c with
    | ok v2 c2 => rw [hfc] at h2; exact List.IsSuffix.trans h2 h
    | error loc msg c2 => rw [hfc] at h2; exact List.IsSuffix.trans h2 h
    | null_deref => trivial
    | out_of_depth => trivial
  | error loc msg c => rw [hpc] at h; rw [bind_error hpc]; exact h
  | null_deref => rw [bind_null hpc]; trivial
  | out_of_depth => rw [bind_out hpc]; trivial

theorem fwd_ite {c : Prop} [Decidable c] {p q : Parser α}
    (hp : Parser.fwd p) (hq : Parser.fwd q) : Parser.fwd (if c then p else q) := by
  split
  · exact hp
  · exact hq

theorem fwd_consume (op : String) : Parser.fwd (consume op) := by
  intro cur
  cases cur with
  | nil => trivial
  | cons tok next =>
    rw [consume_cons]
    split
    · exact List.suffix_cons tok next
    · exact List.suffix_refl _

theorem fwd_expect (op : String) : Parser.fwd (expect op) := by
  intro cur
  cases cur with
  | nil => trivial
  | cons tok next =>
    rw [expect_cons]
    split
    · exact List.suffix_cons tok next
    · exact List.suffix_refl _

theorem fwd_expect_number : Parser.fwd expect_number := by
  intro cur
  cases cur with
  | nil => trivial
  | cons tok next =>
    rw [expect_number_cons]
    split
    · exact List.suffix_cons tok next
    · exact List.suffix_refl _

/-- No routine ever moves the cursor backwards. -/
theorem call_fwd (d : Nat) :
    ∀ (fn : Fn) (node : Node), Parser.fwd (call fn d node) := by
  induction d with
  | zero =>
    intro fn node
    cases fn <;> exact fwd_out
  | succ d ih =>
    have h_primary := ih Fn.primary Node.NULL
    have h_unary := ih Fn.unary Node.NULL
    have h_mul_loop := ih Fn.mul_loop
    have h_mul := ih Fn.mul Node.NULL
    have h_add_loop := ih Fn.add_loop
    have h_add := ih Fn.add Node.NULL
    have h_relational_loop := ih Fn.relational_loop
    have h_relational := ih Fn.relational Node.NULL
    have h_equality_loop := ih Fn.equality_loop
    have h_equality := ih Fn.equality Node.NULL
    have h_expr := ih Fn.expr Node.NULL
    simp only [call] at h_primary h_unary h_mul_loop h_mul h_add_loop h_add
    simp only [call] at h_relational_loop h_relational h_equality_loop h_equality h_expr
    intro fn node
    cases fn <;> simp only [call]
    case primary =>
      rw [primary]
      repeat first
        | assumption
        | exact fwd_pure _
        | exact fwd_consume _
        | exact fwd_expect _
        | exact fwd_expect_number
        | apply fwd_bind
        | apply fwd_ite
        | intro _
    case unary =>
      rw [unary]
      repeat first
        | assumption
        | exact fwd_pure _
        | exact fwd_consume _
        | exact fwd_expect _
        | exact fwd_expect_number
        | apply fwd_bind
        | apply fwd_ite
        | intro _
    case mul_loop =>
      rw [mul_loop]
      repeat first
        | assumption
        | apply h_mul_loop
        | exact fwd_pure _
        | exact fwd_consume _
        | exact fwd_expect _
        | exact fwd_expect_number
        | apply fwd_bind
        | apply fwd_ite
        | intro _
    case mul =>
      rw [mul]
      repeat first
        | assumption
        | apply h_mul_loop
        | exact fwd_pure _
        | exact fwd_consume _
        | exact fwd_expect _
        | exact fwd_expect_number
        | apply fwd_bind
        | apply fwd_ite
        | intro _
    case add_loop =>
      rw [add_loop]
      repeat first
        | assumption
        | apply h_add_loop
        | exact fwd_pure _
        | exact fwd_consume _
        | exact fwd_expect _
        | exact fwd_expect_number
        | apply fwd_bind
        | apply fwd_ite
        | intro _
    case add =>
      rw [add]
      repeat first
        | assumption
        | apply h_add_loop
        | exact fwd_pure _
        | exact fwd_consume _
        | exact fwd_expect _
        | exact fwd_expect_number
        | apply fwd_bind
        | apply fwd_ite
        | intro _
    case relational_loop =>
      rw [relational_loop]
      repeat first
        | assumption
        | apply h_relational_loop
        | exact fwd_pure _
        | exact fwd_consume _
        | exact fwd_expect _
        | exact fwd_expect_number
        | apply fwd_bind
        | apply fwd_ite
        | intro _
    case relational =>
      rw [relational]
      repeat first
        | assumption
        | apply h_relational_loop
        | exact fwd_pure _
        | exact fwd_consume _
        | exact fwd_expect _
        | exact fwd_expect_number
        | apply fwd_bind
        | apply fwd_ite
        | intro _
    case equality_loop =>
      rw [equality_loop]
      repeat first
        | assumption
        | apply h_equality_loop
        | exact fwd_pure _
        | exact fwd_consume _
        | exact fwd_expect _
        | exact fwd_expect_number
        | apply fwd_bind
        | apply fwd_ite
        | intro _
    case equality =>
      rw [equality]
      repeat first
        | assumption
        | apply h_equality_loop
        | exact fwd_pure _
        | exact fwd_consume _
        | exact fwd_expect _
        | exact fwd_expect_number
        | apply fwd_bind
        | apply fwd_ite
        | intro _
    case expr =>
      rw [expr]
      exact h_equality

theorem call_ok_suffix (fn : Fn) (node : Node) {t : Node} {d : Nat} {cur rest : List Token}
    (h : call fn d node cur = Res.ok t rest) : rest <:+ cur := by
  have := call_fwd d fn node cur
  rw [h] at this
  exact this

/-! ## The depth that is enough -/

theorem within_pure (v : α) (L : Nat) : Parser.within (pure v : Parser α) L := by
  intro cur _ h
  cases h

theorem within_expect (op : String) (L : Nat) : Parser.within (expect op) L := by
  intro cur _
  cases cur with
  | nil => intro h; cases h
  | cons tok next =>
    rw [expect_cons]
    split <;> (intro h; cases h)

theorem within_expect_number (L : Nat) : Parser.within expect_number L := by
  intro cur _
  cases cur with
  | nil => intro h; cases h
  | cons tok next =>
    rw [expect_number_cons]
    split <;> (intro h; cases h)

theorem within_bind {p : Parser α} {f : α → Parser β} {L : Nat}
    (hp : Parser.within p L) (hfw : Parser.fwd p) (hf : ∀ v, Parser.within (f v) L) :
    Parser.within (p >>= f) L := by
  intro cur hcur
  have h1 := hp cur hcur
  have h2 := hfw cur
  cases hpc : p cur with
  | ok v c =>
    rw [hpc] at h2
    rw [bind_ok hpc]
    exact hf v c (le_trans (List.IsSuffix.length_le h2) hcur)
  | error loc msg c => rw [bind_error hpc]; intro h; cases h
  | null_deref => rw [bind_null hpc]; intro h; cases h
  | out_of_depth => exact absurd hpc h1

theorem within_consume_ite (op : String) {A B : Parser β} {L : Nat}
    (ht : ∀ L1, L1 + 1 ≤ L → Parser.within A L1) (hf : Parser.within B L) :
    Parser.within (consume op >>= fun b => if b = true then A else B) L := by
  intro cur hcur
  cases cur with
  | nil => rw [bind_null rfl]; intro h; cases h
  | cons tok next =>
    by_cases hop : is_op op tok
    · rw [bind_ok (consume_is_op hop next), if_pos rfl]
      exact ht next.length (by simpa using hcur) next (le_refl _)
    · rw [bind_ok (consume_not_op hop next), if_neg Bool.false_ne_true]
      exact hf _ hcur

/-- With the depth `need fn L` no routine runs out of depth on `L` tokens. -/
theorem call_within (d : Nat) :
    ∀ (fn : Fn) (node : Node) (L : Nat), need fn L ≤ d → Parser.within (call fn d node) L := by
  induction d with
  | zero =>
    intro fn node L h
    cases fn <;> simp [need] at h
  | succ d ih =>
    have h_primary := fun L => ih Fn.primary Node.NULL L
    have h_unary := fun L => ih Fn.unary Node.NULL L
    have h_mul_loop := fun node L => ih Fn.mul_loop node L
    have h_mul := fun L => ih Fn.mul Node.NULL L
    have h_add_loop := fun node L => ih Fn.add_loop node L
    have h_add := fun L => ih Fn.add Node.NULL L
    have h_relational_loop := fun node L => ih Fn.relational_loop node L
    have h_relational := fun L => ih Fn.relational Node.NULL L
    have h_equality_loop := fun node L => ih Fn.equality_loop node L
    have h_equality := fun L => ih Fn.equality Node.NULL L
    have h_expr := fun L => ih Fn.expr Node.NULL L
    simp only [call, need] at h_primary h_unary h_mul_loop h_mul h_add_loop h_add
    simp only [call, need] at h_relational_loop h_relational h_equality_loop h_equality h_expr
    intro fn node L hL
    cases fn <;> simp only [call, need] at hL ⊢
    case primary =>
      rw [primary]
      repeat first
        | exact within_pure _ _
        | exact within_expect _ _
        | exact within_expect_number _
        | exact fwd_expect _
        | exact fwd_expect_number
        | exact call_fwd _ Fn.expr Node.NULL
        | apply within_consume_ite
        | apply within_bind
        | (apply h_expr; omega)
        | intro _
    case unary =>
      rw [unary]
      repeat first
        | exact within_pure _ _
        | exact call_fwd _ Fn.primary Node.NULL
        | apply within_consume_ite
        | apply within_bind
        | (apply h_primary; omega)
        | intro _
    case mul_loop =>
      rw [mul_loop]
      repeat first
        | exact within_pure _ _
        | exact call_fwd _ Fn.unary Node.NULL
        | apply within_consume_ite
        | apply within_bind
        | (apply h_unary; omega)
        | (apply h_mul_loop; omega)
        | intro _
    case mul =>
      rw [mul]
      repeat first
        | exact within_pure _ _
        | exact call_fwd _ Fn.unary Node.NULL
        | apply within_bind
        | (apply h_unary; omega)
        | (apply h_mul_loop; omega)
        | intro _
    case add_loop =>
      rw [add_loop]
      repeat first
        | exact within_pure _ _
        | exact call_fwd _ Fn.mul Node.NULL
        | apply within_consume_ite
        | apply within_bind
        | (apply h_mul; omega)
        | (apply h_add_loop; omega)
        | intro _
    case add =>
      rw [add]
      repeat first
        | exact within_pure _ _
        | exact call_fwd _ Fn.mul Node.NULL
        | apply within_bind
        | (apply h_mul; omega)
        | (apply h_add_loop; omega)
        | intro _
    case relational_loop =>
      rw [relational_loop]
      repeat first
        | exact within_pure _ _
        | exact call_fwd _ Fn.add Node.NULL
        | apply within_consume_ite
        | apply within_bind
        | (apply h_add; omega)
        | (apply h_relational_loop; omega)
        | intro _
    case relational =>
      rw [relational]
      repeat first
        | exact within_pure _ _
        | exact call_fwd _ Fn.add Node.NULL
        | apply within_bind
        | (apply h_add; omega)
        | (apply h_relational_loop; omega)
        | intro _
    case equality_loop =>
      rw [equality_loop]
      repeat first
        | exact within_pure _ _
        | exact call_fwd _ Fn.relational Node.NULL
        | apply within_consume_ite
        | apply within_bind
        | (apply h_relational; omega)
        | (apply h_equality_loop; omega)
        | intro _
    case equality =>
      rw [equality]
      repeat first
        | exact within_pure _ _
        | exact call_fwd _ Fn.relational Node.NULL
        | apply within_bind
        | (apply h_relational; omega)
        | (apply h_equality_loop; omega)
        | intro _
    case expr =>
      rw [expr]
      apply h_equality
      omega

/-! ## The run with enough depth -/

theorem need_le (fn : Fn) (L : Nat) : need fn L ≤ 7 * L + 7 := by
  cases fn <;> simp only [need] <;> omega

/-- With the depth `run` supplies, no routine runs out of depth. -/
theorem call_run_ne_out (fn : Fn) (node : Node) (cur : List Token) :
    call fn (7 * cur.length + 7) node cur ≠ Res.out_of_depth :=
  call_within _ fn node cur.length (need_le fn cur.length) cur (le_refl _)

/-- A result reached at some depth is the result at the depth `run` supplies. -/
theorem call_run_eq (fn : Fn) (node : Node) {d : Nat} {cur : List Token} {r : Res Node}
    (h : call fn d node cur = r) (hr : r ≠ Res.out_of_depth) :
    call fn (7 * cur.length + 7) node cur = r := by
  rcases Nat.le_total d (7 * cur.length + 7) with hd | hd
  · exact call_stable fn node h hr hd
  · have h1 := call_stable fn node rfl (call_run_ne_out fn node cur) hd
    rw [← h1, h]

theorem run_expr_of_depth {d : Nat} {cur : List Token} {r : Res Node}
    (h : expr d cur = r) (hr : r ≠ Res.out_of_depth) : run expr cur = r :=
  call_run_eq Fn.expr Node.NULL h hr

theorem run_expr_ne_out_of_depth (cur : List Token) : run expr cur ≠ Res.out_of_depth :=
  call_run_ne_out Fn.expr Node.NULL cur

/-! ## One step of each routine -/

theorem is_op_ne {a b : String} {tok : Token} (h : is_op a tok) (hab : a ≠ b) :
    ¬ is_op b tok := fun hb => hab (is_op_unique h hb)

theorem primary_paren {d : Nat} {l : Token} (hl : is_op "(" l) (next : List Token) :
    primary (d + 1) (l :: next) =
      (expr d >>= fun node => expect ")" >>= fun _ => pure node) next := by
  rw [primary, bind_ok (consume_is_op hl next), if_pos rfl]

theorem primary_other {d : Nat} {tok : Token} (h : ¬ is_op "(" tok) (next : List Token) :
    primary (d + 1) (tok :: next) =
      (expect_number >>= fun v => pure (new_node_num v)) (tok :: next) := by
  rw [primary, bind_ok (consume_not_op h next), if_neg Bool.false_ne_true]

theorem primary_num {d : Nat} {tok : Token} (h : is_num tok) (next : List Token) :
    primary (d + 1) (tok :: next) = Res.ok (new_node_num tok.val) next := by
  rw [primary_other (not_is_op_of_num h "(")]
  have : expect_number (tok :: next) = Res.ok tok.val next := by
    rw [expect_number_cons, if_pos h]
  rw [bind_ok this]
  rfl

theorem primary_not_start {d : Nat} {tok : Token} (h1 : ¬ is_op "(" tok) (h2 : ¬ is_num tok)
    (next : List Token) :
    primary (d + 1) (tok :: next) = Res.error tok.str Message.not_number (tok :: next) := by
  rw [primary_other h1]
  have : expect_number (tok :: next) = Res.error tok.str Message.not_number (tok :: next) := by
    rw [expect_number_cons, if_neg h2]
  rw [bind_error this]

theorem unary_plus {d : Nat} {o : Token} (ho : is_op "+" o) (next : List Token) :
    unary (d + 1) (o :: next) = primary d next := by
  rw [unary, bind_ok (consume_is_op ho next), if_pos rfl]

theorem unary_minus {d : Nat} {o : Token} (ho : is_op "-" o) (next : List Token) :
    unary (d + 1) (o :: next) =
      (primary d >>= fun x => pure (new_node NodeKind.ND_SUB (new_node_num 0) x)) next := by
  rw [unary, bind_ok (consume_other ho (by decide) next), if_neg Bool.false_ne_true,
    bind_ok (consume_is_op ho next), if_pos rfl]

theorem unary_other {d : Nat} {tok : Token} (h1 : ¬ is_op "+" tok) (h2 : ¬ is_op "-" tok)
    (next : List Token) :
    unary (d + 1) (tok :: next) = primary d (tok :: next) := by
  rw [unary, bind_ok (consume_not_op h1 next), if_neg Bool.false_ne_true,
    bind_ok (consume_not_op h2 next), if_neg Bool.false_ne_true]

theorem mul_succ (d : Nat) (cur : List Token) :
    mul (d + 1) cur = (unary d >>= fun node => mul_loop d node) cur := by
  rw [mul]

theorem mul_loop_star {d : Nat} {o : Token} (ho : is_op "*" o) (node : Node)
    (next : List Token) :
    mul_loop (d + 1) node (o :: next) =
      (unary d >>= fun x => mul_loop d (new_node NodeKind.ND_MUL node x)) next := by
  rw [mul_loop, bind_ok (consume_is_op ho next), if_pos rfl]

theorem mul_loop_slash {d : Nat} {o : Token} (ho : is_op "/" o) (node : Node)
    (next : List Token) :
    mul_loop (d + 1) node (o :: next) =
      (unary d >>= fun x => mul_loop d (new_node NodeKind.ND_DIV node x)) next := by
  rw [mul_loop, bind_ok (consume_other ho (by decide) next), if_neg Bool.false_ne_true,
    bind_ok (consume_is_op ho next), if_pos rfl]

theorem mul_loop_stop {d : Nat} {tok : Token}
    (h1 : ¬ is_op "*" tok) (h2 : ¬ is_op "/" tok)
    (node : Node) (next : List Token) :
    mul_loop (d + 1) node (tok :: next) = Res.ok node (tok :: next) := by
  rw [mul_loop, bind_ok (consume_not_op h1 next), if_neg Bool.false_ne_true,
    bind_ok (consume_not_op h2 next), if_neg Bool.false_ne_true]
  rfl

theorem add_succ (d : Nat) (cur : List Token) :
    add (d + 1) cur = (mul d >>= fun node => add_loop d node) cur := by
  rw [add]

theorem add_loop_plus {d : Nat} {o : Token} (ho : is_op "+" o) (node : Node)
    (next : List Token) :
    add_loop (d + 1) node (o :: next) =
      (mul d >>= fun x => add_loop d (new_node NodeKind.ND_ADD node x)) next := by
  rw [add_loop, bind_ok (consume_is_op ho next), if_pos rfl]

theorem add_loop_minus {d : Nat} {o : Token} (ho : is_op "-" o) (node : Node)
    (next : List Token) :
    add_loop (d + 1) node (o :: next) =
      (mul d >>= fun x => add_loop d (new_node NodeKind.ND_SUB node x)) next := by
  rw [add_loop, bind_ok (consume_other ho (by decide) next), if_neg Bool.false_ne_true,
    bind_ok (consume_is_op ho next), if_pos rfl]

theorem add_loop_stop {d : Nat} {tok : Token}
    (h1 : ¬ is_op "+" tok) (h2 : ¬ is_op "-" tok)
    (node : Node) (next : List Token) :
    add_loop (d + 1) node (tok :: next) = Res.ok node (tok :: next) := by
  rw [add_loop, bind_ok (consume_not_op h1 next), if_neg Bool.false_ne_true,
    bind_ok (consume_not_op h2 next), if_neg Bool.false_ne_true]
  rfl

theorem relational_succ (d : Nat) (cur : List Token) :
    relational (d + 1) cur = (add d >>= fun node => relational_loop d node) cur := by
  rw [relational]

theorem relational_loop_le {d : Nat} {o : Token} (ho : is_op "<=" o) (node : Node)
    (next : List Token) :
    relational_loop (d + 1) node (o :: next) =
      (add d >>= fun x => relational_loop d (new_node NodeKind.ND_LTE node x)) next := by
  rw [relational_loop, bind_ok (consume_is_op ho next), if_pos rfl]

theorem relational_loop_ge {d : Nat} {o : Token} (ho : is_op ">=" o) (node : Node)
    (next : List Token) :
    relational_loop (d + 1) node (o :: next) =
      (add d >>= fun x => relational_loop d (new_node NodeKind.ND_LTE x node)) next := by
  rw [relational_loop, bind_ok (consume_other ho (by decide) next), if_neg Bool.false_ne_true,
    bind_ok (consume_is_op ho next), if_pos rfl]

theorem relational_loop_lt {d : Nat} {o : Token} (ho : is_op "<" o) (node : Node)
    (next : List Token) :
    relational_loop (d + 1) node (o :: next) =
      (add d >>= fun x => relational_loop d (new_node NodeKind.ND_LT node x)) next := by
  rw [relational_loop, bind_ok (consume_other ho (by decide) next), if_neg Bool.false_ne_true,
    bind_ok (consume_other ho (by decide) next), if_neg Bool.false_ne_true,
    bind_ok (consume_is_op ho next), if_pos rfl]

theorem relational_loop_gt {d : Nat} {o : Token} (ho : is_op ">" o) (node : Node)
    (next : List Token) :
    relational_loop (d + 1) node (o :: next) =
      (add d >>= fun x => relational_loop d (new_node NodeKind.ND_LT x node)) next := by
  rw [relational_loop, bind_ok (consume_other ho (by decide) next), if_neg Bool.false_ne_true,
    bind_ok (consume_other ho (by decide) next), if_neg Bool.false_ne_true,
    bind_ok (consume_other ho (by decide) next), if_neg Bool.false_ne_true,
    bind_ok (consume_is_op ho next), if_pos rfl]

theorem relational_loop_stop {d : Nat} {tok : Token}
    (h1 : ¬ is_op "<=" tok) (h2 : ¬ is_op ">=" tok) (h3 : ¬ is_op "<" tok) (h4 : ¬ is_op ">" tok)
    (node : Node) (next : List Token) :
    relational_loop (d + 1) node (tok :: next) = Res.ok node (tok :: next) := by
  rw [relational_loop, bind_ok (consume_not_op h1 next), if_neg Bool.false_ne_true,
    bind_ok (consume_not_op h2 next), if_neg Bool.false_ne_true,
    bind_ok (consume_not_op h3 next), if_neg Bool.false_ne_true,
    bind_ok (consume_not_op h4 next), if_neg Bool.false_ne_true]
  rfl

theorem equality_succ (d : Nat) (cur : List Token) :
    equality (d + 1) cur = (relational d >>= fun node => equality_loop d node) cur := by
  rw [equality]

theorem equality_loop_eq {d : Nat} {o : Token} (ho : is_op "==" o) (node : Node)
    (next : List Token) :
    equality_loop (d + 1) node (o :: next) =
      (relational d >>= fun x => equality_loop d (new_node NodeKind.ND_EQ node x)) next := by
  rw [equality_loop, bind_ok (consume_is_op ho next), if_pos rfl]

theorem equality_loop_ne {d : Nat} {o : Token} (ho : is_op "!=" o) (node : Node)
    (next : List Token) :
    equality_loop (d + 1) node (o :: next) =
      (relational d >>= fun x => equality_loop d (new_node NodeKind.ND_NE node x)) next := by
  rw [equality_loop, bind_ok (consume_other ho (by decide) next), if_neg Bool.false_ne_true,
    bind_ok (consume_is_op ho next), if_pos rfl]

theorem equality_loop_stop {d : Nat} {tok : Token}
    (h1 : ¬ is_op "==" tok) (h2 : ¬ is_op "!=" tok)
    (node : Node) (next : List Token) :
    equality_loop (d + 1) node (tok :: next) = Res.ok node (tok :: next) := by
  rw [equality_loop, bind_ok (consume_not_op h1 next), if_neg Bool.false_ne_true,
    bind_ok (consume_not_op h2 next), if_neg Bool.false_ne_true]
  rfl

theorem expr_succ (d : Nat) (cur : List Token) : expr (d + 1) cur = equality d cur := by
  rw [expr]

/-! ## Completeness: every phrase of the grammar is parsed -/

/-- A returned result stays the result at every larger depth. -/
theorem ok_mono (fn : Fn) (node : Node) {d e : Nat} {cur rest : List Token} {t : Node}
    (h : call fn d node cur = Res.ok t rest) (hde : d ≤ e) :
    call fn e node cur = Res.ok t rest :=
  call_stable fn node h (fun hh => by cases hh) hde

/-- Every phrase of the grammar has a tree. -/
theorem derives_builds {X : NT} {ts : List Token} (h : Derives X ts) : ∃ t, Builds X ts t := by
  induction h with
  | expr _ ih => obtain ⟨t, ht⟩ := ih; exact ⟨t, Builds.expr ht⟩
  | equality_one _ ih => obtain ⟨t, ht⟩ := ih; exact ⟨t, Builds.equality_one ht⟩
  | equality_more _ ho _ ih1 ih2 =>
    obtain ⟨t, ht⟩ := ih1
    obtain ⟨u, hu⟩ := ih2
    rcases ho with ho | ho
    · exact ⟨_, Builds.equality_eq ht ho hu⟩
    · exact ⟨_, Builds.equality_ne ht ho hu⟩
  | relational_one _ ih => obtain ⟨t, ht⟩ := ih; exact ⟨t, Builds.relational_one ht⟩
  | relational_more _ ho _ ih1 ih2 =>
    obtain ⟨t, ht⟩ := ih1
    obtain ⟨u, hu⟩ := ih2
    rcases ho with ho | ho | ho | ho
    · exact ⟨_, Builds.relational_lt ht ho hu⟩
    · exact ⟨_, Builds.relational_le ht ho hu⟩
    · exact ⟨_, Builds.relational_gt ht ho hu⟩
    · exact ⟨_, Builds.relational_ge ht ho hu⟩
  | add_one _ ih => obtain ⟨t, ht⟩ := ih; exact ⟨t, Builds.add_one ht⟩
  | add_more _ ho _ ih1 ih2 =>
    obtain ⟨t, ht⟩ := ih1
    obtain ⟨u, hu⟩ := ih2
    rcases ho with ho | ho
    · exact ⟨_, Builds.add_plus ht ho hu⟩
    · exact ⟨_, Builds.add_minus ht ho hu⟩
  | mul_one _ ih => obtain ⟨t, ht⟩ := ih; exact ⟨t, Builds.mul_one ht⟩
  | mul_more _ ho _ ih1 ih2 =>
    obtain ⟨t, ht⟩ := ih1
    obtain ⟨u, hu⟩ := ih2
    rcases ho with ho | ho
    · exact ⟨_, Builds.mul_star ht ho hu⟩
    · exact ⟨_, Builds.mul_slash ht ho hu⟩
  | unary_sign ho _ ih =>
    obtain ⟨t, ht⟩ := ih
    rcases ho with ho | ho
    · exact ⟨_, Builds.unary_plus ho ht⟩
    · exact ⟨_, Builds.unary_minus ho ht⟩
  | unary_plain _ ih => obtain ⟨t, ht⟩ := ih; exact ⟨t, Builds.unary_plain ht⟩
  | primary_num hn => exact ⟨_, Builds.primary_num hn⟩
  | primary_paren hl _ hr ih => obtain ⟨t, ht⟩ := ih; exact ⟨t, Builds.primary_paren hl ht hr⟩

/-- A phrase with a tree is a phrase of the grammar. -/
theorem builds_derives {X : NT} {ts : List Token} {t : Node} (h : Builds X ts t) :
    Derives X ts := by
  induction h with
  | expr _ ih => exact Derives.expr ih
  | equality_one _ ih => exact Derives.equality_one ih
  | equality_eq _ ho _ ih1 ih2 => exact Derives.equality_more ih1 (Or.inl ho) ih2
  | equality_ne _ ho _ ih1 ih2 => exact Derives.equality_more ih1 (Or.inr ho) ih2
  | relational_one _ ih => exact Derives.relational_one ih
  | relational_lt _ ho _ ih1 ih2 => exact Derives.relational_more ih1 (Or.inl ho) ih2
  | relational_le _ ho _ ih1 ih2 => exact Derives.relational_more ih1 (Or.inr (Or.inl ho)) ih2
  | relational_gt _ ho _ ih1 ih2 =>
    exact Derives.relational_more ih1 (Or.inr (Or.inr (Or.inl ho))) ih2
  | relational_ge _ ho _ ih1 ih2 =>
    exact Derives.relational_more ih1 (Or.inr (Or.inr (Or.inr ho))) ih2
  | add_one _ ih => exact Derives.add_one ih
  | add_plus _ ho _ ih1 ih2 => exact Derives.add_more ih1 (Or.inl ho) ih2
  | add_minus _ ho _ ih1 ih2 => exact Derives.add_more ih1 (Or.inr ho) ih2
  | mul_one _ ih => exact Derives.mul_one ih
  | mul_star _ ho _ ih1 ih2 => exact Derives.mul_more ih1 (Or.inl ho) ih2
  | mul_slash _ ho _ ih1 ih2 => exact Derives.mul_more ih1 (Or.inr ho) ih2
  | unary_plus ho _ ih => exact Derives.unary_sign (Or.inl ho) ih
  | unary_minus ho _ ih => exact Derives.unary_sign (Or.inr ho) ih
  | unary_plain _ ih => exact Derives.unary_plain ih
  | primary_num hn => exact Derives.primary_num hn
  | primary_paren hl _ hr ih => exact Derives.primary_paren hl ih hr

theorem stops_of_op {a : String} {tok : Token} (h : is_op a tok) {ops : List String}
    (hn : a ∉ ops) (next : List Token) : stops ops (tok :: next) :=
  fun op hop hop2 => hn (by rw [is_op_unique h hop2]; exact hop)

theorem stops_of_eof {tok : Token} (h : is_eof tok) (ops : List String) (next : List Token) :
    stops ops (tok :: next) :=
  fun op _ => not_is_op_of_eof h op

theorem stops_of_num {tok : Token} (h : is_num tok) (ops : List String) (next : List Token) :
    stops ops (tok :: next) :=
  fun op _ => not_is_op_of_num h op

theorem stops_subset (ops1 ops2 : List String) {rest : List Token}
    (h : stops ops2 rest) (hsub : ∀ op ∈ ops1, op ∈ ops2) : stops ops1 rest := by
  cases rest with
  | nil => exact h
  | cons tok next => exact fun op hop => h op (hsub op hop)

/-- The end-of-input token ends a phrase of every nonterminal. -/
theorem ends_of_eof {tok : Token} (h : is_eof tok) (X : NT) (next : List Token) :
    ends X (tok :: next) := by
  cases X
  case primary => trivial
  case unary => trivial
  all_goals exact stops_of_eof h _ next

/-- A numeric literal ends a phrase of every nonterminal. -/
theorem ends_of_num {tok : Token} (h : is_num tok) (X : NT) (next : List Token) :
    ends X (tok :: next) := by
  cases X
  case primary => trivial
  case unary => trivial
  all_goals exact stops_of_num h _ next

/-- A parenthesis ends a phrase of every nonterminal. -/
theorem ends_of_paren {tok : Token} (h : is_op "(" tok ∨ is_op ")" tok) (X : NT)
    (next : List Token) : ends X (tok :: next) := by
  cases X
  case primary => trivial
  case unary => trivial
  all_goals
    rcases h with h | h
    · exact stops_of_op h (by decide) next
    · exact stops_of_op h (by decide) next

theorem builds_primary_head {ts : List Token} {t : Node} (h : Builds NT.primary ts t) :
    ∃ tok tl, ts = tok :: tl ∧ (is_num tok ∨ is_op "(" tok) := by
  cases h with
  | primary_num hn => exact ⟨_, _, rfl, Or.inl hn⟩
  | primary_paren hl _ _ => exact ⟨_, _, rfl, Or.inr hl⟩

theorem parsed_mul_of_chained {ts : List Token} {t : Node}
    (ht : Chained Fn.mul Fn.mul_loop NT.unary ts t) : Parsed NT.mul ts t := by
  intro rest hrest
  cases rest with
  | nil => exact absurd hrest (by simp [ends, stops])
  | cons tok next =>
    have hs : stops (continuing NT.mul) (tok :: next) := hrest
    have h1 : ¬ is_op "*" tok := hs "*" (by decide)
    have h2 : ¬ is_op "/" tok := hs "/" (by decide)
    exact ht (tok :: next) trivial 1 _ (mul_loop_stop h1 h2 t next) (fun hh => by cases hh)

theorem parsed_add_of_chained {ts : List Token} {t : Node}
    (ht : Chained Fn.add Fn.add_loop NT.mul ts t) : Parsed NT.add ts t := by
  intro rest hrest
  cases rest with
  | nil => exact absurd hrest (by simp [ends, stops])
  | cons tok next =>
    have hs : stops (continuing NT.add) (tok :: next) := hrest
    have h1 : ¬ is_op "+" tok := hs "+" (by decide)
    have h2 : ¬ is_op "-" tok := hs "-" (by decide)
    have hm : ends NT.mul (tok :: next) :=
      stops_subset (continuing NT.mul) (continuing NT.add) hs (by decide)
    exact ht (tok :: next) hm 1 _ (add_loop_stop h1 h2 t next) (fun hh => by cases hh)

theorem parsed_relational_of_chained {ts : List Token} {t : Node}
    (ht : Chained Fn.relational Fn.relational_loop NT.add ts t) :
    Parsed NT.relational ts t := by
  intro rest hrest
  cases rest with
  | nil => exact absurd hrest (by simp [ends, stops])
  | cons tok next =>
    have hs : stops (continuing NT.relational) (tok :: next) := hrest
    have h1 : ¬ is_op "<=" tok := hs "<=" (by decide)
    have h2 : ¬ is_op ">=" tok := hs ">=" (by decide)
    have h3 : ¬ is_op "<" tok := hs "<" (by decide)
    have h4 : ¬ is_op ">" tok := hs ">" (by decide)
    have hm : ends NT.add (tok :: next) :=
      stops_subset (continuing NT.add) (continuing NT.relational) hs (by decide)
    exact ht (tok :: next) hm 1 _ (relational_loop_stop h1 h2 h3 h4 t next)
      (fun hh => by cases hh)

theorem parsed_equality_of_chained {ts : List Token} {t : Node}
    (ht : Chained Fn.equality Fn.equality_loop NT.relational ts t) :
    Parsed NT.equality ts t := by
  intro rest hrest
  cases rest with
  | nil => exact absurd hrest (by simp [ends, stops])
  | cons tok next =>
    have hs : stops (continuing NT.equality) (tok :: next) := hrest
    have h1 : ¬ is_op "==" tok := hs "==" (by decide)
    have h2 : ¬ is_op "!=" tok := hs "!=" (by decide)
    have hm : ends NT.relational (tok :: next) :=
      stops_subset (continuing NT.relational) (continuing NT.equality) hs (by decide)
    exact ht (tok :: next) hm 1 _ (equality_loop_stop h1 h2 t next) (fun hh => by cases hh)

/-- A function of a layer, `fn = H; loop`, takes a phrase of the next layer `Y`
as the first operand of its chain. -/
theorem chained_one (fn loop : Fn) (Y : NT) {ts : List Token} {t : Node}
    (hfn : ∀ d cur, call fn (d + 1) Node.NULL cur =
      (call (fn_of Y) d Node.NULL >>= fun node => call loop d node) cur)
    (ht : Parsed Y ts t) : Chained fn loop Y ts t := by
  intro rest hrest d0 r hloop hr
  obtain ⟨d1, h1⟩ := ht rest hrest
  refine ⟨max d1 d0 + 1, ?_⟩
  rw [hfn, bind_ok (ok_mono (fn_of Y) Node.NULL h1 (le_max_left d1 d0))]
  exact call_stable loop t hloop hr (le_max_right d1 d0)

/-- One more turn of the loop: when the loop, on the operator `o`, reads an
operand with the routine of `Y` and goes on with the tree `mk t1 t2`, the chain
`ts` followed by `o` and a phrase `us` of `Y` is a chain again. -/
theorem chained_more (fn loop : Fn) (Y : NT) {ts us : List Token} {o : Token}
    {t1 t2 : Node} (mk : Node → Node → Node)
    (hstep : ∀ d node next, call loop (d + 1) node (o :: next) =
      (call (fn_of Y) d Node.NULL >>= fun x => call loop d (mk node x)) next)
    (ho : ∀ next, ends Y (o :: next))
    (ht1 : Chained fn loop Y ts t1) (ht2 : Parsed Y us t2) :
    Chained fn loop Y (ts ++ o :: us) (mk t1 t2) := by
  intro rest hrest d0 r hloop hr
  obtain ⟨d2, hd2⟩ := ht2 rest hrest
  have key : call loop (max d2 d0 + 1) t1 (o :: (us ++ rest)) = r := by
    rw [hstep, bind_ok (ok_mono (fn_of Y) Node.NULL hd2 (le_max_left d2 d0))]
    exact call_stable loop (mk t1 t2) hloop hr (le_max_right d2 d0)
  obtain ⟨d, hd⟩ := ht1 (o :: (us ++ rest)) (ho _) _ r key hr
  exact ⟨d, by rw [List.append_assoc, List.cons_append]; exact hd⟩

/-- Every phrase of the grammar is parsed by the routine of its nonterminal into
the tree of its derivation. -/
theorem complete {X : NT} {ts : List Token} {t : Node} (h : Builds X ts t) :
    Complete X ts t := by
  induction h with
  | expr _ ih =>
    intro rest hrest
    obtain ⟨d, hd⟩ := parsed_equality_of_chained ih rest hrest
    exact ⟨d + 1, by rw [← hd]; exact expr_succ d _⟩
  | equality_one _ ih =>
    exact chained_one Fn.equality Fn.equality_loop NT.relational equality_succ (parsed_relational_of_chained ih)
  | equality_eq _ ho _ ih1 ih2 =>
    exact chained_more Fn.equality Fn.equality_loop NT.relational (fun a b => new_node NodeKind.ND_EQ a b)
      (fun d node next => equality_loop_eq ho node next)
      (fun next => stops_of_op ho (by decide) next) ih1 (parsed_relational_of_chained ih2)
  | equality_ne _ ho _ ih1 ih2 =>
    exact chained_more Fn.equality Fn.equality_loop NT.relational (fun a b => new_node NodeKind.ND_NE a b)
      (fun d node next => equality_loop_ne ho node next)
      (fun next => stops_of_op ho (by decide) next) ih1 (parsed_relational_of_chained ih2)
  | relational_one _ ih =>
    exact chained_one Fn.relational Fn.relational_loop NT.add relational_succ (parsed_add_of_chained ih)
  | relational_lt _ ho _ ih1 ih2 =>
    exact chained_more Fn.relational Fn.relational_loop NT.add (fun a b => new_node NodeKind.ND_LT a b)
      (fun d node next => relational_loop_lt ho node next)
      (fun next => stops_of_op ho (by decide) next) ih1 (parsed_add_of_chained ih2)
  | relational_le _ ho _ ih1 ih2 =>
    exact chained_more Fn.relational Fn.relational_loop NT.add (fun a b => new_node NodeKind.ND_LTE a b)
      (fun d node next => relational_loop_le ho node next)
      (fun next => stops_of_op ho (by decide) next) ih1 (parsed_add_of_chained ih2)
  | relational_gt _ ho _ ih1 ih2 =>
    exact chained_more Fn.relational Fn.relational_loop NT.add (fun a b => new_node NodeKind.ND_LT b a)
      (fun d node next => relational_loop_gt ho node next)
      (fun next => stops_of_op ho (by decide) next) ih1 (parsed_add_of_chained ih2)
  | relational_ge _ ho _ ih1 ih2 =>
    exact chained_more Fn.relational Fn.relational_loop NT.add (fun a b => new_node NodeKind.ND_LTE b a)
      (fun d node next => relational_loop_ge ho node next)
      (fun next => stops_of_op ho (by decide) next) ih1 (parsed_add_of_chained ih2)
  | add_one _ ih =>
    exact chained_one Fn.add Fn.add_loop NT.mul add_succ (parsed_mul_of_chained ih)
  | add_plus _ ho _ ih1 ih2 =>
    exact chained_more Fn.add Fn.add_loop NT.mul (fun a b => new_node NodeKind.ND_ADD a b)
      (fun d node next => add_loop_plus ho node next)
      (fun next => stops_of_op ho (by decide) next) ih1 (parsed_mul_of_chained ih2)
  | add_minus _ ho _ ih1 ih2 =>
    exact chained_more Fn.add Fn.add_loop NT.mul (fun a b => new_node NodeKind.ND_SUB a b)
      (fun d node next => add_loop_minus ho node next)
      (fun next => stops_of_op ho (by decide) next) ih1 (parsed_mul_of_chained ih2)
  | mul_one _ ih =>
    exact chained_one Fn.mul Fn.mul_loop NT.unary mul_succ ih
  | mul_star _ ho _ ih1 ih2 =>
    exact chained_more Fn.mul Fn.mul_loop NT.unary (fun a b => new_node NodeKind.ND_MUL a b)
      (fun d node next => mul_loop_star ho node next)
      (fun next => trivial) ih1 ih2
  | mul_slash _ ho _ ih1 ih2 =>
    exact chained_more Fn.mul Fn.mul_loop NT.unary (fun a b => new_node NodeKind.ND_DIV a b)
      (fun d node next => mul_loop_slash ho node next)
      (fun next => trivial) ih1 ih2
  | @unary_plus ts o t ho _ ih =>
    intro rest _
    obtain ⟨d, hd⟩ := ih rest trivial
    exact ⟨d + 1, by rw [← hd]; exact unary_plus ho _⟩
  | @unary_minus ts o t ho _ ih =>
    intro rest _
    obtain ⟨d, hd⟩ := ih rest trivial
    refine ⟨d + 1, ?_⟩
    have hp : primary d (ts ++ rest) = Res.ok t rest := hd
    have hstep := @unary_minus d o ho (ts ++ rest)
    rw [bind_ok hp] at hstep
    exact hstep
  | unary_plain hp ih =>
    obtain ⟨tok, tl, rfl, hhead⟩ := builds_primary_head hp
    have h1 : ¬ is_op "+" tok := by
      rcases hhead with hn | hl
      · exact not_is_op_of_num hn "+"
      · exact is_op_ne hl (by decide)
    have h2 : ¬ is_op "-" tok := by
      rcases hhead with hn | hl
      · exact not_is_op_of_num hn "-"
      · exact is_op_ne hl (by decide)
    intro rest _
    obtain ⟨d, hd⟩ := ih rest trivial
    exact ⟨d + 1, by rw [← hd]; exact unary_other h1 h2 _⟩
  | primary_num hn =>
    exact fun rest _ => ⟨1, primary_num hn rest⟩
  | @primary_paren ts l r t hl _ hr ih =>
    intro rest _
    obtain ⟨d, hd⟩ := ih (r :: rest) (stops_of_op hr (by decide) rest)
    refine ⟨d + 1, ?_⟩
    have he : expr d (ts ++ r :: rest) = Res.ok t (r :: rest) := hd
    have hx : expect ")" (r :: rest) = Res.ok () rest := by rw [expect_cons, if_pos hr]
    have hstep := @primary_paren d l hl (ts ++ [r] ++ rest)
    rw [List.append_assoc, List.singleton_append, bind_ok he, bind_ok hx] at hstep
    have hl2 : (l :: ts ++ [r]) ++ rest = l :: (ts ++ r :: rest) := by simp
    rw [hl2]
    exact hstep

/-- Every phrase of `X` with tree `t` is parsed by the routine of `X` into `t`,
whatever follows the phrase, as long as what follows ends it. -/
theorem builds_parsed {X : NT} {ts : List Token} {t : Node} (h : Builds X ts t) :
    Parsed X ts t := by
  have hc := complete h
  cases X with
  | expr => exact hc
  | equality => exact parsed_equality_of_chained hc
  | relational => exact parsed_relational_of_chained hc
  | add => exact parsed_add_of_chained hc
  | mul => exact parsed_mul_of_chained hc
  | unary => exact hc
  | primary => exact hc

/-- The run of the routine of `X` on a phrase of `X` with tree `t`, followed by
a cursor that ends the phrase, returns `t` and stops at that cursor. -/
theorem run_of_builds {X : NT} {ts : List Token} {t : Node} (h : Builds X ts t)
    {rest : List Token} (hrest : ends X rest) :
    call (fn_of X) (7 * (ts ++ rest).length + 7) Node.NULL (ts ++ rest) = Res.ok t rest := by
  obtain ⟨d, hd⟩ := builds_parsed h rest hrest
  exact call_run_eq (fn_of X) Node.NULL hd (fun hh => by cases hh)

theorem run_expr_of_builds {ts : List Token} {t : Node} (h : Builds NT.expr ts t)
    {rest : List Token} (hrest : ends NT.expr rest) :
    run expr (ts ++ rest) = Res.ok t rest :=
  run_of_builds h hrest

/-! ## Soundness: what a routine consumed is a phrase of the grammar -/

theorem bind_eq_ok {p : Parser α} {f : α → Parser β} {cur rest : List Token} {t : β}
    (h : (p >>= f) cur = Res.ok t rest) :
    ∃ v c, p cur = Res.ok v c ∧ f v c = Res.ok t rest := by
  rw [bind_apply] at h
  cases hp : p cur with
  | ok v c => rw [hp] at h; exact ⟨v, c, rfl, h⟩
  | error loc msg c => rw [hp] at h; cases h
  | null_deref => rw [hp] at h; cases h
  | out_of_depth => rw [hp] at h; cases h

theorem expect_eq_ok {op : String} {cur rest : List Token} {u : Unit}
    (h : expect op cur = Res.ok u rest) : ∃ r, cur = r :: rest ∧ is_op op r := by
  cases cur with
  | nil => cases h
  | cons tok next =>
    rw [expect_cons] at h
    by_cases hop : is_op op tok
    · rw [if_pos hop] at h
      cases h
      exact ⟨tok, rfl, hop⟩
    · rw [if_neg hop] at h
      cases h

theorem expect_number_eq_ok {cur rest : List Token} {v : Int}
    (h : expect_number cur = Res.ok v rest) :
    ∃ n, cur = n :: rest ∧ is_num n ∧ v = n.val := by
  cases cur with
  | nil => cases h
  | cons tok next =>
    rw [expect_number_cons] at h
    by_cases hn : is_num tok
    · rw [if_pos hn] at h
      cases h
      exact ⟨tok, rfl, hn, rfl⟩
    · rw [if_neg hn] at h
      cases h

theorem extends_nil (X : NT) : Extends X [] := by
  intro pre h
  rw [List.append_nil]
  exact h

/-- A function `fn = H; loop` consumed a chain when `H` and the loop did their part. -/
theorem sound_layer {d : Nat} (fn loop : Fn) (X Y : NT)
    (hfn : ∀ cur, call fn (d + 1) Node.NULL cur =
      (call (fn_of Y) d Node.NULL >>= fun node => call loop d node) cur)
    (hone : ∀ ts, Derives Y ts → Derives X ts)
    (ihY : ∀ cur t rest, call (fn_of Y) d Node.NULL cur = Res.ok t rest →
      ∃ ts, cur = ts ++ rest ∧ Derives Y ts)
    (ihL : ∀ node cur t rest, call loop d node cur = Res.ok t rest →
      ∃ ts, cur = ts ++ rest ∧ Extends X ts)
    {cur rest : List Token} {t : Node}
    (h : call fn (d + 1) Node.NULL cur = Res.ok t rest) :
    ∃ ts, cur = ts ++ rest ∧ Derives X ts := by
  rw [hfn] at h
  obtain ⟨node, c, h1, h2⟩ := bind_eq_ok h
  obtain ⟨ts1, rfl, hd1⟩ := ihY _ _ _ h1
  obtain ⟨ts2, rfl, hd2⟩ := ihL _ _ _ _ h2
  exact ⟨ts1 ++ ts2, by rw [List.append_assoc], hd2 ts1 (hone ts1 hd1)⟩

/-- One turn of a loop on the operator `o` consumed `o`, a phrase of the
operand nonterminal and what the rest of the loop consumed. -/
theorem sound_turn {d : Nat} (loop : Fn) (X Y : NT) {o : Token} {node : Node}
    {next : List Token} (mk : Node → Node → Node)
    (hstep : call loop (d + 1) node (o :: next) =
      (call (fn_of Y) d Node.NULL >>= fun x => call loop d (mk node x)) next)
    (hrule : ∀ pre us, Derives X pre → Derives Y us → Derives X (pre ++ o :: us))
    (ihY : ∀ cur t rest, call (fn_of Y) d Node.NULL cur = Res.ok t rest →
      ∃ ts, cur = ts ++ rest ∧ Derives Y ts)
    (ihL : ∀ node cur t rest, call loop d node cur = Res.ok t rest →
      ∃ ts, cur = ts ++ rest ∧ Extends X ts)
    {rest : List Token} {t : Node}
    (h : call loop (d + 1) node (o :: next) = Res.ok t rest) :
    ∃ ts, o :: next = ts ++ rest ∧ Extends X ts := by
  rw [hstep] at h
  obtain ⟨x, c, h1, h2⟩ := bind_eq_ok h
  obtain ⟨us, rfl, hd1⟩ := ihY _ _ _ h1
  obtain ⟨ts2, rfl, hd2⟩ := ihL _ _ _ _ h2
  refine ⟨o :: us ++ ts2, by simp, fun pre hpre => ?_⟩
  have h3 := hd2 (pre ++ o :: us) (hrule pre us hpre hd1)
  rw [List.append_assoc] at h3
  exact h3

theorem sound_mul_loop {d : Nat} (ihY : SoundAt d Fn.unary) (ihL : SoundAt d Fn.mul_loop) :
    SoundAt (d + 1) Fn.mul_loop := by
  intro node cur t rest h
  have hY : ∀ cur t rest, call (fn_of NT.unary) d Node.NULL cur = Res.ok t rest →
      ∃ ts, cur = ts ++ rest ∧ Derives NT.unary ts := fun cur t rest hh => ihY Node.NULL cur t rest hh
  cases cur with
  | nil => cases h
  | cons tok next =>
    by_cases h1 : is_op "*" tok
    · have ho := h1
      exact sound_turn Fn.mul_loop NT.mul NT.unary (fun a b => new_node NodeKind.ND_MUL a b)
        (mul_loop_star ho node next)
        (fun pre us hp hu => Derives.mul_more hp (Or.inl ho) hu) hY ihL h
    by_cases h2 : is_op "/" tok
    · have ho := h2
      exact sound_turn Fn.mul_loop NT.mul NT.unary (fun a b => new_node NodeKind.ND_DIV a b)
        (mul_loop_slash ho node next)
        (fun pre us hp hu => Derives.mul_more hp (Or.inr ho) hu) hY ihL h
    have hstop : call Fn.mul_loop (d + 1) node (tok :: next) = Res.ok node (tok :: next) :=
      mul_loop_stop h1 h2 node next
    rw [hstop] at h
    cases h
    exact ⟨[], rfl, extends_nil NT.mul⟩

theorem sound_add_loop {d : Nat} (ihY : SoundAt d Fn.mul) (ihL : SoundAt d Fn.add_loop) :
    SoundAt (d + 1) Fn.add_loop := by
  intro node cur t rest h
  have hY : ∀ cur t rest, call (fn_of NT.mul) d Node.NULL cur = Res.ok t rest →
      ∃ ts, cur = ts ++ rest ∧ Derives NT.mul ts := fun cur t rest hh => ihY Node.NULL cur t rest hh
  cases cur with
  | nil => cases h
  | cons tok next =>
    by_cases h1 : is_op "+" tok
    · have ho := h1
      exact sound_turn Fn.add_loop NT.add NT.mul (fun a b => new_node NodeKind.ND_ADD a b)
        (add_loop_plus ho node next)
        (fun pre us hp hu => Derives.add_more hp (Or.inl ho) hu) hY ihL h
    by_cases h2 : is_op "-" tok
    · have ho := h2
      exact sound_turn Fn.add_loop NT.add NT.mul (fun a b => new_node NodeKind.ND_SUB a b)
        (add_loop_minus ho node next)
        (fun pre us hp hu => Derives.add_more hp (Or.inr ho) hu) hY ihL h
    have hstop : call Fn.add_loop (d + 1) node (tok :: next) = Res.ok node (tok :: next) :=
      add_loop_stop h1 h2 node next
    rw [hstop] at h
    cases h
    exact ⟨[], rfl, extends_nil NT.add⟩

theorem sound_relational_loop {d : Nat} (ihY : SoundAt d Fn.add) (ihL : SoundAt d Fn.relational_loop) :
    SoundAt (d + 1) Fn.relational_loop := by
  intro node cur t rest h
  have hY : ∀ cur t rest, call (fn_of NT.add) d Node.NULL cur = Res.ok t rest →
      ∃ ts, cur = ts ++ rest ∧ Derives NT.add ts := fun cur t rest hh => ihY Node.NULL cur t rest hh
  cases cur with
  | nil => cases h
  | cons tok next =>
    by_cases h1 : is_op "<=" tok
    · have ho := h1
      exact sound_turn Fn.relational_loop NT.relational NT.add (fun a b => new_node NodeKind.ND_LTE a b)
        (relational_loop_le ho node next)
        (fun pre us hp hu => Derives.relational_more hp (Or.inr (Or.inl ho)) hu) hY ihL h
    by_cases h2 : is_op ">=" tok
    · have ho := h2
      exact sound_turn Fn.relational_loop NT.relational NT.add (fun a b => new_node NodeKind.ND_LTE b a)
        (relational_loop_ge ho node next)
        (fun pre us hp hu => Derives.relational_more hp (Or.inr (Or.inr (Or.inr ho))) hu) hY ihL h
    by_cases h3 : is_op "<" tok
    · have ho := h3
      exact sound_turn Fn.relational_loop NT.relational NT.add (fun a b => new_node NodeKind.ND_LT a b)
        (relational_loop_lt ho node next)
        (fun pre us hp hu => Derives.relational_more hp (Or.inl ho) hu) hY ihL h
    by_cases h4 : is_op ">" tok
    · have ho := h4
      exact sound_turn Fn.relational_loop NT.relational NT.add (fun a b => new_node NodeKind.ND_LT b a)
        (relational_loop_gt ho node next)
        (fun pre us hp hu => Derives.relational_more hp (Or.inr (Or.inr (Or.inl ho))) hu) hY ihL h
    have hstop : call Fn.relational_loop (d + 1) node (tok :: next) = Res.ok node (tok :: next) :=
      relational_loop_stop h1 h2 h3 h4 node next
    rw [hstop] at h
    cases h
    exact ⟨[], rfl, extends_nil NT.relational⟩

theorem sound_equality_loop {d : Nat} (ihY : SoundAt d Fn.relational) (ihL : SoundAt d Fn.equality_loop) :
    SoundAt (d + 1) Fn.equality_loop := by
  intro node cur t rest h
  have hY : ∀ cur t rest, call (fn_of NT.relational) d Node.NULL cur = Res.ok t rest →
      ∃ ts, cur = ts ++ rest ∧ Derives NT.relational ts := fun cur t rest hh => ihY Node.NULL cur t rest hh
  cases cur with
  | nil => cases h
  | cons tok next =>
    by_cases h1 : is_op "==" tok
    · have ho := h1
      exact sound_turn Fn.equality_loop NT.equality NT.relational (fun a b => new_node NodeKind.ND_EQ a b)
        (equality_loop_eq ho node next)
        (fun pre us hp hu => Derives.equality_more hp (Or.inl ho) hu) hY ihL h
    by_cases h2 : is_op "!=" tok
    · have ho := h2
      exact sound_turn Fn.equality_loop NT.equality NT.relational (fun a b => new_node NodeKind.ND_NE a b)
        (equality_loop_ne ho node next)
        (fun pre us hp hu => Derives.equality_more hp (Or.inr ho) hu) hY ihL h
    have hstop : call Fn.equality_loop (d + 1) node (tok :: next) = Res.ok node (tok :: next) :=
      equality_loop_stop h1 h2 node next
    rw [hstop] at h
    cases h
    exact ⟨[], rfl, extends_nil NT.equality⟩

/-- Whatever a routine consumed before it returned is a phrase of the grammar. -/
theorem sound (d : Nat) : ∀ fn : Fn, SoundAt d fn := by
  induction d with
  | zero =>
    intro fn node cur t rest h
    cases fn <;> cases h
  | succ d ih =>
    intro fn
    cases fn
    case primary =>
      intro node cur t rest h
      cases cur with
      | nil => cases h
      | cons tok next =>
        by_cases hl : is_op "(" tok
        · have h1 : primary (d + 1) (tok :: next) = Res.ok t rest := h
          rw [primary_paren hl] at h1
          obtain ⟨x, c, he, h2⟩ := bind_eq_ok h1
          obtain ⟨u, c2, hx, h3⟩ := bind_eq_ok h2
          obtain ⟨ts, rfl, hd⟩ := ih Fn.expr Node.NULL _ _ _ he
          obtain ⟨r, hcr, hr⟩ := expect_eq_ok hx
          cases h3
          subst hcr
          exact ⟨tok :: ts ++ [r], by simp, Derives.primary_paren hl hd hr⟩
        · have h1 : primary (d + 1) (tok :: next) = Res.ok t rest := h
          rw [primary_other hl] at h1
          obtain ⟨v, c, hn, h2⟩ := bind_eq_ok h1
          obtain ⟨n, hcn, hnum, _⟩ := expect_number_eq_ok hn
          cases h2
          cases hcn
          exact ⟨[tok], rfl, Derives.primary_num hnum⟩
    case unary =>
      intro node cur t rest h
      cases cur with
      | nil => cases h
      | cons tok next =>
        have h1 : unary (d + 1) (tok :: next) = Res.ok t rest := h
        by_cases hp : is_op "+" tok
        · rw [unary_plus hp] at h1
          obtain ⟨ts, rfl, hd⟩ := ih Fn.primary Node.NULL _ _ _ h1
          exact ⟨tok :: ts, rfl, Derives.unary_sign (Or.inl hp) hd⟩
        · by_cases hm : is_op "-" tok
          · rw [unary_minus hm] at h1
            obtain ⟨x, c, hpr, h2⟩ := bind_eq_ok h1
            cases h2
            obtain ⟨ts, rfl, hd⟩ := ih Fn.primary Node.NULL _ _ _ hpr
            exact ⟨tok :: ts, rfl, Derives.unary_sign (Or.inr hm) hd⟩
          · rw [unary_other hp hm] at h1
            obtain ⟨ts, hts, hd⟩ := ih Fn.primary Node.NULL _ _ _ h1
            exact ⟨ts, hts, Derives.unary_plain hd⟩
    case mul_loop => exact sound_mul_loop (ih Fn.unary) (ih Fn.mul_loop)
    case mul =>
      intro node cur t rest h
      exact sound_layer Fn.mul Fn.mul_loop NT.mul NT.unary (mul_succ d)
        (fun ts hh => Derives.mul_one hh) (fun cur t rest hh => ih Fn.unary Node.NULL cur t rest hh)
        (fun node cur t rest hh => ih Fn.mul_loop node cur t rest hh) h
    case add_loop => exact sound_add_loop (ih Fn.mul) (ih Fn.add_loop)
    case add =>
      intro node cur t rest h
      exact sound_layer Fn.add Fn.add_loop NT.add NT.mul (add_succ d)
        (fun ts hh => Derives.add_one hh) (fun cur t rest hh => ih Fn.mul Node.NULL cur t rest hh)
        (fun node cur t rest hh => ih Fn.add_loop node cur t rest hh) h
    case relational_loop => exact sound_relational_loop (ih Fn.add) (ih Fn.relational_loop)
    case relational =>
      intro node cur t rest h
      exact sound_layer Fn.relational Fn.relational_loop NT.relational NT.add (relational_succ d)
        (fun ts hh => Derives.relational_one hh) (fun cur t rest hh => ih Fn.add Node.NULL cur t rest hh)
        (fun node cur t rest hh => ih Fn.relational_loop node cur t rest hh) h
    case equality_loop => exact sound_equality_loop (ih Fn.relational) (ih Fn.equality_loop)
    case equality =>
      intro node cur t rest h
      exact sound_layer Fn.equality Fn.equality_loop NT.equality NT.relational (equality_succ d)
        (fun ts hh => Derives.equality_one hh) (fun cur t rest hh => ih Fn.relational Node.NULL cur t rest hh)
        (fun node cur t rest hh => ih Fn.equality_loop node cur t rest hh) h
    case expr =>
      intro node cur t rest h
      have h1 : expr (d + 1) cur = Res.ok t rest := h
      rw [expr_succ] at h1
      obtain ⟨ts, hts, hd⟩ := ih Fn.equality Node.NULL _ _ _ h1
      exact ⟨ts, hts, Derives.expr hd⟩

/-! ## Errors travel up unchanged -/

/-- An error of `unary` is the error of `expr`: no routine above catches it. -/
theorem expr_error_of_unary {d : Nat} {cur c : List Token} {loc : List Char} {msg : Message}
    (h : unary d cur = Res.error loc msg c) : expr (d + 5) cur = Res.error loc msg c := by
  have h1 : mul (d + 1) cur = Res.error loc msg c := by
    rw [mul_succ]; exact bind_error h
  have h2 : add (d + 2) cur = Res.error loc msg c := by
    rw [add_succ]; exact bind_error h1
  have h3 : relational (d + 3) cur = Res.error loc msg c := by
    rw [relational_succ]; exact bind_error h2
  have h4 : equality (d + 4) cur = Res.error loc msg c := by
    rw [equality_succ]; exact bind_error h3
  rw [expr_succ]
  exact h4

/-- An error of `primary` on a token that is no sign is the error of `expr`. -/
theorem expr_error_of_primary {d : Nat} {tok : Token} {next c : List Token} {loc : List Char}
    {msg : Message} (h1 : ¬ is_op "+" tok) (h2 : ¬ is_op "-" tok)
    (h : primary d (tok :: next) = Res.error loc msg c) :
    expr (d + 6) (tok :: next) = Res.error loc msg c := by
  apply expr_error_of_unary
  rw [unary_other h1 h2]
  exact h

theorem run_expr_error {d : Nat} {cur c : List Token} {loc : List Char} {msg : Message}
    (h : expr d cur = Res.error loc msg c) : run expr cur = Res.error loc msg c :=
  run_expr_of_depth h (fun hh => by cases hh)

/-! ## Phrases made of one numeric literal, and lifting along the layers -/

theorem builds_mul_of_primary {ts : List Token} {t : Node} (h : Builds NT.primary ts t) :
    Builds NT.mul ts t :=
  Builds.mul_one (Builds.unary_plain h)

theorem builds_add_of_primary {ts : List Token} {t : Node} (h : Builds NT.primary ts t) :
    Builds NT.add ts t :=
  Builds.add_one (builds_mul_of_primary h)

theorem builds_relational_of_primary {ts : List Token} {t : Node}
    (h : Builds NT.primary ts t) : Builds NT.relational ts t :=
  Builds.relational_one (builds_add_of_primary h)

theorem builds_expr_of_equality {ts : List Token} {t : Node} (h : Builds NT.equality ts t) :
    Builds NT.expr ts t :=
  Builds.expr h

theorem builds_expr_of_relational {ts : List Token} {t : Node}
    (h : Builds NT.relational ts t) : Builds NT.expr ts t :=
  Builds.expr (Builds.equality_one h)

theorem builds_expr_of_add {ts : List Token} {t : Node} (h : Builds NT.add ts t) :
    Builds NT.expr ts t :=
  builds_expr_of_relational (Builds.relational_one h)

theorem builds_expr_of_mul {ts : List Token} {t : Node} (h : Builds NT.mul ts t) :
    Builds NT.expr ts t :=
  builds_expr_of_add (Builds.add_one h)

theorem builds_expr_of_unary {ts : List Token} {t : Node} (h : Builds NT.unary ts t) :
    Builds NT.expr ts t :=
  builds_expr_of_mul (Builds.mul_one h)

/-- The run of a routine returns at most one tree for a phrase. -/
theorem builds_of_run {X : NT} {ts : List Token} (h : Derives X ts) {rest : List Token}
    (hrest : ends X rest) {t : Node}
    (hrun : run (fun d => call (fn_of X) d Node.NULL) (ts ++ rest) = Res.ok t rest) :
    Builds X ts t := by
  obtain ⟨t1, h1⟩ := derives_builds h
  have h2 := run_of_builds h1 hrest
  have h3 : Res.ok t1 rest = Res.ok t rest := by rw [← h2]; exact hrun
  cases h3
  exact h1

/-! ## Chains of numeric literals -/

theorem is_op_iff_eq {a : String} {tok : Token} (h : is_op a tok) (b : String) :
    is_op b tok ↔ b = a :=
  ⟨fun hb => is_op_unique hb h, fun hb => by rw [hb]; exact h⟩

theorem spec_bin_kind_plus {o : Token} (h : is_op "+" o) : spec_bin_kind o = NodeKind.ND_ADD := by
  simp [spec_bin_kind, is_op_iff_eq h]

theorem spec_bin_kind_minus {o : Token} (h : is_op "-" o) :
    spec_bin_kind o = NodeKind.ND_SUB := by
  simp [spec_bin_kind, is_op_iff_eq h]

theorem spec_bin_kind_star {o : Token} (h : is_op "*" o) : spec_bin_kind o = NodeKind.ND_MUL := by
  simp [spec_bin_kind, is_op_iff_eq h]

theorem spec_bin_kind_slash {o : Token} (h : is_op "/" o) :
    spec_bin_kind o = NodeKind.ND_DIV := by
  simp [spec_bin_kind, is_op_iff_eq h]

theorem spec_bin_kind_eq {o : Token} (h : is_op "==" o) : spec_bin_kind o = NodeKind.ND_EQ := by
  simp [spec_bin_kind, is_op_iff_eq h]

theorem spec_bin_kind_ne {o : Token} (h : is_op "!=" o) : spec_bin_kind o = NodeKind.ND_NE := by
  simp [spec_bin_kind, is_op_iff_eq h]

theorem append_pair_toks (ts : List Token) (p : Token × Token) (ps : List (Token × Token)) :
    ts ++ pair_toks (p :: ps) = (ts ++ p.1 :: [p.2]) ++ pair_toks ps := by
  simp [pair_toks]

/-- A chain of additive operators and literals after a phrase of `add`. -/
theorem builds_add_chain (pairs : List (Token × Token)) :
    ∀ (ts : List Token) (t : Node), Builds NT.add ts t →
      (∀ p ∈ pairs, is_num p.2) → (∀ p ∈ pairs, is_op "+" p.1 ∨ is_op "-" p.1) →
      Builds NT.add (ts ++ pair_toks pairs) (pairs.foldl spec_fold_step t) := by
  induction pairs with
  | nil => intro ts t h _ _; simpa [pair_toks] using h
  | cons p ps ih =>
    intro ts t h hn ho
    rw [append_pair_toks, List.foldl_cons]
    have hp := Builds.primary_num (hn p (List.mem_cons_self p ps))
    refine ih _ _ ?_ (fun q hq => hn q (List.mem_cons_of_mem p hq))
      (fun q hq => ho q (List.mem_cons_of_mem p hq))
    unfold spec_fold_step
    rcases ho p (List.mem_cons_self p ps) with h1 | h1
    · rw [spec_bin_kind_plus h1]
      exact Builds.add_plus h h1 (builds_mul_of_primary hp)
    · rw [spec_bin_kind_minus h1]
      exact Builds.add_minus h h1 (builds_mul_of_primary hp)

/-- A chain of multiplicative operators and literals after a phrase of `mul`. -/
theorem builds_mul_chain (pairs : List (Token × Token)) :
    ∀ (ts : List Token) (t : Node), Builds NT.mul ts t →
      (∀ p ∈ pairs, is_num p.2) → (∀ p ∈ pairs, is_op "*" p.1 ∨ is_op "/" p.1) →
      Builds NT.mul (ts ++ pair_toks pairs) (pairs.foldl spec_fold_step t) := by
  induction pairs with
  | nil => intro ts t h _ _; simpa [pair_toks] using h
  | cons p ps ih =>
    intro ts t h hn ho
    rw [append_pair_toks, List.foldl_cons]
    have hp := Builds.primary_num (hn p (List.mem_cons_self p ps))
    refine ih _ _ ?_ (fun q hq => hn q (List.mem_cons_of_mem p hq))
      (fun q hq => ho q (List.mem_cons_of_mem p hq))
    unfold spec_fold_step
    rcases ho p (List.mem_cons_self p ps) with h1 | h1
    · rw [spec_bin_kind_star h1]
      exact Builds.mul_star h h1 (Builds.unary_plain hp)
    · rw [spec_bin_kind_slash h1]
      exact Builds.mul_slash h h1 (Builds.unary_plain hp)

/-- A chain of equality operators and literals after a phrase of `equality`. -/
theorem builds_equality_chain (pairs : List (Token × Token)) :
    ∀ (ts : List Token) (t : Node), Builds NT.equality ts t →
      (∀ p ∈ pairs, is_num p.2) → (∀ p ∈ pairs, is_op "==" p.1 ∨ is_op "!=" p.1) →
      Builds NT.equality (ts ++ pair_toks pairs) (pairs.foldl spec_fold_step t) := by
  induction pairs with
  | nil => intro ts t h _ _; simpa [pair_toks] using h
  | cons p ps ih =>
    intro ts t h hn ho
    rw [append_pair_toks, List.foldl_cons]
    have hp := Builds.primary_num (hn p (List.mem_cons_self p ps))
    refine ih _ _ ?_ (fun q hq => hn q (List.mem_cons_of_mem p hq))
      (fun q hq => ho q (List.mem_cons_of_mem p hq))
    unfold spec_fold_step
    rcases ho p (List.mem_cons_self p ps) with h1 | h1
    · rw [spec_bin_kind_eq h1]
      exact Builds.equality_eq h h1 (builds_relational_of_primary hp)
    · rw [spec_bin_kind_ne h1]
      exact Builds.equality_ne h h1 (builds_relational_of_primary hp)

/-! ## Derivations of the sample inputs -/

theorem builds_1_plus_2_times_3 :
    Builds NT.expr toks_1_plus_2_times_3
      (new_node NodeKind.ND_ADD (new_node_num 1)
        (new_node NodeKind.ND_MUL (new_node_num 2) (new_node_num 3))) :=
  builds_expr_of_add
    (Builds.add_plus (builds_add_of_primary (Builds.primary_num (by decide))) (by decide)
      (Builds.mul_star (builds_mul_of_primary (Builds.primary_num (by decide))) (by decide)
        (Builds.unary_plain (Builds.primary_num (by decide)))))

/-! ## The claims -/

/-- C1: every token sequence derivable from `expr` in the grammar and followed
by the end-of-input token is parsed by `expr`: the run returns a tree, raises
no error, and leaves the cursor on the end-of-input token, where `at_eof` is
true. -/
theorem C1_grammar_complete (ts : List Token) (eof : Token)
    (hts : Derives NT.expr ts) (heof : is_eof eof) :
    ∃ (t : Node) (cur : List Token),
      run expr (ts ++ [eof]) = Res.ok t cur ∧ cur = [eof] ∧ at_eof cur = Res.ok true cur := by
  obtain ⟨t, ht⟩ := derives_builds hts
  refine ⟨t, [eof], run_expr_of_builds ht (ends_of_eof heof NT.expr []), rfl, ?_⟩
  unfold is_eof at heof
  simp [at_eof, heof]

theorem C1_grammar_complete_witness :
    ∃ (t : Node) (cur : List Token),
      run expr (toks_1_plus_2_times_3 ++ [eof_tok]) = Res.ok t cur ∧ cur = [eof_tok] ∧
        at_eof cur = Res.ok true cur :=
  C1_grammar_complete toks_1_plus_2_times_3 eof_tok
    (builds_derives builds_1_plus_2_times_3) (by decide)

/-- C2: multiplicative operators bind tighter than additive ones.  For numeric
literals `a`, `b`, `c`, an additive operator `P` (`+` building `ND_ADD`, `-`
building `ND_SUB`) and a multiplicative operator `M` (`*` building `ND_MUL`, `/`
building `ND_DIV`), `expr` on `a P b M c` returns `P(a, M(b, c))` and on
`a M b P c` returns `P(M(a, b), c)`; the root is the additive node in both.
The trees are given as records of `Node`: kind, left child, right child and
`val`; a leaf `Num n` is `Node.mk ND_NUM NULL NULL n`, a binary node has `val` zero. -/
theorem C2_mul_binds_tighter (na nb nc p m eof : Token) (P M : String) (kP kM : NodeKind)
    (ha : is_num na) (hb : is_num nb) (hc : is_num nc)
    (hP : (P = "+" ∧ kP = NodeKind.ND_ADD) ∨ (P = "-" ∧ kP = NodeKind.ND_SUB))
    (hM : (M = "*" ∧ kM = NodeKind.ND_MUL) ∨ (M = "/" ∧ kM = NodeKind.ND_DIV))
    (hp : is_op P p) (hm : is_op M m) (heof : is_eof eof) :
    run expr [na, p, nb, m, nc, eof] =
        Res.ok (Node.mk kP
                 (Node.mk NodeKind.ND_NUM Node.NULL Node.NULL na.val)
                 (Node.mk kM
                   (Node.mk NodeKind.ND_NUM Node.NULL Node.NULL nb.val)
                   (Node.mk NodeKind.ND_NUM Node.NULL Node.NULL nc.val) 0) 0) [eof] ∧
      run expr [na, m, nb, p, nc, eof] =
        Res.ok (Node.mk kP
                 (Node.mk kM
                   (Node.mk NodeKind.ND_NUM Node.NULL Node.NULL na.val)
                   (Node.mk NodeKind.ND_NUM Node.NULL Node.NULL nb.val) 0)
                 (Node.mk NodeKind.ND_NUM Node.NULL Node.NULL nc.val) 0) [eof] := by
  have he := ends_of_eof heof NT.expr []
  have pa := Builds.primary_num ha
  have pb := Builds.primary_num hb
  have pc := Builds.primary_num hc
  rcases hP with ⟨rfl, rfl⟩ | ⟨rfl, rfl⟩ <;> rcases hM with ⟨rfl, rfl⟩ | ⟨rfl, rfl⟩
  · exact ⟨@run_expr_of_builds [na, p, nb, m, nc] _
        (builds_expr_of_add (Builds.add_plus (builds_add_of_primary pa) hp
          (Builds.mul_star (builds_mul_of_primary pb) hm (Builds.unary_plain pc)))) _ he,
      @run_expr_of_builds [na, m, nb, p, nc] _
        (builds_expr_of_add (Builds.add_plus
          (Builds.add_one (Builds.mul_star (builds_mul_of_primary pa) hm (Builds.unary_plain pb)))
          hp (builds_mul_of_primary pc))) _ he⟩
  · exact ⟨@run_expr_of_builds [na, p, nb, m, nc] _
        (builds_expr_of_add (Builds.add_plus (builds_add_of_primary pa) hp
          (Builds.mul_slash (builds_mul_of_primary pb) hm (Builds.unary_plain pc)))) _ he,
      @run_expr_of_builds [na, m, nb, p, nc] _
        (builds_expr_of_add (Builds.add_plus
          (Builds.add_one (Builds.mul_slash (builds_mul_of_primary pa) hm (Builds.unary_plain pb)))
          hp (builds_mul_of_primary pc))) _ he⟩
  · exact ⟨@run_expr_of_builds [na, p, nb, m, nc] _
        (builds_expr_of_add (Builds.add_minus (builds_add_of_primary pa) hp
          (Builds.mul_star (builds_mul_of_primary pb) hm (Builds.unary_plain pc)))) _ he,
      @run_expr_of_builds [na, m, nb, p, nc] _
        (builds_expr_of_add (Builds.add_minus
          (Builds.add_one (Builds.mul_star (builds_mul_of_primary pa) hm (Builds.unary_plain pb)))
          hp (builds_mul_of_primary pc))) _ he⟩
  · exact ⟨@run_expr_of_builds [na, p, nb, m, nc] _
        (builds_expr_of_add (Builds.add_minus (builds_add_of_primary pa) hp
          (Builds.mul_slash (builds_mul_of_primary pb) hm (Builds.unary_plain pc)))) _ he,
      @run_expr_of_builds [na, m, nb, p, nc] _
        (builds_expr_of_add (Builds.add_minus
          (Builds.add_one (Builds.mul_slash (builds_mul_of_primary pa) hm (Builds.unary_plain pb)))
          hp (builds_mul_of_primary pc))) _ he⟩

theorem C2_mul_binds_tighter_witness :
    run expr [num_tok 1 "1" "+2*3", op_tok "+" "2*3", num_tok 2 "2" "*3", op_tok "*" "3",
        num_tok 3 "3" "", eof_tok] =
        Res.ok (Node.mk NodeKind.ND_ADD
                 (Node.mk NodeKind.ND_NUM Node.NULL Node.NULL 1)
                 (Node.mk NodeKind.ND_MUL
                   (Node.mk NodeKind.ND_NUM Node.NULL Node.NULL 2)
                   (Node.mk NodeKind.ND_NUM Node.NULL Node.NULL 3) 0) 0) [eof_tok] ∧
      run expr [num_tok 1 "1" "+2*3", op_tok "*" "3", num_tok 2 "2" "*3", op_tok "+" "2*3",
        num_tok 3 "3" "", eof_tok] =
        Res.ok (Node.mk NodeKind.ND_ADD
                 (Node.mk NodeKind.ND_MUL
                   (Node.mk NodeKind.ND_NUM Node.NULL Node.NULL 1)
                   (Node.mk NodeKind.ND_NUM Node.NULL Node.NULL 2) 0)
                 (Node.mk NodeKind.ND_NUM Node.NULL Node.NULL 3) 0)
          [eof_tok] :=
  C2_mul_binds_tighter (num_tok 1 "1" "+2*3") (num_tok 2 "2" "*3") (num_tok 3 "3" "")
    (op_tok "+" "2*3") (op_tok "*" "3") eof_tok "+" "*" NodeKind.ND_ADD NodeKind.ND_MUL
    (by decide) (by decide) (by decide) (Or.inl ⟨rfl, rfl⟩) (Or.inl ⟨rfl, rfl⟩)
    (by decide) (by decide) (by decide)

/-- C3: left-associativity as an exact left fold.  For a chain
`n0 op_1 n_1 ... op_k n_k` (`k ≥ 0`) of numeric literals whose operators all
belong to the additive layer, or all to the multiplicative layer, or all to the
equality layer, `expr` returns the left fold of the chain, starting from
`Num n0` and replacing the accumulated tree `acc` by `Bin_op(acc, Num n_i)` at
each pair; the cursor ends on the end-of-input token.
The fold `spec_left_fold` is built from the records of `Node` themselves, not
from the constructors of `parser.c`. -/
theorem C3_left_fold (n0 eof : Token) (pairs : List (Token × Token))
    (h0 : is_num n0) (hn : ∀ p ∈ pairs, is_num p.2)
    (hlayer : (∀ p ∈ pairs, is_op "+" p.1 ∨ is_op "-" p.1) ∨
      (∀ p ∈ pairs, is_op "*" p.1 ∨ is_op "/" p.1) ∨
      (∀ p ∈ pairs, is_op "==" p.1 ∨ is_op "!=" p.1))
    (heof : is_eof eof) :
    run expr (n0 :: pair_toks pairs ++ [eof]) = Res.ok (spec_left_fold n0 pairs) [eof] := by
  have he := ends_of_eof heof NT.expr []
  have p0 := Builds.primary_num h0
  rcases hlayer with h | h | h
  · exact run_expr_of_builds
      (builds_expr_of_add (builds_add_chain pairs [n0] _ (builds_add_of_primary p0) hn h)) he
  · exact run_expr_of_builds
      (builds_expr_of_mul (builds_mul_chain pairs [n0] _ (builds_mul_of_primary p0) hn h)) he
  · exact run_expr_of_builds
      (builds_expr_of_equality (builds_equality_chain pairs [n0] _
        (Builds.equality_one (builds_relational_of_primary p0)) hn h)) he

theorem C3_left_fold_witness :
    run expr (num_tok 8 "8" "-3-2" :: pair_toks pairs_8_minus_3_minus_2 ++ [eof_tok]) =
      Res.ok (Node.mk NodeKind.ND_SUB
               (Node.mk NodeKind.ND_SUB
                 (Node.mk NodeKind.ND_NUM Node.NULL Node.NULL 8)
                 (Node.mk NodeKind.ND_NUM Node.NULL Node.NULL 3) 0)
               (Node.mk NodeKind.ND_NUM Node.NULL Node.NULL 2) 0)
        [eof_tok] :=
  C3_left_fold (num_tok 8 "8" "-3-2") eof_tok pairs_8_minus_3_minus_2 (by decide)
    (by decide) (Or.inl (by decide)) (by decide)

/-- C4: the relational operators and the rewrite of `>` and `>=`.  For phrases
`A` and `B` of the additive level, with `tA` and `tB` the trees `add` builds for
them: `expr` on `A < B` returns `LessThan(tA, tB)`; on `A <= B` it returns
`LessOrEqual(tA, tB)`; on `A > B` it returns `LessThan(tB, tA)`, the tree of
`B < A`; on `A >= B` it returns `LessOrEqual(tB, tA)`, the tree of `B <= A`.
The trees are given as records of `Node`: kind, left child, right child and
`val`; a leaf `Num n` is `Node.mk ND_NUM NULL NULL n`, a binary node has `val` zero. -/
theorem C4_relational_mapping (A B : List Token) (tA tB : Node) (lt le gt ge eof : Token)
    (hA : Derives NT.add A) (hB : Derives NT.add B) (heof : is_eof eof)
    (hrunA : run add (A ++ [eof]) = Res.ok tA [eof])
    (hrunB : run add (B ++ [eof]) = Res.ok tB [eof])
    (hlt : is_op "<" lt) (hle : is_op "<=" le) (hgt : is_op ">" gt) (hge : is_op ">=" ge) :
    run expr (A ++ lt :: B ++ [eof]) = Res.ok (Node.mk NodeKind.ND_LT tA tB 0) [eof] ∧
    run expr (A ++ le :: B ++ [eof]) = Res.ok (Node.mk NodeKind.ND_LTE tA tB 0) [eof] ∧
    (run expr (A ++ gt :: B ++ [eof]) = Res.ok (Node.mk NodeKind.ND_LT tB tA 0) [eof] ∧
      run expr (A ++ gt :: B ++ [eof]) = run expr (B ++ lt :: A ++ [eof])) ∧
    (run expr (A ++ ge :: B ++ [eof]) = Res.ok (Node.mk NodeKind.ND_LTE tB tA 0) [eof] ∧
      run expr (A ++ ge :: B ++ [eof]) = run expr (B ++ le :: A ++ [eof])) := by
  have he := ends_of_eof heof NT.expr []
  have bA : Builds NT.add A tA := builds_of_run hA (ends_of_eof heof NT.add []) hrunA
  have bB : Builds NT.add B tB := builds_of_run hB (ends_of_eof heof NT.add []) hrunB
  have rA := Builds.relational_one bA
  have rB := Builds.relational_one bB
  have h1 := run_expr_of_builds (builds_expr_of_relational (Builds.relational_lt rA hlt bB)) he
  have h2 := run_expr_of_builds (builds_expr_of_relational (Builds.relational_le rA hle bB)) he
  have h3 := run_expr_of_builds (builds_expr_of_relational (Builds.relational_gt rA hgt bB)) he
  have h4 := run_expr_of_builds (builds_expr_of_relational (Builds.relational_ge rA hge bB)) he
  have h5 := run_expr_of_builds (builds_expr_of_relational (Builds.relational_lt rB hlt bA)) he
  have h6 := run_expr_of_builds (builds_expr_of_relational (Builds.relational_le rB hle bA)) he
  exact ⟨h1, h2, ⟨h3, by rw [h3, h5]⟩, ⟨h4, by rw [h4, h6]⟩⟩

theorem C4_relational_mapping_witness :
    run expr ([num_tok 3 "3" ">2"] ++ op_tok "<" "" :: [num_tok 2 "2" ""] ++ [eof_tok]) =
      Res.ok (Node.mk NodeKind.ND_LT
               (Node.mk NodeKind.ND_NUM Node.NULL Node.NULL 3)
               (Node.mk NodeKind.ND_NUM Node.NULL Node.NULL 2) 0) [eof_tok] ∧
    run expr ([num_tok 3 "3" ">2"] ++ op_tok "<=" "" :: [num_tok 2 "2" ""] ++ [eof_tok]) =
      Res.ok (Node.mk NodeKind.ND_LTE
               (Node.mk NodeKind.ND_NUM Node.NULL Node.NULL 3)
               (Node.mk NodeKind.ND_NUM Node.NULL Node.NULL 2) 0) [eof_tok] ∧
    (run expr ([num_tok 3 "3" ">2"] ++ op_tok ">" "2" :: [num_tok 2 "2" ""] ++ [eof_tok]) =
        Res.ok (Node.mk NodeKind.ND_LT
                 (Node.mk NodeKind.ND_NUM Node.NULL Node.NULL 2)
                 (Node.mk NodeKind.ND_NUM Node.NULL Node.NULL 3) 0) [eof_tok] ∧
      run expr ([num_tok 3 "3" ">2"] ++ op_tok ">" "2" :: [num_tok 2 "2" ""] ++ [eof_tok]) =
        run expr ([num_tok 2 "2" ""] ++ op_tok "<" "" :: [num_tok 3 "3" ">2"] ++ [eof_tok])) ∧
    (run expr ([num_tok 3 "3" ">2"] ++ op_tok ">=" "" :: [num_tok 2 "2" ""] ++ [eof_tok]) =
        Res.ok (Node.mk NodeKind.ND_LTE
                 (Node.mk NodeKind.ND_NUM Node.NULL Node.NULL 2)
                 (Node.mk NodeKind.ND_NUM Node.NULL Node.NULL 3) 0) [eof_tok] ∧
      run expr ([num_tok 3 "3" ">2"] ++ op_tok ">=" "" :: [num_tok 2 "2" ""] ++ [eof_tok]) =
        run expr ([num_tok 2 "2" ""] ++ op_tok "<=" "" :: [num_tok 3 "3" ">2"] ++ [eof_tok])) :=
  C4_relational_mapping [num_tok 3 "3" ">2"] [num_tok 2 "2" ""] (new_node_num 3) (new_node_num 2)
    (op_tok "<" "") (op_tok "<=" "") (op_tok ">" "2") (op_tok ">=" "") eof_tok
    (builds_derives (builds_add_of_primary (Builds.primary_num (by decide))))
    (builds_derives (builds_add_of_primary (Builds.primary_num (by decide))))
    (by decide) (by decide) (by decide) (by decide) (by decide) (by decide) (by decide)

/-- C5: parentheses return the inner tree unchanged.  When `expr` on `E`
followed by the end-of-input token returns the tree `t` with the cursor on that
token, `expr` on `( E )` followed by the end-of-input token returns exactly `t`
and leaves the cursor on the end-of-input token; and for numeric literals `a`,
`b`, `c`, `expr` on `( a + b ) * c` returns `Mul(Add(Num a, Num b), Num c)`.
The trees are given as records of `Node`: kind, left child, right child and
`val`; a leaf `Num n` is `Node.mk ND_NUM NULL NULL n`, a binary node has `val` zero. -/
theorem C5_parentheses (E : List Token) (t : Node) (l r eof1 eof2 : Token)
    (na nb nc plus star : Token)
    (hrun : run expr (E ++ [eof1]) = Res.ok t [eof1])
    (hl : is_op "(" l) (hr : is_op ")" r) (heof1 : is_eof eof1) (heof2 : is_eof eof2)
    (ha : is_num na) (hb : is_num nb) (hc : is_num nc)
    (hplus : is_op "+" plus) (hstar : is_op "*" star) :
    run expr (l :: E ++ [r, eof2]) = Res.ok t [eof2] ∧
    run expr [l, na, plus, nb, r, star, nc, eof2] =
      Res.ok (Node.mk NodeKind.ND_MUL
               (Node.mk NodeKind.ND_ADD
                 (Node.mk NodeKind.ND_NUM Node.NULL Node.NULL na.val)
                 (Node.mk NodeKind.ND_NUM Node.NULL Node.NULL nb.val) 0)
               (Node.mk NodeKind.ND_NUM Node.NULL Node.NULL nc.val) 0) [eof2] := by
  have he := ends_of_eof heof2 NT.expr []
  obtain ⟨ts, hts, hd⟩ := sound _ Fn.expr Node.NULL _ _ _ hrun
  have hE : Derives NT.expr E := by
    have := List.append_cancel_right hts
    rw [this]
    exact hd
  have bE : Builds NT.expr E t := builds_of_run hE (ends_of_eof heof1 NT.expr []) hrun
  have h1 := run_expr_of_builds
    (builds_expr_of_unary (Builds.unary_plain (Builds.primary_paren hl bE hr))) he
  have h2 := @run_expr_of_builds [l, na, plus, nb, r, star, nc] _
    (builds_expr_of_mul (Builds.mul_star
      (builds_mul_of_primary (Builds.primary_paren hl
        (builds_expr_of_add (Builds.add_plus (builds_add_of_primary (Builds.primary_num ha))
          hplus (builds_mul_of_primary (Builds.primary_num hb)))) hr))
      hstar (Builds.unary_plain (Builds.primary_num hc)))) _ he
  refine ⟨?_, h2⟩
  have hl2 : l :: E ++ [r, eof2] = (l :: E ++ [r]) ++ [eof2] := by simp
  rw [hl2]
  exact h1

theorem C5_parentheses_witness :
    run expr (op_tok "(" "1+2)*3" ::
        [num_tok 1 "1" "+2)*3", op_tok "+" "2)*3", num_tok 2 "2" ")*3"] ++
        [op_tok ")" "*3", eof_tok]) =
      Res.ok (Node.mk NodeKind.ND_ADD
               (Node.mk NodeKind.ND_NUM Node.NULL Node.NULL 1)
               (Node.mk NodeKind.ND_NUM Node.NULL Node.NULL 2) 0) [eof_tok] ∧
    run expr [op_tok "(" "1+2)*3", num_tok 1 "1" "+2)*3", op_tok "+" "2)*3",
        num_tok 2 "2" ")*3", op_tok ")" "*3", op_tok "*" "3", num_tok 3 "3" "", eof_tok] =
      Res.ok (Node.mk NodeKind.ND_MUL
               (Node.mk NodeKind.ND_ADD
                 (Node.mk NodeKind.ND_NUM Node.NULL Node.NULL 1)
                 (Node.mk NodeKind.ND_NUM Node.NULL Node.NULL 2) 0)
               (Node.mk NodeKind.ND_NUM Node.NULL Node.NULL 3) 0) [eof_tok] :=
  C5_parentheses [num_tok 1 "1" "+2)*3", op_tok "+" "2)*3", num_tok 2 "2" ")*3"]
    (new_node NodeKind.ND_ADD (new_node_num 1) (new_node_num 2))
    (op_tok "(" "1+2)*3") (op_tok ")" "*3") eof_tok eof_tok
    (num_tok 1 "1" "+2)*3") (num_tok 2 "2" ")*3") (num_tok 3 "3" "")
    (op_tok "+" "2)*3") (op_tok "*" "3")
    (by decide) (by decide) (by decide) (by decide) (by decide)
    (by decide) (by decide) (by decide) (by decide) (by decide)

/-- C6: the unary rewrite.  For a phrase `P` of `primary` whose tree is `x`,
`expr` on `- P` returns `Sub(Num 0, x)` and `expr` on `+ P` returns `x` itself,
with no additional node.
The trees are given as records of `Node`: kind, left child, right child and
`val`; a leaf `Num n` is `Node.mk ND_NUM NULL NULL n`, a binary node has `val` zero. -/
theorem C6_unary_rewrite (P : List Token) (x : Node) (plus minus eof : Token)
    (hP : Derives NT.primary P) (hx : run primary (P ++ [eof]) = Res.ok x [eof])
    (hplus : is_op "+" plus) (hminus : is_op "-" minus) (heof : is_eof eof) :
    run expr (minus :: P ++ [eof]) =
      Res.ok (Node.mk NodeKind.ND_SUB (Node.mk NodeKind.ND_NUM Node.NULL Node.NULL 0) x 0) [eof] ∧
    run expr (plus :: P ++ [eof]) = Res.ok x [eof] := by
  have he := ends_of_eof heof NT.expr []
  have bP : Builds NT.primary P x := builds_of_run hP trivial hx
  exact ⟨run_expr_of_builds (builds_expr_of_unary (Builds.unary_minus hminus bP)) he,
    run_expr_of_builds (builds_expr_of_unary (Builds.unary_plus hplus bP)) he⟩

theorem C6_unary_rewrite_witness :
    run expr (op_tok "-" "5" :: [num_tok 5 "5" ""] ++ [eof_tok]) =
      Res.ok (Node.mk NodeKind.ND_SUB
               (Node.mk NodeKind.ND_NUM Node.NULL Node.NULL 0)
               (Node.mk NodeKind.ND_NUM Node.NULL Node.NULL 5) 0) [eof_tok] ∧
    run expr (op_tok "+" "5" :: [num_tok 5 "5" ""] ++ [eof_tok]) =
      Res.ok (Node.mk NodeKind.ND_NUM Node.NULL Node.NULL 5) [eof_tok] :=
  C6_unary_rewrite [num_tok 5 "5" ""] (new_node_num 5) (op_tok "+" "5") (op_tok "-" "5") eof_tok
    (Derives.primary_num (by decide)) (by decide) (by decide) (by decide) (by decide)

/-- C7: comparison operators bind below additive ones.  For numeric literals
`a`, `b`, `c`, an additive operator `P` (`+` building `ND_ADD`, `-` building
`ND_SUB`) and a comparison operator `C` (`==` building `ND_EQ`, `!=` building
`ND_NE`, `<` building `ND_LT`, `<=` building `ND_LTE`), `expr` on `a P b C c`
returns `C(P(a, b), c)` and on `a C b P c` returns `C(a, P(b, c))`: the root is
the comparison node.
The trees are given as records of `Node`: kind, left child, right child and
`val`; a leaf `Num n` is `Node.mk ND_NUM NULL NULL n`, a binary node has `val` zero. -/
theorem C7_comparison_below_additive (na nb nc p c eof : Token) (P C : String)
    (kP kC : NodeKind) (ha : is_num na) (hb : is_num nb) (hc : is_num nc)
    (hP : (P = "+" ∧ kP = NodeKind.ND_ADD) ∨ (P = "-" ∧ kP = NodeKind.ND_SUB))
    (hC : (C = "==" ∧ kC = NodeKind.ND_EQ) ∨ (C = "!=" ∧ kC = NodeKind.ND_NE) ∨
      (C = "<" ∧ kC = NodeKind.ND_LT) ∨ (C = "<=" ∧ kC = NodeKind.ND_LTE))
    (hp : is_op P p) (hop : is_op C c) (heof : is_eof eof) :
    run expr [na, p, nb, c, nc, eof] =
        Res.ok (Node.mk kC
                 (Node.mk kP
                   (Node.mk NodeKind.ND_NUM Node.NULL Node.NULL na.val)
                   (Node.mk NodeKind.ND_NUM Node.NULL Node.NULL nb.val) 0)
                 (Node.mk NodeKind.ND_NUM Node.NULL Node.NULL nc.val) 0) [eof] ∧
      run expr [na, c, nb, p, nc, eof] =
        Res.ok (Node.mk kC
                 (Node.mk NodeKind.ND_NUM Node.NULL Node.NULL na.val)
                 (Node.mk kP
                   (Node.mk NodeKind.ND_NUM Node.NULL Node.NULL nb.val)
                   (Node.mk NodeKind.ND_NUM Node.NULL Node.NULL nc.val) 0) 0) [eof] := by
  have he := ends_of_eof heof NT.expr []
  have pa := Builds.primary_num ha
  have pb := Builds.primary_num hb
  have pc := Builds.primary_num hc
  have hab : Builds NT.add [na, p, nb]
      (new_node kP (new_node_num na.val) (new_node_num nb.val)) := by
    rcases hP with ⟨rfl, rfl⟩ | ⟨rfl, rfl⟩
    · exact Builds.add_plus (builds_add_of_primary pa) hp (builds_mul_of_primary pb)
    · exact Builds.add_minus (builds_add_of_primary pa) hp (builds_mul_of_primary pb)
  have hbc : Builds NT.add [nb, p, nc]
      (new_node kP (new_node_num nb.val) (new_node_num nc.val)) := by
    rcases hP with ⟨rfl, rfl⟩ | ⟨rfl, rfl⟩
    · exact Builds.add_plus (builds_add_of_primary pb) hp (builds_mul_of_primary pc)
    · exact Builds.add_minus (builds_add_of_primary pb) hp (builds_mul_of_primary pc)
  rcases hC with ⟨rfl, rfl⟩ | ⟨rfl, rfl⟩ | ⟨rfl, rfl⟩ | ⟨rfl, rfl⟩
  · exact ⟨@run_expr_of_builds [na, p, nb, c, nc] _
        (Builds.expr (Builds.equality_eq (Builds.equality_one (Builds.relational_one hab)) hop
          (builds_relational_of_primary pc))) _ he,
      @run_expr_of_builds [na, c, nb, p, nc] _
        (Builds.expr (Builds.equality_eq (Builds.equality_one (builds_relational_of_primary pa))
          hop (Builds.relational_one hbc))) _ he⟩
  · exact ⟨@run_expr_of_builds [na, p, nb, c, nc] _
        (Builds.expr (Builds.equality_ne (Builds.equality_one (Builds.relational_one hab)) hop
          (builds_relational_of_primary pc))) _ he,
      @run_expr_of_builds [na, c, nb, p, nc] _
        (Builds.expr (Builds.equality_ne (Builds.equality_one (builds_relational_of_primary pa))
          hop (Builds.relational_one hbc))) _ he⟩
  · exact ⟨@run_expr_of_builds [na, p, nb, c, nc] _
        (builds_expr_of_relational (Builds.relational_lt (Builds.relational_one hab) hop
          (builds_add_of_primary pc))) _ he,
      @run_expr_of_builds [na, c, nb, p, nc] _
        (builds_expr_of_relational (Builds.relational_lt (builds_relational_of_primary pa)
          hop hbc)) _ he⟩
  · exact ⟨@run_expr_of_builds [na, p, nb, c, nc] _
        (builds_expr_of_relational (Builds.relational_le (Builds.relational_one hab) hop
          (builds_add_of_primary pc))) _ he,
      @run_expr_of_builds [na, c, nb, p, nc] _
        (builds_expr_of_relational (Builds.relational_le (builds_relational_of_primary pa)
          hop hbc)) _ he⟩

theorem C7_comparison_below_additive_witness :
    run expr [num_tok 1 "1" "+1==2", op_tok "+" "1==2", num_tok 1 "1" "==2", op_tok "==" "2",
        num_tok 2 "2" "", eof_tok] =
        Res.ok (Node.mk NodeKind.ND_EQ
                 (Node.mk NodeKind.ND_ADD
                   (Node.mk NodeKind.ND_NUM Node.NULL Node.NULL 1)
                   (Node.mk NodeKind.ND_NUM Node.NULL Node.NULL 1) 0)
                 (Node.mk NodeKind.ND_NUM Node.NULL Node.NULL 2) 0)
          [eof_tok] ∧
      run expr [num_tok 1 "1" "+1==2", op_tok "==" "2", num_tok 1 "1" "==2", op_tok "+" "1==2",
        num_tok 2 "2" "", eof_tok] =
        Res.ok (Node.mk NodeKind.ND_EQ
                 (Node.mk NodeKind.ND_NUM Node.NULL Node.NULL 1)
                 (Node.mk NodeKind.ND_ADD
                   (Node.mk NodeKind.ND_NUM Node.NULL Node.NULL 1)
                   (Node.mk NodeKind.ND_NUM Node.NULL Node.NULL 2) 0) 0) [eof_tok] :=
  C7_comparison_below_additive (num_tok 1 "1" "+1==2") (num_tok 1 "1" "==2") (num_tok 2 "2" "")
    (op_tok "+" "1==2") (op_tok "==" "2") eof_tok "+" "==" NodeKind.ND_ADD NodeKind.ND_EQ
    (by decide) (by decide) (by decide) (Or.inl ⟨rfl, rfl⟩) (Or.inl ⟨rfl, rfl⟩)
    (by decide) (by decide) (by decide)

/-- C8: a missing closing parenthesis.  For every phrase `E` of `expr`, the run
of `expr` on `( E` followed by the end-of-input token fails with the error that
`expect ")"` raises; the reported position is the one of the end-of-input
token, on which the cursor stands, and no tree is returned. -/
theorem C8_missing_closing_paren (E : List Token) (l eof : Token)
    (hE : Derives NT.expr E) (hl : is_op "(" l) (heof : is_eof eof) :
    run expr (l :: E ++ [eof]) = Res.error eof.str (Message.not_op ")") [eof] := by
  obtain ⟨t, bE⟩ := derives_builds hE
  obtain ⟨d, hd⟩ := builds_parsed bE [eof] (ends_of_eof heof NT.expr [])
  have he : expr d (E ++ [eof]) = Res.ok t [eof] := hd
  have hx : expect ")" [eof] = Res.error eof.str (Message.not_op ")") [eof] := by
    rw [expect_cons, if_neg (not_is_op_of_eof heof ")")]
  have hp : primary (d + 1) (l :: (E ++ [eof])) =
      Res.error eof.str (Message.not_op ")") [eof] := by
    rw [primary_paren hl, bind_ok he, bind_error hx]
  exact run_expr_error
    (expr_error_of_primary (is_op_ne hl (by decide)) (is_op_ne hl (by decide)) hp)

theorem C8_missing_closing_paren_witness :
    run expr (op_tok "(" "1+2" ::
        [num_tok 1 "1" "+2", op_tok "+" "2", num_tok 2 "2" ""] ++ [eof_tok]) =
      Res.error eof_tok.str (Message.not_op ")") [eof_tok] :=
  C8_missing_closing_paren [num_tok 1 "1" "+2", op_tok "+" "2", num_tok 2 "2" ""]
    (op_tok "(" "1+2") eof_tok
    (builds_derives (builds_expr_of_add
      (Builds.add_plus (builds_add_of_primary (Builds.primary_num (by decide))) (by decide)
        (builds_mul_of_primary (Builds.primary_num (by decide))))))
    (by decide) (by decide)

/-- C9: an invalid start of a primary.  On every token stream whose first token
is neither a numeric literal nor one of the reserved operators `(`, `+`, `-`,
the run of `expr` fails with the error of `expect_number`, reported at that
first token, with the cursor not advanced and no tree returned. -/
theorem C9_invalid_primary_start (tok : Token) (next : List Token)
    (hnum : ¬ is_num tok) (hparen : ¬ is_op "(" tok)
    (hplus : ¬ is_op "+" tok) (hminus : ¬ is_op "-" tok) :
    run expr (tok :: next) = Res.error tok.str Message.not_number (tok :: next) :=
  run_expr_error (expr_error_of_primary hplus hminus (@primary_not_start 0 tok hparen hnum next))

theorem C9_invalid_primary_start_witness :
    run expr (op_tok "*" "5" :: [num_tok 5 "5" "", eof_tok]) =
      Res.error (op_tok "*" "5").str Message.not_number
        (op_tok "*" "5" :: [num_tok 5 "5" "", eof_tok]) :=
  C9_invalid_primary_start (op_tok "*" "5") [num_tok 5 "5" "", eof_tok]
    (by decide) (by decide) (by decide) (by decide)

/-- C10: the contract of `consume`.  On every current token `consume op`
returns; it returns true exactly when the token is a reserved operator whose
length is that of `op` and whose text is `op`; when it returns true the cursor
has moved forward by exactly one token; when it returns false the cursor is
unchanged and the same call returns false again with the same cursor.  A text
of which `op` is a proper prefix, or that is a proper prefix of `op`, does not
match. -/
theorem C10_consume_contract (op : String) (tok : Token) (next : List Token) :
    (∃ b cur, consume op (tok :: next) = Res.ok b cur) ∧
    (∀ b cur, consume op (tok :: next) = Res.ok b cur →
      (b = true ↔ (tok.kind = TokenKind.TK_RESERVED ∧ tok.len = strlen op ∧
        tok.str.take tok.len = op.data)) ∧
      (b = true → cur = next) ∧
      (b = false → cur = tok :: next ∧ consume op cur = Res.ok false cur)) ∧
    consume "<" (op_tok "<=" "" :: next) = Res.ok false (op_tok "<=" "" :: next) ∧
    consume "<=" (op_tok "<" "=" :: next) = Res.ok false (op_tok "<" "=" :: next) := by
  refine ⟨?_, ?_, ?_, ?_⟩
  · rw [consume_cons]
    by_cases h : is_op op tok
    · exact ⟨true, next, by rw [if_pos h]⟩
    · exact ⟨false, tok :: next, by rw [if_neg h]⟩
  · intro b cur hb
    rw [consume_cons] at hb
    by_cases h : is_op op tok
    · rw [if_pos h] at hb
      cases hb
      exact ⟨⟨fun _ => h, fun _ => rfl⟩, fun _ => rfl, fun hf => Bool.noConfusion hf⟩
    · rw [if_neg h] at hb
      cases hb
      exact ⟨⟨fun hf => Bool.noConfusion hf, fun hh => absurd hh h⟩,
        fun hf => Bool.noConfusion hf, fun _ => ⟨rfl, consume_not_op h next⟩⟩
  · exact consume_not_op (by decide) next
  · exact consume_not_op (by decide) next

/-! ## The claims on the primitives and on the entry point -/

theorem not_is_num_of_op {a : String} {tok : Token} (h : is_op a tok) : ¬ is_num tok := by
  intro hn
  exact not_is_op_of_num hn a h

/-- C11: the contract of `expect`.  On every current token `expect op` returns
exactly when `consume op` returns true on the same cursor, that is when the
token is a reserved operator whose text is `op`, and it then leaves the cursor
where `consume op` does, one token further; otherwise it ends in the error
that carries the position `str` of the current token, with the cursor where it
was, and does not return. -/
theorem C11_expect_contract (op : String) (tok : Token) (next : List Token) :
    ((∃ u cur, expect op (tok :: next) = Res.ok u cur) ↔
      consume op (tok :: next) = Res.ok true next) ∧
    (consume op (tok :: next) = Res.ok true next ↔
      (tok.kind = TokenKind.TK_RESERVED ∧ tok.len = strlen op ∧
        tok.str.take tok.len = op.data)) ∧
    (∀ u cur, expect op (tok :: next) = Res.ok u cur →
      cur = next ∧ consume op (tok :: next) = Res.ok true cur) ∧
    (consume op (tok :: next) ≠ Res.ok true next →
      expect op (tok :: next) = Res.error tok.str (Message.not_op op) (tok :: next)) := by
  rw [consume_cons, expect_cons]
  by_cases h : is_op op tok
  · rw [if_pos h, if_pos h]
    refine ⟨⟨fun _ => rfl, fun _ => ⟨(), next, rfl⟩⟩, ⟨fun _ => h, fun _ => rfl⟩, ?_, ?_⟩
    · intro u cur hh
      cases hh
      exact ⟨rfl, rfl⟩
    · intro hh
      exact absurd rfl hh
  · rw [if_neg h, if_neg h]
    refine ⟨⟨?_, ?_⟩, ⟨?_, fun hh => absurd hh h⟩, ?_, fun _ => rfl⟩
    · rintro ⟨u, cur, hh⟩
      cases hh
    · intro hh
      cases hh
    · intro hh
      cases hh
    · intro u cur hh
      cases hh

/-- C12: the contract of `expect_number`.  On every current token
`expect_number` returns exactly when the kind of the token is numeric-literal;
it then returns the value of that token and the cursor has moved forward by
exactly one token; on a reserved operator and on the end-of-input token it ends
in the error of `expect_number` with the position of the current token, and the
cursor is not advanced. -/
theorem C12_expect_number_contract (tok : Token) (next : List Token) :
    ((∃ v cur, expect_number (tok :: next) = Res.ok v cur) ↔ tok.kind = TokenKind.TK_NUM) ∧
    (tok.kind = TokenKind.TK_NUM → expect_number (tok :: next) = Res.ok tok.val next) ∧
    (tok.kind = TokenKind.TK_RESERVED →
      expect_number (tok :: next) = Res.error tok.str Message.not_number (tok :: next)) ∧
    (tok.kind = TokenKind.TK_EOF →
      expect_number (tok :: next) = Res.error tok.str Message.not_number (tok :: next)) := by
  rw [expect_number_cons]
  unfold is_num
  by_cases h : tok.kind = TokenKind.TK_NUM
  · rw [if_pos h]
    refine ⟨⟨fun _ => h, fun _ => ⟨tok.val, next, rfl⟩⟩, fun _ => rfl, ?_, ?_⟩
    · intro hk
      rw [hk] at h
      cases h
    · intro hk
      rw [hk] at h
      cases h
  · rw [if_neg h]
    refine ⟨⟨?_, fun hh => absurd hh h⟩, fun hh => absurd hh h, fun _ => rfl, fun _ => rfl⟩
    rintro ⟨v, cur, hh⟩
    cases hh

/-- C13: the entry point does not enforce full consumption.  For every phrase
`E` of `expr` and every following token that is a numeric literal, `(` or `)`,
whatever comes after it, `expr` returns the tree it returns for `E` followed by
the end-of-input token and leaves the cursor on that following token, where
`at_eof` is false: the leftover tokens are no error for `expr`. -/
theorem C13_no_full_consumption (E : List Token) (tok eof : Token) (more : List Token)
    (hE : Derives NT.expr E) (heof : is_eof eof)
    (htok : is_num tok ∨ is_op "(" tok ∨ is_op ")" tok) :
    ∃ t : Node, run expr (E ++ [eof]) = Res.ok t [eof] ∧
      run expr (E ++ tok :: more) = Res.ok t (tok :: more) ∧
      at_eof (tok :: more) = Res.ok false (tok :: more) := by
  obtain ⟨t, ht⟩ := derives_builds hE
  have hends : ends NT.expr (tok :: more) := by
    rcases htok with h | h | h
    · exact ends_of_num h NT.expr more
    · exact ends_of_paren (Or.inl h) NT.expr more
    · exact ends_of_paren (Or.inr h) NT.expr more
  have hk : tok.kind ≠ TokenKind.TK_EOF := by
    rcases htok with h | h | h
    · unfold is_num at h; rw [h]; decide
    · rw [h.1]; decide
    · rw [h.1]; decide
  refine ⟨t, run_expr_of_builds ht (ends_of_eof heof NT.expr []),
    run_expr_of_builds ht hends, ?_⟩
  simp [at_eof, hk]

theorem C13_no_full_consumption_witness :
    ∃ t : Node, run expr ([num_tok 1 "1" " 2"] ++ [eof_tok]) = Res.ok t [eof_tok] ∧
      run expr ([num_tok 1 "1" " 2"] ++ num_tok 2 "2" "" :: [eof_tok]) =
        Res.ok t (num_tok 2 "2" "" :: [eof_tok]) ∧
      at_eof (num_tok 2 "2" "" :: [eof_tok]) = Res.ok false (num_tok 2 "2" "" :: [eof_tok]) :=
  C13_no_full_consumption [num_tok 1 "1" " 2"] (num_tok 2 "2" "") eof_tok [eof_tok]
    (builds_derives (builds_expr_of_add (builds_add_of_primary (Builds.primary_num (by decide)))))
    (by decide) (Or.inl (by decide))

/-- C14: only a single unary prefix is accepted.  On every token stream that
starts with two sign tokens `s1 s2`, each of them `+` or `-`, whatever follows,
`expr` consumes `s1` and then fails in `primary` with the error of
`expect_number`, reported at `s2`, on which the cursor stands; no tree is
returned. -/
theorem C14_single_unary_sign (s1 s2 : Token) (rest : List Token)
    (h1 : is_op "+" s1 ∨ is_op "-" s1) (h2 : is_op "+" s2 ∨ is_op "-" s2) :
    run expr (s1 :: s2 :: rest) = Res.error s2.str Message.not_number (s2 :: rest) := by
  have hparen : ¬ is_op "(" s2 := by
    rcases h2 with h | h
    · exact is_op_ne h (by decide)
    · exact is_op_ne h (by decide)
  have hnum : ¬ is_num s2 := by
    rcases h2 with h | h
    · exact not_is_num_of_op h
    · exact not_is_num_of_op h
  have hp : primary 1 (s2 :: rest) = Res.error s2.str Message.not_number (s2 :: rest) :=
    primary_not_start hparen hnum rest
  have hu : unary 2 (s1 :: s2 :: rest) = Res.error s2.str Message.not_number (s2 :: rest) := by
    rcases h1 with h | h
    · rw [unary_plus h]
      exact hp
    · rw [unary_minus h]
      exact bind_error hp
  exact run_expr_error (expr_error_of_unary hu)

theorem C14_single_unary_sign_witness :
    run expr (op_tok "-" "-5" :: op_tok "-" "5" :: [num_tok 5 "5" "", eof_tok]) =
      Res.error (op_tok "-" "5").str Message.not_number
        (op_tok "-" "5" :: [num_tok 5 "5" "", eof_tok]) :=
  C14_single_unary_sign (op_tok "-" "-5") (op_tok "-" "5") [num_tok 5 "5" "", eof_tok]
    (Or.inr (by decide)) (Or.inr (by decide))

/-! ## Every returned tree is well-formed -/

theorem well_formed_num (v : Int) : well_formed (new_node_num v) = true := by
  simp [well_formed, new_node_num]

theorem well_formed_bin {kind : NodeKind} (hk : kind ≠ NodeKind.ND_NUM) {lhs rhs : Node}
    (hl : well_formed lhs = true) (hr : well_formed rhs = true) :
    well_formed (new_node kind lhs rhs) = true := by
  simp [well_formed, new_node, hk, hl, hr]

/-- A function `fn = H; loop` returns a well-formed tree when `H` and the loop do. -/
theorem wf_layer {d : Nat} (fn loop : Fn) (Y : NT)
    (hfn : ∀ cur, call fn (d + 1) Node.NULL cur =
      (call (fn_of Y) d Node.NULL >>= fun node => call loop d node) cur)
    (ihY : ∀ cur t rest, call (fn_of Y) d Node.NULL cur = Res.ok t rest →
      well_formed t = true)
    (ihL : ∀ node cur t rest, well_formed node = true →
      call loop d node cur = Res.ok t rest → well_formed t = true)
    {cur rest : List Token} {t : Node}
    (h : call fn (d + 1) Node.NULL cur = Res.ok t rest) : well_formed t = true := by
  rw [hfn] at h
  obtain ⟨node, c, h1, h2⟩ := bind_eq_ok h
  exact ihL node c t rest (ihY _ _ _ h1) h2

/-- One turn of a loop keeps the tree well-formed. -/
theorem wf_turn {d : Nat} (loop : Fn) (Y : NT) {o : Token} {node : Node}
    {next : List Token} (mk : Node → Node → Node)
    (hstep : call loop (d + 1) node (o :: next) =
      (call (fn_of Y) d Node.NULL >>= fun x => call loop d (mk node x)) next)
    (hmk : ∀ x, well_formed node = true → well_formed x = true →
      well_formed (mk node x) = true)
    (ihY : ∀ cur t rest, call (fn_of Y) d Node.NULL cur = Res.ok t rest →
      well_formed t = true)
    (ihL : ∀ node cur t rest, well_formed node = true →
      call loop d node cur = Res.ok t rest → well_formed t = true)
    (hnode : well_formed node = true)
    {rest : List Token} {t : Node}
    (h : call loop (d + 1) node (o :: next) = Res.ok t rest) : well_formed t = true := by
  rw [hstep] at h
  obtain ⟨x, c, h1, h2⟩ := bind_eq_ok h
  exact ihL _ c t rest (hmk x hnode (ihY _ _ _ h1)) h2

theorem wf_mul_loop {d : Nat} (ihY : WfAt d Fn.unary) (ihL : WfAt d Fn.mul_loop) :
    WfAt (d + 1) Fn.mul_loop := by
  intro node cur t rest hnode h
  have hn : well_formed node = true := hnode rfl
  have hY : ∀ cur t rest, call (fn_of NT.unary) d Node.NULL cur = Res.ok t rest →
      well_formed t = true :=
    fun cur t rest hh => ihY Node.NULL cur t rest (fun hf => Bool.noConfusion hf) hh
  have hL : ∀ node cur t rest, well_formed node = true →
      call Fn.mul_loop d node cur = Res.ok t rest → well_formed t = true :=
    fun node cur t rest hw hh => ihL node cur t rest (fun _ => hw) hh
  cases cur with
  | nil => cases h
  | cons tok next =>
    by_cases h1 : is_op "*" tok
    · exact wf_turn Fn.mul_loop NT.unary (fun a b => new_node NodeKind.ND_MUL a b)
        (mul_loop_star h1 node next) (fun x ha hb => well_formed_bin (by decide) ha hb) hY hL hn h
    by_cases h2 : is_op "/" tok
    · exact wf_turn Fn.mul_loop NT.unary (fun a b => new_node NodeKind.ND_DIV a b)
        (mul_loop_slash h2 node next) (fun x ha hb => well_formed_bin (by decide) ha hb) hY hL hn h
    have hstop : call Fn.mul_loop (d + 1) node (tok :: next) = Res.ok node (tok :: next) :=
      mul_loop_stop h1 h2 node next
    rw [hstop] at h
    cases h
    exact hn

theorem wf_add_loop {d : Nat} (ihY : WfAt d Fn.mul) (ihL : WfAt d Fn.add_loop) :
    WfAt (d + 1) Fn.add_loop := by
  intro node cur t rest hnode h
  have hn : well_formed node = true := hnode rfl
  have hY : ∀ cur t rest, call (fn_of NT.mul) d Node.NULL cur = Res.ok t rest →
      well_formed t = true :=
    fun cur t rest hh => ihY Node.NULL cur t rest (fun hf => Bool.noConfusion hf) hh
  have hL : ∀ node cur t rest, well_formed node = true →
      call Fn.add_loop d node cur = Res.ok t rest → well_formed t = true :=
    fun node cur t rest hw hh => ihL node cur t rest (fun _ => hw) hh
  cases cur with
  | nil => cases h
  | cons tok next =>
    by_cases h1 : is_op "+" tok
    · exact wf_turn Fn.add_loop NT.mul (fun a b => new_node NodeKind.ND_ADD a b)
        (add_loop_plus h1 node next) (fun x ha hb => well_formed_bin (by decide) ha hb) hY hL hn h
    by_cases h2 : is_op "-" tok
    · exact wf_turn Fn.add_loop NT.mul (fun a b => new_node NodeKind.ND_SUB a b)
        (add_loop_minus h2 node next) (fun x ha hb => well_formed_bin (by decide) ha hb) hY hL hn h
    have hstop : call Fn.add_loop (d + 1) node (tok :: next) = Res.ok node (tok :: next) :=
      add_loop_stop h1 h2 node next
    rw [hstop] at h
    cases h
    exact hn

theorem wf_relational_loop {d : Nat} (ihY : WfAt d Fn.add) (ihL : WfAt d Fn.relational_loop) :
    WfAt (d + 1) Fn.relational_loop := by
  intro node cur t rest hnode h
  have hn : well_formed node = true := hnode rfl
  have hY : ∀ cur t rest, call (fn_of NT.add) d Node.NULL cur = Res.ok t rest →
      well_formed t = true :=
    fun cur t rest hh => ihY Node.NULL cur t rest (fun hf => Bool.noConfusion hf) hh
  have hL : ∀ node cur t rest, well_formed node = true →
      call Fn.relational_loop d node cur = Res.ok t rest → well_formed t = true :=
    fun node cur t rest hw hh => ihL node cur t rest (fun _ => hw) hh
  cases cur with
  | nil => cases h
  | cons tok next =>
    by_cases h1 : is_op "<=" tok
    · exact wf_turn Fn.relational_loop NT.add (fun a b => new_node NodeKind.ND_LTE a b)
        (relational_loop_le h1 node next) (fun x ha hb => well_formed_bin (by decide) ha hb) hY hL hn h
    by_cases h2 : is_op ">=" tok
    · exact wf_turn Fn.relational_loop NT.add (fun a b => new_node NodeKind.ND_LTE b a)
        (relational_loop_ge h2 node next) (fun x ha hb => well_formed_bin (by decide) hb ha) hY hL hn h
    by_cases h3 : is_op "<" tok
    · exact wf_turn Fn.relational_loop NT.add (fun a b => new_node NodeKind.ND_LT a b)
        (relational_loop_lt h3 node next) (fun x ha hb => well_formed_bin (by decide) ha hb) hY hL hn h
    by_cases h4 : is_op ">" tok
    · exact wf_turn Fn.relational_loop NT.add (fun a b => new_node NodeKind.ND_LT b a)
        (relational_loop_gt h4 node next) (fun x ha hb => well_formed_bin (by decide) hb ha) hY hL hn h
    have hstop : call Fn.relational_loop (d + 1) node (tok :: next) = Res.ok node (tok :: next) :=
      relational_loop_stop h1 h2 h3 h4 node next
    rw [hstop] at h
    cases h
    exact hn

theorem wf_equality_loop {d : Nat} (ihY : WfAt d Fn.relational) (ihL : WfAt d Fn.equality_loop) :
    WfAt (d + 1) Fn.equality_loop := by
  intro node cur t rest hnode h
  have hn : well_formed node = true := hnode rfl
  have hY : ∀ cur t rest, call (fn_of NT.relational) d Node.NULL cur = Res.ok t rest →
      well_formed t = true :=
    fun cur t rest hh => ihY Node.NULL cur t rest (fun hf => Bool.noConfusion hf) hh
  have hL : ∀ node cur t rest, well_formed node = true →
      call Fn.equality_loop d node cur = Res.ok t rest → well_formed t = true :=
    fun node cur t rest hw hh => ihL node cur t rest (fun _ => hw) hh
  cases cur with
  | nil => cases h
  | cons tok next =>
    by_cases h1 : is_op "==" tok
    · exact wf_turn Fn.equality_loop NT.relational (fun a b => new_node NodeKind.ND_EQ a b)
        (equality_loop_eq h1 node next) (fun x ha hb => well_formed_bin (by decide) ha hb) hY hL hn h
    by_cases h2 : is_op "!=" tok
    · exact wf_turn Fn.equality_loop NT.relational (fun a b => new_node NodeKind.ND_NE a b)
        (equality_loop_ne h2 node next) (fun x ha hb => well_formed_bin (by decide) ha hb) hY hL hn h
    have hstop : call Fn.equality_loop (d + 1) node (tok :: next) = Res.ok node (tok :: next) :=
      equality_loop_stop h1 h2 node next
    rw [hstop] at h
    cases h
    exact hn

/-- Every tree a routine returns is well-formed. -/
theorem wf_call (d : Nat) : ∀ fn : Fn, WfAt d fn := by
  induction d with
  | zero =>
    intro fn node cur t rest _ h
    cases fn <;> cases h
  | succ d ih =>
    have nl : ∀ fn : Fn, is_loop fn = false → ∀ cur t rest,
        call fn d Node.NULL cur = Res.ok t rest → well_formed t = true :=
      fun fn hfn cur t rest hh =>
        ih fn Node.NULL cur t rest (fun hf => by rw [hfn] at hf; cases hf) hh
    intro fn
    cases fn
    case primary =>
      intro node cur t rest _ h
      cases cur with
      | nil => cases h
      | cons tok next =>
        have h1 : primary (d + 1) (tok :: next) = Res.ok t rest := h
        by_cases hl : is_op "(" tok
        · rw [primary_paren hl] at h1
          obtain ⟨x, c, he, h2⟩ := bind_eq_ok h1
          obtain ⟨u, c2, hx, h3⟩ := bind_eq_ok h2
          cases h3
          exact nl Fn.expr rfl _ _ _ he
        · rw [primary_other hl] at h1
          obtain ⟨v, c, hn, h2⟩ := bind_eq_ok h1
          cases h2
          exact well_formed_num v
    case unary =>
      intro node cur t rest _ h
      cases cur with
      | nil => cases h
      | cons tok next =>
        have h1 : unary (d + 1) (tok :: next) = Res.ok t rest := h
        by_cases hp : is_op "+" tok
        · rw [unary_plus hp] at h1
          exact nl Fn.primary rfl _ _ _ h1
        · by_cases hm : is_op "-" tok
          · rw [unary_minus hm] at h1
            obtain ⟨x, c, hpr, h2⟩ := bind_eq_ok h1
            cases h2
            exact well_formed_bin (by decide) (well_formed_num 0) (nl Fn.primary rfl _ _ _ hpr)
          · rw [unary_other hp hm] at h1
            exact nl Fn.primary rfl _ _ _ h1
    case mul_loop => exact wf_mul_loop (ih Fn.unary) (ih Fn.mul_loop)
    case mul =>
      intro node cur t rest _ h
      exact wf_layer Fn.mul Fn.mul_loop NT.unary (mul_succ d)
        (fun cur t rest hh => nl Fn.unary rfl cur t rest hh)
        (fun node cur t rest hw hh => ih Fn.mul_loop node cur t rest (fun _ => hw) hh) h
    case add_loop => exact wf_add_loop (ih Fn.mul) (ih Fn.add_loop)
    case add =>
      intro node cur t rest _ h
      exact wf_layer Fn.add Fn.add_loop NT.mul (add_succ d)
        (fun cur t rest hh => nl Fn.mul rfl cur t rest hh)
        (fun node cur t rest hw hh => ih Fn.add_loop node cur t rest (fun _ => hw) hh) h
    case relational_loop => exact wf_relational_loop (ih Fn.add) (ih Fn.relational_loop)
    case relational =>
      intro node cur t rest _ h
      exact wf_layer Fn.relational Fn.relational_loop NT.add (relational_succ d)
        (fun cur t rest hh => nl Fn.add rfl cur t rest hh)
        (fun node cur t rest hw hh => ih Fn.relational_loop node cur t rest (fun _ => hw) hh) h
    case equality_loop => exact wf_equality_loop (ih Fn.relational) (ih Fn.equality_loop)
    case equality =>
      intro node cur t rest _ h
      exact wf_layer Fn.equality Fn.equality_loop NT.relational (equality_succ d)
        (fun cur t rest hh => nl Fn.relational rfl cur t rest hh)
        (fun node cur t rest hw hh => ih Fn.equality_loop node cur t rest (fun _ => hw) hh) h
    case expr =>
      intro node cur t rest _ h
      have h1 : expr (d + 1) cur = Res.ok t rest := h
      rw [expr_succ] at h1
      exact nl Fn.equality rfl _ _ _ h1

/-- C17: every tree returned by a successful `expr` is well-formed: each node
of kind `ND_NUM` has no left and no right child, each node of any other kind
has both a left and a right child, which are well-formed again; no node has
exactly one child.  The kinds are the nine of `NodeKind`. -/
theorem C17_ast_well_formed (toks rest : List Token) (t : Node)
    (h : run expr toks = Res.ok t rest) : well_formed t = true :=
  wf_call _ Fn.expr Node.NULL toks t rest (fun hf => Bool.noConfusion hf) h

theorem C17_ast_well_formed_witness :
    well_formed (new_node NodeKind.ND_ADD (new_node_num 1)
      (new_node NodeKind.ND_MUL (new_node_num 2) (new_node_num 3))) = true :=
  C17_ast_well_formed (toks_1_plus_2_times_3 ++ [eof_tok]) [eof_tok] _ (by decide)

/-! ## Phrases of the grammar: parentheses, end-of-input tokens, length -/

theorem paren_scan_open {tok : Token} (h : is_op "(" tok) (n : Nat) (rest : List Token) :
    paren_scan n (tok :: rest) = paren_scan (n + 1) rest := by
  cases n <;> simp only [paren_scan, if_pos h]

theorem paren_scan_close {tok : Token} (h : is_op ")" tok) (n : Nat) (rest : List Token) :
    paren_scan (n + 1) (tok :: rest) = paren_scan n rest := by
  have h1 : ¬ is_op "(" tok := is_op_ne h (by decide)
  simp only [paren_scan, if_neg h1, if_pos h]

theorem paren_scan_other {tok : Token} (h1 : ¬ is_op "(" tok) (h2 : ¬ is_op ")" tok) (n : Nat)
    (rest : List Token) : paren_scan n (tok :: rest) = paren_scan n rest := by
  cases n <;> simp only [paren_scan, if_neg h1, if_neg h2]

theorem paren_scan_op {a : String} {tok : Token} (h : is_op a tok) (ha1 : a ≠ "(")
    (ha2 : a ≠ ")") (n : Nat) (rest : List Token) :
    paren_scan n (tok :: rest) = paren_scan n rest :=
  paren_scan_other (is_op_ne h ha1) (is_op_ne h ha2) n rest

/-- A phrase of the grammar leaves the count of open parentheses as it was. -/
theorem derives_paren_scan {X : NT} {ts : List Token} (h : Derives X ts) :
    ∀ (n : Nat) (rest : List Token), paren_scan n (ts ++ rest) = paren_scan n rest := by
  induction h with
  | expr _ ih => exact ih
  | equality_one _ ih => exact ih
  | equality_more _ ho _ ih1 ih2 =>
    intro n rest
    rw [List.append_assoc, List.cons_append, ih1]
    rcases ho with ho | ho
    · rw [paren_scan_op ho (by decide) (by decide), ih2]
    · rw [paren_scan_op ho (by decide) (by decide), ih2]
  | relational_one _ ih => exact ih
  | relational_more _ ho _ ih1 ih2 =>
    intro n rest
    rw [List.append_assoc, List.cons_append, ih1]
    rcases ho with ho | ho | ho | ho
    · rw [paren_scan_op ho (by decide) (by decide), ih2]
    · rw [paren_scan_op ho (by decide) (by decide), ih2]
    · rw [paren_scan_op ho (by decide) (by decide), ih2]
    · rw [paren_scan_op ho (by decide) (by decide), ih2]
  | add_one _ ih => exact ih
  | add_more _ ho _ ih1 ih2 =>
    intro n rest
    rw [List.append_assoc, List.cons_append, ih1]
    rcases ho with ho | ho
    · rw [paren_scan_op ho (by decide) (by decide), ih2]
    · rw [paren_scan_op ho (by decide) (by decide), ih2]
  | mul_one _ ih => exact ih
  | mul_more _ ho _ ih1 ih2 =>
    intro n rest
    rw [List.append_assoc, List.cons_append, ih1]
    rcases ho with ho | ho
    · rw [paren_scan_op ho (by decide) (by decide), ih2]
    · rw [paren_scan_op ho (by decide) (by decide), ih2]
  | unary_sign ho _ ih =>
    intro n rest
    rw [List.cons_append]
    rcases ho with ho | ho
    · rw [paren_scan_op ho (by decide) (by decide), ih]
    · rw [paren_scan_op ho (by decide) (by decide), ih]
  | unary_plain _ ih => exact ih
  | primary_num hn =>
    intro n rest
    exact paren_scan_other (not_is_op_of_num hn "(") (not_is_op_of_num hn ")") n rest
  | @primary_paren ts l r hl _ hr ih =>
    intro n rest
    have hl2 : (l :: ts ++ [r]) ++ rest = l :: (ts ++ r :: rest) := by simp
    rw [hl2, paren_scan_open hl, ih, paren_scan_close hr]

theorem derives_balanced {X : NT} {ts : List Token} (h : Derives X ts) : balanced ts := by
  have := derives_paren_scan h 0 []
  rw [List.append_nil] at this
  exact this

theorem not_is_eof_of_op {a : String} {tok : Token} (h : is_op a tok) : ¬ is_eof tok := by
  intro he
  exact not_is_op_of_eof he a h

theorem not_is_eof_of_num {tok : Token} (h : is_num tok) : ¬ is_eof tok := by
  intro he
  unfold is_num at h
  unfold is_eof at he
  rw [h] at he
  cases he

/-- A phrase of the grammar contains no end-of-input token. -/
theorem derives_no_eof {X : NT} {ts : List Token} (h : Derives X ts) :
    ∀ tok ∈ ts, ¬ is_eof tok := by
  induction h with
  | expr _ ih => exact ih
  | equality_one _ ih => exact ih
  | equality_more _ ho _ ih1 ih2 =>
    intro tok hm
    rcases List.mem_append.mp hm with h1 | h1
    · exact ih1 tok h1
    · rcases List.mem_cons.mp h1 with h2 | h2
      · rw [h2]
        rcases ho with ho | ho
        · exact not_is_eof_of_op ho
        · exact not_is_eof_of_op ho
      · exact ih2 tok h2
  | relational_one _ ih => exact ih
  | relational_more _ ho _ ih1 ih2 =>
    intro tok hm
    rcases List.mem_append.mp hm with h1 | h1
    · exact ih1 tok h1
    · rcases List.mem_cons.mp h1 with h2 | h2
      · rw [h2]
        rcases ho with ho | ho | ho | ho
        · exact not_is_eof_of_op ho
        · exact not_is_eof_of_op ho
        · exact not_is_eof_of_op ho
        · exact not_is_eof_of_op ho
      · exact ih2 tok h2
  | add_one _ ih => exact ih
  | add_more _ ho _ ih1 ih2 =>
    intro tok hm
    rcases List.mem_append.mp hm with h1 | h1
    · exact ih1 tok h1
    · rcases List.mem_cons.mp h1 with h2 | h2
      · rw [h2]
        rcases ho with ho | ho
        · exact not_is_eof_of_op ho
        · exact not_is_eof_of_op ho
      · exact ih2 tok h2
  | mul_one _ ih => exact ih
  | mul_more _ ho _ ih1 ih2 =>
    intro tok hm
    rcases List.mem_append.mp hm with h1 | h1
    · exact ih1 tok h1
    · rcases List.mem_cons.mp h1 with h2 | h2
      · rw [h2]
        rcases ho with ho | ho
        · exact not_is_eof_of_op ho
        · exact not_is_eof_of_op ho
      · exact ih2 tok h2
  | unary_sign ho _ ih =>
    intro tok hm
    rcases List.mem_cons.mp hm with h2 | h2
    · rw [h2]
      rcases ho with ho | ho
      · exact not_is_eof_of_op ho
      · exact not_is_eof_of_op ho
    · exact ih tok h2
  | unary_plain _ ih => exact ih
  | primary_num hn =>
    intro tok hm
    rw [List.mem_singleton.mp hm]
    exact not_is_eof_of_num hn
  | primary_paren hl _ hr ih =>
    intro tok hm
    rcases List.mem_append.mp hm with h1 | h1
    · rcases List.mem_cons.mp h1 with h2 | h2
      · rw [h2]
        exact not_is_eof_of_op hl
      · exact ih tok h2
    · rw [List.mem_singleton.mp h1]
      exact not_is_eof_of_op hr

/-- A phrase of the grammar has at least one token. -/
theorem derives_ne_nil {X : NT} {ts : List Token} (h : Derives X ts) : ts ≠ [] := by
  induction h with
  | expr _ ih => exact ih
  | equality_one _ ih => exact ih
  | equality_more _ _ _ _ _ => simp
  | relational_one _ ih => exact ih
  | relational_more _ _ _ _ _ => simp
  | add_one _ ih => exact ih
  | add_more _ _ _ _ _ => simp
  | mul_one _ ih => exact ih
  | mul_more _ _ _ _ _ => simp
  | unary_sign _ _ _ => simp
  | unary_plain _ ih => exact ih
  | primary_num _ => simp
  | primary_paren _ _ _ _ => simp

/-- C20: grammar soundness.  Whenever `expr` succeeds, the tokens it consumed,
the prefix of the input between the initial and the final cursor, form a
sequence derivable from `expr` in the grammar; this prefix has balanced
parentheses and contains no end-of-input token. -/
theorem C20_grammar_sound (toks rest : List Token) (t : Node)
    (h : run expr toks = Res.ok t rest) :
    ∃ ts : List Token, toks = ts ++ rest ∧ Derives NT.expr ts ∧ balanced ts ∧
      ∀ tok ∈ ts, ¬ is_eof tok := by
  obtain ⟨ts, hts, hd⟩ := sound _ Fn.expr Node.NULL toks t rest h
  exact ⟨ts, hts, hd, derives_balanced hd, derives_no_eof hd⟩

theorem C20_grammar_sound_witness :
    ∃ ts : List Token, toks_1_plus_2_times_3 ++ [eof_tok] = ts ++ [eof_tok] ∧
      Derives NT.expr ts ∧ balanced ts ∧ ∀ tok ∈ ts, ¬ is_eof tok :=
  C20_grammar_sound (toks_1_plus_2_times_3 ++ [eof_tok]) [eof_tok]
    (new_node NodeKind.ND_ADD (new_node_num 1)
      (new_node NodeKind.ND_MUL (new_node_num 2) (new_node_num 3))) (by decide)

/-! ## Left-leaning chains -/

theorem is_num_leaf_num (v : Int) : is_num_leaf (new_node_num v) = true := by
  simp [is_num_leaf, new_node_num]

theorem is_op_op_tok (op rest : String) : is_op op (op_tok op rest) := by
  refine ⟨rfl, rfl, ?_⟩
  show List.take op.data.length (op.data ++ rest.data) = op.data
  exact List.take_left' rfl

theorem well_formed_ast (t : Ast) : well_formed t.node = true := by
  induction t with
  | num n => exact well_formed_num n
  | bin k l r ihl ihr =>
    have hk : k.kind ≠ NodeKind.ND_NUM := by cases k <;> decide
    exact well_formed_bin hk ihl ihr

/-- The printing of an abstract tree is a phrase of `expr` with that tree. -/
theorem builds_print (mk_num : Int → Token) (mk_op : String → Token)
    (hnum : ∀ n, is_num (mk_num n) ∧ (mk_num n).val = n) (hop : ∀ s, is_op s (mk_op s))
    (t : Ast) : Builds NT.expr (t.print mk_num mk_op) t.node := by
  induction t with
  | num n =>
    have h := Builds.primary_num (hnum n).1
    rw [(hnum n).2] at h
    exact builds_expr_of_unary (Builds.unary_plain h)
  | bin k l r ihl ihr =>
    have pl := Builds.primary_paren (hop "(") ihl (hop ")")
    have pr := Builds.primary_paren (hop "(") ihr (hop ")")
    cases k
    case add =>
      exact builds_expr_of_add
        (Builds.add_plus (builds_add_of_primary pl) (hop "+") (builds_mul_of_primary pr))
    case sub =>
      exact builds_expr_of_add
        (Builds.add_minus (builds_add_of_primary pl) (hop "-") (builds_mul_of_primary pr))
    case mul =>
      exact builds_expr_of_mul
        (Builds.mul_star (builds_mul_of_primary pl) (hop "*") (Builds.unary_plain pr))
    case div =>
      exact builds_expr_of_mul
        (Builds.mul_slash (builds_mul_of_primary pl) (hop "/") (Builds.unary_plain pr))
    case lt =>
      exact builds_expr_of_relational
        (Builds.relational_lt (builds_relational_of_primary pl) (hop "<")
          (builds_add_of_primary pr))
    case le =>
      exact builds_expr_of_relational
        (Builds.relational_le (builds_relational_of_primary pl) (hop "<=")
          (builds_add_of_primary pr))
    case eq =>
      exact builds_expr_of_equality
        (Builds.equality_eq (Builds.equality_one (builds_relational_of_primary pl)) (hop "==")
          (builds_relational_of_primary pr))
    case ne =>
      exact builds_expr_of_equality
        (Builds.equality_ne (Builds.equality_one (builds_relational_of_primary pl)) (hop "!=")
          (builds_relational_of_primary pr))

/-- The abstract trees are all the well-formed trees of `parser.c`: every
well-formed tree whose binary nodes have the `val` that `new_node` leaves in
them is the tree of an abstract tree. -/
theorem ast_of_well_formed (n : Node) :
    well_formed n = true → calloc_val n = true → ∃ t : Ast, t.node = n := by
  induction n with
  | NULL => intro h; simp [well_formed] at h
  | mk kind lhs rhs val ihl ihr =>
    intro hw hc
    by_cases hk : kind = NodeKind.ND_NUM
    · subst hk
      simp [well_formed] at hw
      obtain ⟨rfl, rfl⟩ := hw
      exact ⟨Ast.num val, rfl⟩
    · simp [well_formed, hk] at hw
      simp [calloc_val, hk] at hc
      obtain ⟨tl, rfl⟩ := ihl hw.1 hc.1.2
      obtain ⟨tr, rfl⟩ := ihr hw.2 hc.2
      obtain ⟨rfl⟩ := hc.1.1
      cases kind with
      | ND_ADD => exact ⟨Ast.bin BinOp.add tl tr, rfl⟩
      | ND_SUB => exact ⟨Ast.bin BinOp.sub tl tr, rfl⟩
      | ND_MUL => exact ⟨Ast.bin BinOp.mul tl tr, rfl⟩
      | ND_DIV => exact ⟨Ast.bin BinOp.div tl tr, rfl⟩
      | ND_EQ => exact ⟨Ast.bin BinOp.eq tl tr, rfl⟩
      | ND_NE => exact ⟨Ast.bin BinOp.ne tl tr, rfl⟩
      | ND_LT => exact ⟨Ast.bin BinOp.lt tl tr, rfl⟩
      | ND_LTE => exact ⟨Ast.bin BinOp.le tl tr, rfl⟩
      | ND_NUM => exact absurd rfl hk

/-- C19: the round trip through fully parenthesised printing.  For every
well-formed tree `t` of the nine node kinds, with any integer values in its
leaves, `expr` on `print t` followed by the end-of-input token succeeds, returns
exactly the tree `t` and leaves the cursor on the end-of-input token; so every
well-formed tree is the parse of some token sequence.  The tree `t` is returned
as the record `t.node`: kind `ND_NUM`, no children and the value for a leaf,
the kind of the operator, the two children and `val` zero for a binary node.
These records are all the well-formed trees whose binary nodes have `val`
zero. -/
theorem C19_print_round_trip (mk_num : Int → Token) (mk_op : String → Token) (eof : Token)
    (t : Ast) (hnum : ∀ n, is_num (mk_num n) ∧ (mk_num n).val = n)
    (hop : ∀ s, is_op s (mk_op s)) (heof : is_eof eof) :
    run expr (t.print mk_num mk_op ++ [eof]) = Res.ok t.node [eof] ∧
      well_formed t.node = true ∧
      (∀ n : Node, well_formed n = true → calloc_val n = true →
        ∃ u : Ast, u.node = n ∧ run expr (u.print mk_num mk_op ++ [eof]) = Res.ok n [eof]) := by
  have he := ends_of_eof heof NT.expr []
  refine ⟨run_expr_of_builds (builds_print mk_num mk_op hnum hop t) he, well_formed_ast t, ?_⟩
  intro n hw hc
  obtain ⟨u, hu⟩ := ast_of_well_formed n hw hc
  refine ⟨u, hu, ?_⟩
  rw [← hu]
  exact run_expr_of_builds (builds_print mk_num mk_op hnum hop u) he

theorem C19_print_round_trip_witness :
    run expr ((Ast.bin BinOp.sub (Ast.num 8) (Ast.bin BinOp.sub (Ast.num 3) (Ast.num 2))).print
        (fun n => num_tok n "" "") (fun s => op_tok s "") ++ [eof_tok]) =
      Res.ok (Node.mk NodeKind.ND_SUB
        (Node.mk NodeKind.ND_NUM Node.NULL Node.NULL 8)
        (Node.mk NodeKind.ND_SUB
          (Node.mk NodeKind.ND_NUM Node.NULL Node.NULL 3)
          (Node.mk NodeKind.ND_NUM Node.NULL Node.NULL 2) 0) 0) [eof_tok] :=
  (C19_print_round_trip (fun n => num_tok n "" "") (fun s => op_tok s "") eof_tok
    (Ast.bin BinOp.sub (Ast.num 8) (Ast.bin BinOp.sub (Ast.num 3) (Ast.num 2)))
    (fun _ => ⟨rfl, rfl⟩) (fun s => is_op_op_tok s "") (by decide)).1

/-! ## The routines with the history do what the routines do -/

theorem traced_bind_apply (p : Traced.Parser α) (f : α → Traced.Parser β) (cur : List Token)
    (past : List (List Token)) :
    (p >>= f) cur past =
      match p cur past with
      | Traced.Res.ok v cur1 past1 => f v cur1 past1
      | Traced.Res.error loc msg cur1 past1 => Traced.Res.error loc msg cur1 past1
      | Traced.Res.null_deref past1 => Traced.Res.null_deref past1
      | Traced.Res.out_of_depth => Traced.Res.out_of_depth := rfl

theorem traced_consume_cons (op : String) (tok : Token) (next : List Token)
    (past : List (List Token)) :
    Traced.consume op (tok :: next) past =
      if is_op op tok then Traced.Res.ok true next ((tok :: next) :: past)
      else Traced.Res.ok false (tok :: next) past := by
  by_cases h : is_op op tok
  · rw [if_pos h]
    rw [is_op_iff] at h
    simp only [Traced.consume, if_neg h]
  · rw [if_neg h]
    rw [is_op_iff, not_not] at h
    simp only [Traced.consume, if_pos h]

theorem traced_expect_cons (op : String) (tok : Token) (next : List Token)
    (past : List (List Token)) :
    Traced.expect op (tok :: next) past =
      if is_op op tok then Traced.Res.ok () next ((tok :: next) :: past)
      else Traced.Res.error tok.str (Message.not_op op) (tok :: next) past := by
  by_cases h : is_op op tok
  · rw [if_pos h]
    rw [is_op_iff] at h
    simp only [Traced.expect, if_neg h]
  · rw [if_neg h]
    rw [is_op_iff, not_not] at h
    simp only [Traced.expect, if_pos h]

theorem traced_expect_number_cons (tok : Token) (next : List Token)
    (past : List (List Token)) :
    Traced.expect_number (tok :: next) past =
      if is_num tok then Traced.Res.ok tok.val next ((tok :: next) :: past)
      else Traced.Res.error tok.str Message.not_number (tok :: next) past := by
  unfold Traced.expect_number is_num
  by_cases h : tok.kind = TokenKind.TK_NUM <;> simp [h]

theorem traced_sim_out (p : Parser α) (h : ∀ cur, p cur = Res.out_of_depth) :
    Traced.Sim (fun _ _ => Traced.Res.out_of_depth) p := by
  intro cur past
  rw [h cur]
  rfl

theorem traced_sim_pure (v : α) : Traced.Sim (pure v) (pure v) := fun _ _ => rfl

theorem traced_sim_bind {pT : Traced.Parser α} {p : Parser α} {fT : α → Traced.Parser β}
    {f : α → Parser β} (hp : Traced.Sim pT p) (hf : ∀ v, Traced.Sim (fT v) (f v)) :
    Traced.Sim (pT >>= fT) (p >>= f) := by
  intro cur past
  have h := hp cur past
  rw [traced_bind_apply, Parser9cc.bind_apply]
  cases hpT : pT cur past with
  | ok v c past1 =>
    rw [hpT] at h
    simp only [Traced.erase] at h
    rw [← h]
    exact hf v c past1
  | error loc msg c past1 =>
    rw [hpT] at h
    simp only [Traced.erase] at h
    rw [← h]
    rfl
  | null_deref past1 =>
    rw [hpT] at h
    simp only [Traced.erase] at h
    rw [← h]
    rfl
  | out_of_depth =>
    rw [hpT] at h
    simp only [Traced.erase] at h
    rw [← h]
    rfl

theorem traced_sim_ite {c : Prop} [Decidable c] {pT qT : Traced.Parser α} {p q : Parser α}
    (hp : Traced.Sim pT p) (hq : Traced.Sim qT q) :
    Traced.Sim (if c then pT else qT) (if c then p else q) := by
  split
  · exact hp
  · exact hq

theorem traced_sim_consume (op : String) : Traced.Sim (Traced.consume op) (consume op) := by
  intro cur past
  cases cur with
  | nil => rfl
  | cons tok next =>
    rw [traced_consume_cons, Parser9cc.consume_cons]
    split <;> rfl

theorem traced_sim_expect (op : String) : Traced.Sim (Traced.expect op) (expect op) := by
  intro cur past
  cases cur with
  | nil => rfl
  | cons tok next =>
    rw [traced_expect_cons, Parser9cc.expect_cons]
    split <;> rfl

theorem traced_sim_expect_number : Traced.Sim Traced.expect_number expect_number := by
  intro cur past
  cases cur with
  | nil => rfl
  | cons tok next =>
    rw [traced_expect_number_cons, Parser9cc.expect_number_cons]
    split <;> rfl

/-- Without its history, a run of a routine with the history is the run of the
routine. -/
theorem traced_sim_call (d : Nat) :
    ∀ (fn : Fn) (node : Node), Traced.Sim (Traced.call fn d node) (call fn d node) := by
  induction d with
  | zero =>
    intro fn node
    cases fn <;> exact fun _ _ => rfl
  | succ d ih =>
    have h_primary := ih Fn.primary Node.NULL
    have h_unary := ih Fn.unary Node.NULL
    have h_mul_loop := ih Fn.mul_loop
    have h_mul := ih Fn.mul Node.NULL
    have h_add_loop := ih Fn.add_loop
    have h_add := ih Fn.add Node.NULL
    have h_relational_loop := ih Fn.relational_loop
    have h_relational := ih Fn.relational Node.NULL
    have h_equality_loop := ih Fn.equality_loop
    have h_equality := ih Fn.equality Node.NULL
    have h_expr := ih Fn.expr Node.NULL
    simp only [call, Traced.call] at h_primary h_unary h_mul_loop h_mul h_add_loop h_add
    simp only [call, Traced.call] at h_relational_loop h_relational h_equality_loop h_equality h_expr
    intro fn node
    cases fn <;> simp only [call, Traced.call]
    case primary =>
      rw [Traced.primary, primary]
      repeat first
        | assumption
        | exact traced_sim_pure _
        | exact traced_sim_consume _
        | exact traced_sim_expect _
        | exact traced_sim_expect_number
        | apply traced_sim_bind
        | apply traced_sim_ite
        | intro _
    case unary =>
      rw [Traced.unary, unary]
      repeat first
        | assumption
        | exact traced_sim_pure _
        | exact traced_sim_consume _
        | exact traced_sim_expect _
        | exact traced_sim_expect_number
        | apply traced_sim_bind
        | apply traced_sim_ite
        | intro _
    case mul_loop =>
      rw [Traced.mul_loop, mul_loop]
      repeat first
        | assumption
        | exact traced_sim_pure _
        | exact traced_sim_consume _
        | exact traced_sim_expect _
        | exact traced_sim_expect_number
        | apply h_mul_loop
        | apply traced_sim_bind
        | apply traced_sim_ite
        | intro _
    case mul =>
      rw [Traced.mul, mul]
      repeat first
        | assumption
        | exact traced_sim_pure _
        | exact traced_sim_consume _
        | exact traced_sim_expect _
        | exact traced_sim_expect_number
        | apply h_mul_loop
        | apply traced_sim_bind
        | apply traced_sim_ite
        | intro _
    case add_loop =>
      rw [Traced.add_loop, add_loop]
      repeat first
        | assumption
        | exact traced_sim_pure _
        | exact traced_sim_consume _
        | exact traced_sim_expect _
        | exact traced_sim_expect_number
        | apply h_add_loop
        | apply traced_sim_bind
        | apply traced_sim_ite
        | intro _
    case add =>
      rw [Traced.add, add]
      repeat first
        | assumption
        | exact traced_sim_pure _
        | exact traced_sim_consume _
        | exact traced_sim_expect _
        | exact traced_sim_expect_number
        | apply h_add_loop
        | apply traced_sim_bind
        | apply traced_sim_ite
        | intro _
    case relational_loop =>
      rw [Traced.relational_loop, relational_loop]
      repeat first
        | assumption
        | exact traced_sim_pure _
        | exact traced_sim_consume _
        | exact traced_sim_expect _
        | exact traced_sim_expect_number
        | apply h_relational_loop
        | apply traced_sim_bind
        | apply traced_sim_ite
        | intro _
    case relational =>
      rw [Traced.relational, relational]
      repeat first
        | assumption
        | exact traced_sim_pure _
        | exact traced_sim_consume _
        | exact traced_sim_expect _
        | exact traced_sim_expect_number
        | apply h_relational_loop
        | apply traced_sim_bind
        | apply traced_sim_ite
        | intro _
    case equality_loop =>
      rw [Traced.equality_loop, equality_loop]
      repeat first
        | assumption
        | exact traced_sim_pure _
        | exact traced_sim_consume _
        | exact traced_sim_expect _
        | exact traced_sim_expect_number
        | apply h_equality_loop
        | apply traced_sim_bind
        | apply traced_sim_ite
        | intro _
    case equality =>
      rw [Traced.equality, equality]
      repeat first
        | assumption
        | exact traced_sim_pure _
        | exact traced_sim_consume _
        | exact traced_sim_expect _
        | exact traced_sim_expect_number
        | apply h_equality_loop
        | apply traced_sim_bind
        | apply traced_sim_ite
        | intro _
    case expr =>
      rw [Traced.expr, expr]
      exact h_equality

/-! ## The history of the cursor stays good -/

theorem suffix_advance {toks : List Token} (hT : eof_terminated toks) {tok : Token}
    {next : List Token} (hs : (tok :: next) <:+ toks) (hk : ¬ is_eof tok) :
    next ≠ [] ∧ next <:+ toks := by
  refine ⟨?_, List.IsSuffix.trans (List.suffix_cons tok next) hs⟩
  intro hn
  subst hn
  obtain ⟨body, eof, rfl, heof⟩ := hT
  obtain ⟨pre, hpre⟩ := hs
  have := List.append_inj_right' hpre rfl
  cases this
  exact hk heof

theorem good_hist_push {toks : List Token} (hT : eof_terminated toks) {tok : Token}
    {next : List Token} {past : List (List Token)}
    (h : good_hist toks ((tok :: next) :: past)) (hk : ¬ is_eof tok) :
    good_hist toks (next :: (tok :: next) :: past) := by
  obtain ⟨h1, h2⟩ := h
  have hadv := suffix_advance hT (h1 _ (List.mem_cons_self _ _)).2 hk
  refine ⟨?_, ?_⟩
  · intro c hc
    rcases List.mem_cons.mp hc with hc | hc
    · rw [hc]; exact hadv
    · exact h1 c hc
  · exact List.Chain'.cons ⟨tok, rfl⟩ h2

theorem keeps_out (toks : List Token) :
    Keeps toks (fun _ _ => Traced.Res.out_of_depth : Traced.Parser α) :=
  fun _ _ _ => Or.inl rfl

theorem keeps_pure (toks : List Token) (v : α) : Keeps toks (pure v : Traced.Parser α) :=
  fun _ _ h => Or.inr ⟨h, List.suffix_refl _⟩

theorem keeps_bind {toks : List Token} {pT : Traced.Parser α} {fT : α → Traced.Parser β}
    (hp : Keeps toks pT) (hf : ∀ v, Keeps toks (fT v)) : Keeps toks (pT >>= fT) := by
  intro cur past hg
  rw [traced_bind_apply]
  rcases hp cur past hg with h | ⟨h1, h2⟩
  · left; rw [h]
  · cases hpT : pT cur past with
    | ok v c past1 =>
      rw [hpT] at h1 h2
      rcases hf v c past1 h1 with h3 | ⟨h3, h4⟩
      · exact Or.inl h3
      · exact Or.inr ⟨h3, List.IsSuffix.trans h2 h4⟩
    | error loc msg c past1 =>
      rw [hpT] at h1 h2
      exact Or.inr ⟨h1, h2⟩
    | null_deref past1 =>
      rw [hpT] at h1 h2
      exact Or.inr ⟨h1, h2⟩
    | out_of_depth => exact Or.inl rfl

theorem keeps_ite {toks : List Token} {c : Prop} [Decidable c] {pT qT : Traced.Parser α}
    (hp : Keeps toks pT) (hq : Keeps toks qT) : Keeps toks (if c then pT else qT) := by
  split
  · exact hp
  · exact hq

theorem good_hist_ne_nil {toks cur : List Token} {past : List (List Token)}
    (h : good_hist toks (cur :: past)) : cur ≠ [] :=
  (h.1 cur (List.mem_cons_self _ _)).1

theorem keeps_consume {toks : List Token} (hT : eof_terminated toks) (op : String) :
    Keeps toks (Traced.consume op) := by
  intro cur past hg
  cases cur with
  | nil => exact absurd rfl (good_hist_ne_nil hg)
  | cons tok next =>
    right
    rw [traced_consume_cons]
    by_cases h : is_op op tok
    · rw [if_pos h]
      exact ⟨good_hist_push hT hg (not_is_eof_of_op h), List.suffix_cons _ _⟩
    · rw [if_neg h]
      exact ⟨hg, List.suffix_refl _⟩

theorem keeps_expect {toks : List Token} (hT : eof_terminated toks) (op : String) :
    Keeps toks (Traced.expect op) := by
  intro cur past hg
  cases cur with
  | nil => exact absurd rfl (good_hist_ne_nil hg)
  | cons tok next =>
    right
    rw [traced_expect_cons]
    by_cases h : is_op op tok
    · rw [if_pos h]
      exact ⟨good_hist_push hT hg (not_is_eof_of_op h), List.suffix_cons _ _⟩
    · rw [if_neg h]
      exact ⟨hg, List.suffix_refl _⟩

theorem keeps_expect_number {toks : List Token} (hT : eof_terminated toks) :
    Keeps toks Traced.expect_number := by
  intro cur past hg
  cases cur with
  | nil => exact absurd rfl (good_hist_ne_nil hg)
  | cons tok next =>
    right
    rw [traced_expect_number_cons]
    by_cases h : is_num tok
    · rw [if_pos h]
      exact ⟨good_hist_push hT hg (not_is_eof_of_num h), List.suffix_cons _ _⟩
    · rw [if_neg h]
      exact ⟨hg, List.suffix_refl _⟩

/-- Every routine keeps the history of the cursor good. -/
theorem keeps_call {toks : List Token} (hT : eof_terminated toks) (d : Nat) :
    ∀ (fn : Fn) (node : Node), Keeps toks (Traced.call fn d node) := by
  induction d with
  | zero =>
    intro fn node
    cases fn <;> exact keeps_out toks
  | succ d ih =>
    have h_primary := ih Fn.primary Node.NULL
    have h_unary := ih Fn.unary Node.NULL
    have h_mul_loop := ih Fn.mul_loop
    have h_mul := ih Fn.mul Node.NULL
    have h_add_loop := ih Fn.add_loop
    have h_add := ih Fn.add Node.NULL
    have h_relational_loop := ih Fn.relational_loop
    have h_relational := ih Fn.relational Node.NULL
    have h_equality_loop := ih Fn.equality_loop
    have h_equality := ih Fn.equality Node.NULL
    have h_expr := ih Fn.expr Node.NULL
    simp only [Traced.call] at h_primary h_unary h_mul_loop h_mul h_add_loop h_add
    simp only [Traced.call] at h_relational_loop h_relational h_equality_loop h_equality h_expr
    intro fn node
    cases fn <;> simp only [Traced.call]
    case primary =>
      rw [Traced.primary]
      repeat first
        | assumption
        | exact keeps_pure toks _
        | exact keeps_consume hT _
        | exact keeps_expect hT _
        | exact keeps_expect_number hT
        | apply keeps_bind
        | apply keeps_ite
        | intro _
    case unary =>
      rw [Traced.unary]
      repeat first
        | assumption
        | exact keeps_pure toks _
        | exact keeps_consume hT _
        | exact keeps_expect hT _
        | exact keeps_expect_number hT
        | apply keeps_bind
        | apply keeps_ite
        | intro _
    case mul_loop =>
      rw [Traced.mul_loop]
      repeat first
        | assumption
        | exact keeps_pure toks _
        | exact keeps_consume hT _
        | exact keeps_expect hT _
        | exact keeps_expect_number hT
        | apply h_mul_loop
        | apply keeps_bind
        | apply keeps_ite
        | intro _
    case mul =>
      rw [Traced.mul]
      repeat first
        | assumption
        | exact keeps_pure toks _
        | exact keeps_consume hT _
        | exact keeps_expect hT _
        | exact keeps_expect_number hT
        | apply h_mul_loop
        | apply keeps_bind
        | apply keeps_ite
        | intro _
    case add_loop =>
      rw [Traced.add_loop]
      repeat first
        | assumption
        | exact keeps_pure toks _
        | exact keeps_consume hT _
        | exact keeps_expect hT _
        | exact keeps_expect_number hT
        | apply h_add_loop
        | apply keeps_bind
        | apply keeps_ite
        | intro _
    case add =>
      rw [Traced.add]
      repeat first
        | assumption
        | exact keeps_pure toks _
        | exact keeps_consume hT _
        | exact keeps_expect hT _
        | exact keeps_expect_number hT
        | apply h_add_loop
        | apply keeps_bind
        | apply keeps_ite
        | intro _
    case relational_loop =>
      rw [Traced.relational_loop]
      repeat first
        | assumption
        | exact keeps_pure toks _
        | exact keeps_consume hT _
        | exact keeps_expect hT _
        | exact keeps_expect_number hT
        | apply h_relational_loop
        | apply keeps_bind
        | apply keeps_ite
        | intro _
    case relational =>
      rw [Traced.relational]
      repeat first
        | assumption
        | exact keeps_pure toks _
        | exact keeps_consume hT _
        | exact keeps_expect hT _
        | exact keeps_expect_number hT
        | apply h_relational_loop
        | apply keeps_bind
        | apply keeps_ite
        | intro _
    case equality_loop =>
      rw [Traced.equality_loop]
      repeat first
        | assumption
        | exact keeps_pure toks _
        | exact keeps_consume hT _
        | exact keeps_expect hT _
        | exact keeps_expect_number hT
        | apply h_equality_loop
        | apply keeps_bind
        | apply keeps_ite
        | intro _
    case equality =>
      rw [Traced.equality]
      repeat first
        | assumption
        | exact keeps_pure toks _
        | exact keeps_consume hT _
        | exact keeps_expect hT _
        | exact keeps_expect_number hT
        | apply h_equality_loop
        | apply keeps_bind
        | apply keeps_ite
        | intro _
    case expr =>
      rw [Traced.expr]
      exact h_equality

/-! ## The cursor in a run of `expr` on a list that ends with the end-of-input token -/

theorem eof_terminated_ne_nil {toks : List Token} (hT : eof_terminated toks) : toks ≠ [] := by
  obtain ⟨body, eof, rfl, _⟩ := hT
  simp

theorem good_hist_single {toks cur : List Token} (h1 : cur ≠ []) (h2 : cur <:+ toks) :
    good_hist toks [cur] := by
  refine ⟨?_, List.chain'_singleton cur⟩
  intro c hc
  rw [List.mem_singleton.mp hc]
  exact ⟨h1, h2⟩

theorem traced_hist_out (r : Traced.Res α) (h : Traced.erase r ≠ Res.out_of_depth) :
    r ≠ Traced.Res.out_of_depth := by
  intro hr
  rw [hr] at h
  exact h rfl

/-- On a list that ends with the end-of-input token no routine, started on a
non-empty suffix of the list, dereferences the null pointer. -/
theorem call_ne_null_deref {toks : List Token} (hT : eof_terminated toks) (fn : Fn)
    (d : Nat) (node : Node) {cur : List Token} (h1 : cur ≠ []) (h2 : cur <:+ toks) :
    call fn d node cur ≠ Res.null_deref := by
  intro hn
  have hs := traced_sim_call d fn node cur []
  rw [hn] at hs
  rcases keeps_call hT d fn node cur [] (good_hist_single h1 h2) with h | ⟨h, _⟩
  · rw [h] at hs
    cases hs
  · cases hr : Traced.call fn d node cur [] with
    | ok v c past => rw [hr] at hs; cases hs
    | error loc msg c past => rw [hr] at hs; cases hs
    | null_deref past =>
      rw [hr] at h
      exact (h.1 [] (List.mem_cons_self _ _)).1 rfl
    | out_of_depth => rw [hr] at hs; cases hs

/-- The history of the run of `expr` from the first token of a list that ends
with the end-of-input token is good and starts with the whole list. -/
theorem run_expr_hist {toks : List Token} (hT : eof_terminated toks) :
    good_hist toks (Traced.hist (Traced.run Traced.expr toks)) ∧
      [toks] <:+ Traced.hist (Traced.run Traced.expr toks) := by
  have hs : Traced.erase (Traced.run Traced.expr toks) = run expr toks :=
    traced_sim_call _ Fn.expr Node.NULL toks []
  have hne : Traced.run Traced.expr toks ≠ Traced.Res.out_of_depth :=
    traced_hist_out _ (by rw [hs]; exact run_expr_ne_out_of_depth toks)
  rcases keeps_call hT _ Fn.expr Node.NULL toks []
    (good_hist_single (eof_terminated_ne_nil hT) (List.suffix_refl toks)) with h | h
  · exact absurd h hne
  · exact h

/-- A successful run of `expr` consumed at least one token. -/
theorem run_expr_proper {toks rest : List Token} {t : Node}
    (h : run expr toks = Res.ok t rest) : rest <:+ toks ∧ rest.length < toks.length := by
  obtain ⟨ts, hts, hd⟩ := sound _ Fn.expr Node.NULL toks t rest h
  have hne := derives_ne_nil hd
  refine ⟨⟨ts, hts.symm⟩, ?_⟩
  rw [hts, List.length_append]
  have : 0 < ts.length := List.length_pos.mpr hne
  omega

/-- C16: the cursor invariant.  On every token list that ends with an
end-of-input token, every value the cursor takes in the run of `expr` from the
first token, the one at a return and the one at an error included, is a
non-empty suffix of the list, so the cursor is never null and never past the
end-of-input token; each value is the one before it moved forward by one token,
so the cursor never rewinds; and when `expr` succeeds the final cursor is a
proper suffix of the initial one.  The run with the history is the run of
`expr`. -/
theorem C16_cursor_invariant (toks : List Token) (hT : eof_terminated toks) :
    Traced.erase (Traced.run Traced.expr toks) = run expr toks ∧
    (∀ c ∈ Traced.hist (Traced.run Traced.expr toks), c ≠ [] ∧ c <:+ toks) ∧
    List.Chain' step_back (Traced.hist (Traced.run Traced.expr toks)) ∧
    [toks] <:+ Traced.hist (Traced.run Traced.expr toks) ∧
    run expr toks ≠ Res.null_deref ∧
    (∀ t rest, run expr toks = Res.ok t rest → rest <:+ toks ∧ rest.length < toks.length) := by
  have hh := run_expr_hist hT
  exact ⟨traced_sim_call _ Fn.expr Node.NULL toks [], hh.1.1, hh.1.2, hh.2,
    call_ne_null_deref hT Fn.expr _ Node.NULL (eof_terminated_ne_nil hT) (List.suffix_refl toks),
    fun t rest h => run_expr_proper h⟩

theorem C16_cursor_invariant_witness :
    Traced.erase (Traced.run Traced.expr toks_paren_1_plus_2) = run expr toks_paren_1_plus_2 ∧
    (∀ c ∈ Traced.hist (Traced.run Traced.expr toks_paren_1_plus_2),
      c ≠ [] ∧ c <:+ toks_paren_1_plus_2) ∧
    List.Chain' step_back (Traced.hist (Traced.run Traced.expr toks_paren_1_plus_2)) ∧
    [toks_paren_1_plus_2] <:+ Traced.hist (Traced.run Traced.expr toks_paren_1_plus_2) ∧
    run expr toks_paren_1_plus_2 ≠ Res.null_deref ∧
    (∀ t rest, run expr toks_paren_1_plus_2 = Res.ok t rest →
      rest <:+ toks_paren_1_plus_2 ∧ rest.length < toks_paren_1_plus_2.length) :=
  C16_cursor_invariant toks_paren_1_plus_2
    ⟨[op_tok "(" "1+2", num_tok 1 "1" "+2", op_tok "+" "2", num_tok 2 "2" ""], eof_tok, rfl,
      by decide⟩

/-- C18: termination.  On every token list that ends with an end-of-input
token the run of `expr` ends, with a tree or with an error, and every larger
depth counter gives the same result.  The routine `primary` re-enters `expr`,
and every loop starts its next turn, from the cursor that `consume` has moved
forward by one token; no routine returns with more tokens after the cursor than
it started with. -/
theorem C18_termination (toks : List Token) (hT : eof_terminated toks) :
    ((∃ t rest, run expr toks = Res.ok t rest) ∨
      (∃ loc msg cur, run expr toks = Res.error loc msg cur)) ∧
    (∀ d, 7 * toks.length + 7 ≤ d → expr d toks = run expr toks) ∧
    (∀ (d : Nat) (tok : Token) (next : List Token),
      primary (d + 1) (tok :: next) =
          (expect_number >>= fun v => pure (new_node_num v)) (tok :: next) ∨
        primary (d + 1) (tok :: next) =
          (expr d >>= fun node => expect ")" >>= fun _ => pure node) next) ∧
    (∀ (d : Nat) (node : Node) (tok : Token) (next : List Token),
      (mul_loop (d + 1) node (tok :: next) = Res.ok node (tok :: next) ∨
        ∃ k : Node → Node, mul_loop (d + 1) node (tok :: next) =
          (unary d >>= fun x => mul_loop d (k x)) next) ∧
      (add_loop (d + 1) node (tok :: next) = Res.ok node (tok :: next) ∨
        ∃ k : Node → Node, add_loop (d + 1) node (tok :: next) =
          (mul d >>= fun x => add_loop d (k x)) next) ∧
      (relational_loop (d + 1) node (tok :: next) = Res.ok node (tok :: next) ∨
        ∃ k : Node → Node, relational_loop (d + 1) node (tok :: next) =
          (add d >>= fun x => relational_loop d (k x)) next) ∧
      (equality_loop (d + 1) node (tok :: next) = Res.ok node (tok :: next) ∨
        ∃ k : Node → Node, equality_loop (d + 1) node (tok :: next) =
          (relational d >>= fun x => equality_loop d (k x)) next)) ∧
    (∀ (fn : Fn) (d : Nat) (node : Node) (cur : List Token) (t : Node) (rest : List Token),
      call fn d node cur = Res.ok t rest → rest.length ≤ cur.length) := by
  refine ⟨?_, ?_, ?_, ?_, ?_⟩
  · have h1 := run_expr_ne_out_of_depth toks
    have h2 : run expr toks ≠ Res.null_deref :=
      call_ne_null_deref hT Fn.expr _ Node.NULL (eof_terminated_ne_nil hT)
        (List.suffix_refl toks)
    cases hr : run expr toks with
    | ok t rest => exact Or.inl ⟨t, rest, rfl⟩
    | error loc msg cur => exact Or.inr ⟨loc, msg, cur, rfl⟩
    | null_deref => exact absurd hr h2
    | out_of_depth => exact absurd hr h1
  · intro d hd
    exact call_stable Fn.expr Node.NULL rfl (run_expr_ne_out_of_depth toks) hd
  · intro d tok next
    by_cases hl : is_op "(" tok
    · exact Or.inr (primary_paren hl next)
    · exact Or.inl (primary_other hl next)
  · intro d node tok next
    refine ⟨?_, ?_, ?_, ?_⟩
    · by_cases h1 : is_op "*" tok
      · exact Or.inr ⟨_, mul_loop_star h1 node next⟩
      · by_cases h2 : is_op "/" tok
        · exact Or.inr ⟨_, mul_loop_slash h2 node next⟩
        · exact Or.inl (mul_loop_stop h1 h2 node next)
    · by_cases h1 : is_op "+" tok
      · exact Or.inr ⟨_, add_loop_plus h1 node next⟩
      · by_cases h2 : is_op "-" tok
        · exact Or.inr ⟨_, add_loop_minus h2 node next⟩
        · exact Or.inl (add_loop_stop h1 h2 node next)
    · by_cases h1 : is_op "<=" tok
      · exact Or.inr ⟨_, relational_loop_le h1 node next⟩
      · by_cases h2 : is_op ">=" tok
        · exact Or.inr ⟨_, relational_loop_ge h2 node next⟩
        · by_cases h3 : is_op "<" tok
          · exact Or.inr ⟨_, relational_loop_lt h3 node next⟩
          · by_cases h4 : is_op ">" tok
            · exact Or.inr ⟨_, relational_loop_gt h4 node next⟩
            · exact Or.inl (relational_loop_stop h1 h2 h3 h4 node next)
    · by_cases h1 : is_op "==" tok
      · exact Or.inr ⟨_, equality_loop_eq h1 node next⟩
      · by_cases h2 : is_op "!=" tok
        · exact Or.inr ⟨_, equality_loop_ne h2 node next⟩
        · exact Or.inl (equality_loop_stop h1 h2 node next)
  · intro fn d node cur t rest h
    exact List.IsSuffix.length_le (call_ok_suffix fn node h)

theorem C18_termination_witness :
    (∃ t rest, run expr (toks_1_plus_2_times_3 ++ [eof_tok]) = Res.ok t rest) ∨
      (∃ loc msg cur, run expr (toks_1_plus_2_times_3 ++ [eof_tok]) = Res.error loc msg cur) :=
  (C18_termination (toks_1_plus_2_times_3 ++ [eof_tok])
    ⟨toks_1_plus_2_times_3, eof_tok, rfl, by decide⟩).1

end Parser9cc
